import Mathlib

/-!
# A linked-list string queue (`queue.c`)

A shallow embedding of the queue operations of `queue.c` and the proofs of
their contracts.

## Memory model

* A list element lives at an address (`Addr`); the NULL pointer is `none`, a
  pointer to an element is `some a`.
* `Mem` maps every address to the element stored there, or to `none` when no
  live element is there (never allocated, or freed).
* A character buffer is the list of its bytes; the C string it holds is the
  bytes before the first zero byte (`cstring`), the end of the list standing
  for a terminator as well.
* An operation returns `none` when the C code would have undefined behaviour
  (a NULL or dangling pointer is dereferenced, a store lands outside the
  caller's buffer) or when a loop is still running after `fuel` iterations.
* `malloc` is an oracle: its result is a parameter of the operation that
  calls it.  The theorems assume of it only what the C standard promises, that
  a returned block does not overlap a live one.
* `queue.h` is not part of the sources; the element and queue records follow
  the field accesses of `queue.c`.  The `size` counter is a C `int` of 32 bits:
  `q->size++` and `q->size--` are computed in two's complement (`wrap_int`),
  so that one more than `INT_MAX` is `INT_MIN`, and `q_size` returns an `int`.
  (The C standard leaves signed overflow undefined; the wrap is what the
  usual targets compute.)  The predicate `QueueOf` describes a queue whose
  `size` is the number of its elements, which is then at most `INT_MAX`.
-/

namespace LabQueue

/-! ## Data model -/

/-- Address of a list element. -/
abbrev Addr := Nat

/-- A list element: the stored string and the link to the next element. -/
structure list_ele_t where
  value : List Nat
  next : Option Addr
  deriving DecidableEq

/-- The queue record: first element, last element, cached element count (a C
`int`: every store of the operations reduces it to the range of `int`). -/
structure queue_t where
  head : Option Addr
  tail : Option Addr
  size : Int
  deriving DecidableEq

/-- Element memory: the live list elements by address. -/
abbrev Mem := Addr → Option list_ele_t

/-- Program state seen through a queue handle: the element memory and the
queue record the handle points to (`none` for a NULL handle). -/
structure State where
  mem : Mem
  q : Option queue_t

/-- Store an element (or nothing) at an address. -/
def Mem.set (m : Mem) (a : Addr) (e : Option list_ele_t) : Mem :=
  fun x => if x = a then e else m x

/-- Result of a successful `malloc(sizeof(list_ele_t))` at address `a`: a live
element whose fields are not yet written. -/
def Mem.alloc (m : Mem) (a : Addr) : Mem := m.set a (some ⟨[], none⟩)

/-- Effect of `free` on a list element. -/
def Mem.free (m : Mem) (a : Addr) : Mem := m.set a none

/-- Read through an element pointer; faults on NULL and on a dangling pointer. -/
def deref (m : Mem) (p : Option Addr) : Option list_ele_t := p.bind m

/-- The store `p->next = nx`. -/
def store_next (m : Mem) (p : Option Addr) (nx : Option Addr) : Option Mem :=
  match p with
  | none => none
  | some a =>
    match m a with
    | none => none
    | some e => some (m.set a (some { e with next := nx }))

/-- The store `p->value = v` (the copy made by `malloc` and `strncpy`). -/
def store_value (m : Mem) (p : Option Addr) (v : List Nat) : Option Mem :=
  match p with
  | none => none
  | some a =>
    match m a with
    | none => none
    | some e => some (m.set a (some { e with value := v }))

/-! ## Machine integers -/

/-- The largest C `int`, `2 ^ 31 - 1`. -/
def INT_MAX : Int := 2147483647

/-- The value of an integer as a 32-bit two's complement `int`: the
representative of `x` modulo `2 ^ 32` in the range `-2 ^ 31 .. 2 ^ 31 - 1`. -/
def wrap_int (x : Int) : Int := (x + 2147483648) % 4294967296 - 2147483648

/-! ## Strings -/

/-- The C string held by a byte buffer: the bytes before the first zero. -/
def cstring (buf : List Nat) : List Nat := buf.takeWhile (fun b => b != 0)

/-- Length of a C string. -/
def strlen (s : List Nat) : Nat := (cstring s).length

/-- The bytes `strncpy(dst, src, n)` stores at `dst[0], ..., dst[n-1]`: the
bytes of the string `src`, then zero bytes once `src` is exhausted. -/
def strncpy (src : List Nat) (n : Nat) : List Nat :=
  (List.range n).map (fun i => (cstring src).getD i 0)

/-- Byte-wise comparison of two zero-free byte sequences: negative, zero or
positive as the first is smaller than, equal to or greater than the second. -/
def strcmp_bytes : List Nat → List Nat → Int
  | [], [] => 0
  | [], b :: _ => 0 - (b : Int)
  | a :: _, [] => (a : Int)
  | a :: as, b :: bs => if a = b then strcmp_bytes as bs else (a : Int) - (b : Int)

/-- The C library `strcmp` on the strings held by two buffers. -/
def strcmp (s1 s2 : List Nat) : Int := strcmp_bytes (cstring s1) (cstring s2)

/-- Width of `size_t` arithmetic. -/
def SIZE_MOD : Nat := 2 ^ 64

/-- The stores `q_remove_head` makes through `sp`, in program order, as
(index, byte) pairs: `strncpy(sp, value, bufsize)` and then
`sp[bufsize - 1] = 0`, the index computed in `size_t`. -/
def remove_head_writes (value : List Nat) (bufsize : Nat) : List (Nat × Nat) :=
  ((List.range bufsize).zip (strncpy value bufsize)) ++
    [((bufsize + SIZE_MOD - 1) % SIZE_MOD, 0)]

/-- Perform stores on a buffer; a store outside the buffer faults. -/
def apply_writes : List Nat → List (Nat × Nat) → Option (List Nat)
  | buf, [] => some buf
  | buf, (i, b) :: ws => if i < buf.length then apply_writes (buf.set i b) ws else none

/-! ## Queue operations -/

/-- Create an empty queue; NULL when the allocation fails. -/
def q_new (malloc_ok : Bool) : Option queue_t :=
  if malloc_ok then some ⟨none, none, 0⟩ else none

/-- The loop of `q_free`: free every element reachable from `node`, counting
the size down. -/
def q_free_loop : Nat → Mem → Option Addr → Int → Option (Mem × Int)
  | _, m, none, size => some (m, size)
  | 0, _, some _, _ => none
  | fuel + 1, m, some a, size =>
    match m a with
    | none => none
    | some e => q_free_loop fuel (m.free a) e.next (wrap_int (size - 1))

/-- Free all storage used by the queue; returns the element memory left. -/
def q_free (fuel : Nat) (st : State) : Option Mem :=
  match st.q with
  | none => some st.mem
  | some q => (q_free_loop fuel st.mem q.head q.size).map Prod.fst

/-- Insert a copy of `s` at the head.  `newh` is the result of the element
`malloc`, `val_ok` tells whether the `malloc` of the string succeeds. -/
def q_insert_head (st : State) (s : List Nat) (newh : Option Addr) (val_ok : Bool) :
    Option (Bool × State) :=
  match st.q with
  | none => some (false, st)
  | some q =>
    match newh with
    | none => some (false, st)
    | some a =>
      let m1 := st.mem.alloc a
      if !val_ok then some (false, { st with mem := m1.free a })
      else do
        let m2 ← store_value m1 (some a) (strncpy s (strlen s + 1))
        let tail := if q.tail.isNone then newh else q.tail
        let m3 ← store_next m2 newh q.head
        some (true, ⟨m3, some ⟨newh, tail, wrap_int (q.size + 1)⟩⟩)

/-- Insert a copy of `s` at the tail.  `newh` is the result of the element
`malloc`, `val_ok` tells whether the `malloc` of the string succeeds. -/
def q_insert_tail (st : State) (s : List Nat) (newh : Option Addr) (val_ok : Bool) :
    Option (Bool × State) :=
  match st.q with
  | none => some (false, st)
  | some q =>
    match newh with
    | none => some (false, st)
    | some a => do
      let m1 ← store_next (st.mem.alloc a) (some a) none
      if !val_ok then some (false, { st with mem := m1.free a })
      else do
        let m2 ← store_value m1 (some a) (strncpy s (strlen s + 1))
        let (m3, head) ←
          if q.head.isNone then some (m2, newh)
          else (store_next m2 q.tail newh).map (fun m => (m, q.head))
        some (true, ⟨m3, some ⟨head, newh, wrap_int (q.size + 1)⟩⟩)

/-- Remove the head element; when `sp` is a buffer, copy the removed string
into it, at most `bufsize - 1` bytes and a terminator. -/
def q_remove_head (st : State) (sp : Option (List Nat)) (bufsize : Nat) :
    Option (Bool × State × Option (List Nat)) :=
  match st.q with
  | none => some (false, st, sp)
  | some q =>
    match q.head with
    | none => some (false, st, sp)
    | some a => do
      let node ← st.mem a
      let head := node.next
      let sp' ← match sp with
        | none => some none
        | some buf => (apply_writes buf (remove_head_writes node.value bufsize)).map some
      let m1 := st.mem.free a
      let tail := if head.isNone then none else q.tail
      some (true, ⟨m1, some ⟨head, tail, wrap_int (q.size - 1)⟩⟩, sp')

/-- Number of elements in the queue; 0 for a NULL or empty queue.  The value
returned is the `int` held by `size`. -/
def q_size (st : State) : Int :=
  match st.q with
  | none => 0
  | some q => if q.head.isNone then 0 else wrap_int q.size

/-- The loop of `q_reverse`: move the elements of `aux_list` one by one to the
front of `rev_list`. -/
def reverse_loop : Nat → Mem → Option Addr → Option Addr → Option (Mem × Option Addr)
  | _, m, rev_list, none => some (m, rev_list)
  | 0, _, _, some _ => none
  | fuel + 1, m, rev_list, some tmp =>
    match m tmp with
    | none => none
    | some e =>
      match store_next m (some tmp) rev_list with
      | none => none
      | some m1 => reverse_loop fuel m1 (some tmp) e.next

/-- Reverse the elements of the queue in place. -/
def q_reverse (fuel : Nat) (st : State) : Option State :=
  match st.q with
  | none => some st
  | some q =>
    if q.head.isNone || decide (q.size ≤ 1) then some st
    else do
      let rev_list := q.head
      let e ← deref st.mem q.head
      let aux_list := e.next
      let m1 ← store_next st.mem rev_list none
      let (m2, rev_list) ← reverse_loop fuel m1 rev_list aux_list
      some ⟨m2, some ⟨rev_list, q.head, q.size⟩⟩

/-- The loop of `merge`: while both chains are non-empty, link the smaller
front element after `curr`; then link what is left of either chain. -/
def merge_loop : Nat → Mem → Option Addr → Option Addr → Option Addr → Option Mem
  | 0, _, _, some _, some _ => none
  | fuel + 1, m, curr, some a, some b =>
    match m a, m b with
    | some e1, some e2 =>
      if strcmp e1.value e2.value < 0 then
        match store_next m curr (some a) with
        | none => none
        | some m1 =>
          match m1 a, deref m1 curr with
          | some e1', some c => merge_loop fuel m1 c.next e1'.next (some b)
          | _, _ => none
      else
        match store_next m curr (some b) with
        | none => none
        | some m1 =>
          match m1 b, deref m1 curr with
          | some e2', some c => merge_loop fuel m1 c.next (some a) e2'.next
          | _, _ => none
    | _, _ => none
  | _, m, curr, some a, none => store_next m curr (some a)
  | _, m, curr, none, some b => store_next m curr (some b)
  | _, m, _, none, none => some m

/-- Merge two sorted chains; returns the memory and the head of the result. -/
def merge (fuel : Nat) (m : Mem) (l1 l2 : Option Addr) : Option (Mem × Option Addr) :=
  match l2 with
  | none => some (m, l1)
  | some b =>
    match l1 with
    | none => some (m, l2)
    | some a =>
      match m a, m b with
      | some e1, some e2 =>
        if strcmp e1.value e2.value < 0 then
          (merge_loop fuel m l1 e1.next l2).map (fun m1 => (m1, l1))
        else
          (merge_loop fuel m l2 l1 e2.next).map (fun m1 => (m1, l2))
      | _, _ => none

/-- The slow/fast walk of `mergeSort`; returns the final `slow`. -/
def split_loop : Nat → Mem → Option Addr → Option Addr → Option (Option Addr)
  | _, _, slow, none => some slow
  | 0, _, _, some _ => none
  | fuel + 1, m, slow, some f =>
    match m f with
    | none => none
    | some ef =>
      match ef.next with
      | none => some slow
      | some f2 =>
        match deref m slow, m f2 with
        | some es, some ef2 => split_loop fuel m es.next ef2.next
        | _, _ => none

/-- Sort the chain starting at `head`; returns the memory and the head of the
sorted chain.  `fuel` bounds the recursion depth and the loops. -/
def mergeSort : Nat → Mem → Option Addr → Option (Mem × Option Addr)
  | 0, _, _ => none
  | fuel + 1, m, head =>
    match deref m head with
    | none => if head.isNone then some (m, head) else none
    | some e =>
      if e.next.isNone then some (m, head)
      else
        match split_loop fuel m head e.next with
        | none => none
        | some slow =>
          match deref m slow with
          | none => none
          | some es =>
            match store_next m slow none with
            | none => none
            | some m1 =>
              match mergeSort fuel m1 head with
              | none => none
              | some (m2, l1) =>
                match mergeSort fuel m2 es.next with
                | none => none
                | some (m3, l2) => merge fuel m3 l1 l2

/-- The division step of `mergeSort` on a chain of at least two elements:
the slow/fast walk from `head` and `head->next`, then `fast = slow->next` and
`slow->next = NULL`; returns the memory and the head of the second part. -/
def sever (fuel : Nat) (m : Mem) (head : Option Addr) : Option (Mem × Option Addr) :=
  match deref m head with
  | none => none
  | some e =>
    match split_loop fuel m head e.next with
    | none => none
    | some slow =>
      match deref m slow with
      | none => none
      | some es =>
        match store_next m slow none with
        | none => none
        | some m1 => some (m1, es.next)

/-- The walk of `q_sort` to the last element: `while (tmp->next) tmp = tmp->next`. -/
def last_loop : Nat → Mem → Option Addr → Option (Option Addr)
  | 0, _, _ => none
  | fuel + 1, m, tmp =>
    match deref m tmp with
    | none => none
    | some e => if e.next.isNone then some tmp else last_loop fuel m e.next

/-- Sort the elements of the queue in ascending order. -/
def q_sort (fuel : Nat) (st : State) : Option State :=
  match st.q with
  | none => some st
  | some q =>
    if q.head.isNone || decide (q.size ≤ 1) then some st
    else
      match mergeSort fuel st.mem q.head with
      | none => none
      | some (m1, head) =>
        match last_loop fuel m1 head with
        | none => none
        | some tmp => some ⟨m1, some ⟨head, tmp, q.size⟩⟩

/-! ## Specification vocabulary -/

/-- Executable check that following `next` links from `p` visits exactly the
addresses of `L`, all live, and then arrives at `q`. -/
def segb (m : Mem) : Option Addr → List Addr → Option Addr → Bool
  | p, [], q => decide (p = q)
  | p, a :: as, q =>
    decide (p = some a) &&
      (match m a with
       | none => false
       | some e => segb m e.next as q)

/-- The elements `L` form a path in `m` from `p` to `q`. -/
def Seg (m : Mem) (p : Option Addr) (L : List Addr) (q : Option Addr) : Prop :=
  segb m p L q = true

/-- The elements reachable from `p` are exactly `L`, ending in NULL. -/
def Chain (m : Mem) (p : Option Addr) (L : List Addr) : Prop := Seg m p L none

instance (m : Mem) (p : Option Addr) (L : List Addr) (q : Option Addr) :
    Decidable (Seg m p L q) := inferInstanceAs (Decidable (segb m p L q = true))

instance (m : Mem) (p : Option Addr) (L : List Addr) : Decidable (Chain m p L) :=
  inferInstanceAs (Decidable (Seg m p L none))

/-- The buffer stored at an address (empty when nothing lives there). -/
def value_at (m : Mem) (a : Addr) : List Nat :=
  match m a with
  | none => []
  | some e => e.value

/-- The strings held by the elements `L`, in order. -/
def contents (m : Mem) (L : List Addr) : List (List Nat) :=
  L.map (fun a => cstring (value_at m a))

/-- Follow the `next` links from `p` to NULL and list the addresses met. -/
def walk : Nat → Mem → Option Addr → Option (List Addr)
  | _, _, none => some []
  | 0, _, some _ => none
  | fuel + 1, m, some a =>
    match m a with
    | none => none
    | some e => (walk fuel m e.next).map (fun as => a :: as)

/-- The strings of the queue read from head to tail (none for a NULL handle). -/
def q_contents (fuel : Nat) (st : State) : Option (List (List Nat)) :=
  match st.q with
  | none => none
  | some q => (walk fuel st.mem q.head).map (contents st.mem)

/-- The elements of the queue listed from head to tail (none for a NULL
handle). -/
def q_nodes (fuel : Nat) (st : State) : Option (List Addr) :=
  match st.q with
  | none => none
  | some q => walk fuel st.mem q.head

/-- The queue invariant: `size`, an `int`, is the number of elements
reachable from `head`; `head` is absent iff `tail` is absent iff `size` is 0;
a present `tail` is the last element reachable from `head` and its link is
absent. -/
def queue_inv (m : Mem) (q : queue_t) : Prop :=
  ∃ L : List Addr, Chain m q.head L ∧ (q.size = L.length ∧ q.size ≤ INT_MAX) ∧
    (q.head = none ↔ q.tail = none) ∧ (q.tail = none ↔ q.size = 0) ∧
    ∀ t, q.tail = some t → L.getLast? = some t ∧ ∃ e, m t = some e ∧ e.next = none

/-- The queue invariant of a state; a NULL handle has no queue to constrain. -/
def Inv (st : State) : Prop :=
  match st.q with
  | none => True
  | some q => queue_inv st.mem q

/-- The elements reachable from `head` are `L`, `tail` is the last of them
and `size` is their number, as an integer without bound. -/
def QueueExact (m : Mem) (q : queue_t) (L : List Addr) : Prop :=
  Chain m q.head L ∧ q.size = L.length ∧ q.tail = L.getLast?

/-- The elements reachable from `head` are `L`, `tail` is the last of them
and `size` is their number reduced to the range of `int`: what the
operations maintain whatever the number of elements. -/
def QueueWrapped (m : Mem) (q : queue_t) (L : List Addr) : Prop :=
  Chain m q.head L ∧ q.size = wrap_int L.length ∧ q.tail = L.getLast?

/-- The queue `q` consists of the elements `L`, in order: `head` leads
through `L`, `tail` is the last element, and `size`, an `int`, is the number
of elements. -/
def QueueOf (m : Mem) (q : queue_t) (L : List Addr) : Prop :=
  QueueExact m q L ∧ (L.length : Int) ≤ INT_MAX

/-- Two memories hold the same elements with the same strings. -/
def SameValues (m m' : Mem) : Prop :=
  ∀ x, (m' x).map (fun e => e.value) = (m x).map (fun e => e.value)

/-! ## Sorting on lists of elements

The list functions that the in-place `merge` and `mergeSort` are shown to
compute on the list of elements of a chain. -/

/-- The test of `merge`, `strcmp(x->value, y->value) < 0`, on two elements. -/
def lt_at (m : Mem) (x y : Addr) : Bool :=
  decide (strcmp (value_at m x) (value_at m y) < 0)

/-- Merge of two lists: the front of the first list is taken when `lt` holds
of the two fronts, the front of the second list otherwise. -/
def mergeL (lt : Addr → Addr → Bool) : List Addr → List Addr → List Addr
  | [], B => B
  | a :: A, [] => a :: A
  | a :: A, b :: B =>
    if lt a b then a :: mergeL lt A (b :: B) else b :: mergeL lt (a :: A) B
termination_by A B => A.length + B.length

/-- Top-down merge sort that cuts a list of `n ≥ 2` elements after its first
`(n + 1) / 2` elements. -/
def msortL (lt : Addr → Addr → Bool) (L : List Addr) : List Addr :=
  if L.length < 2 then L
  else
    mergeL lt (msortL lt (L.take ((L.length + 1) / 2)))
      (msortL lt (L.drop ((L.length + 1) / 2)))
termination_by L.length
decreasing_by
  all_goals simp_wf
  all_goals omega

/-- The string of `x` is not greater than the string of `y` under `strcmp`. -/
def le_at (m : Mem) (x y : Addr) : Prop := strcmp (value_at m x) (value_at m y) ≤ 0

instance (m : Mem) (x y : Addr) : Decidable (le_at m x y) :=
  inferInstanceAs (Decidable (strcmp (value_at m x) (value_at m y) ≤ 0))

/-- The strings of the elements `L`, read in order, are non-decreasing under
`strcmp`. -/
def SortedAt (m : Mem) (L : List Addr) : Prop := L.Pairwise (le_at m)

instance (m : Mem) (L : List Addr) : Decidable (SortedAt m L) :=
  inferInstanceAs (Decidable (L.Pairwise (le_at m)))

/-- No two elements of `L` hold strings that compare equal under `strcmp`. -/
def NoTies (m : Mem) (L : List Addr) : Prop :=
  L.Pairwise (fun x y => strcmp (value_at m x) (value_at m y) ≠ 0)

instance (m : Mem) (L : List Addr) : Decidable (NoTies m L) :=
  inferInstanceAs
    (Decidable (L.Pairwise (fun x y => strcmp (value_at m x) (value_at m y) ≠ 0)))

/-- The element `x` comes before the element `y` in `L`. -/
def Before (L : List Addr) (x y : Addr) : Prop := [x, y].Sublist L

instance (L : List Addr) (x y : Addr) : Decidable (Before L x y) :=
  inferInstanceAs (Decidable ([x, y].Sublist L))

/-! ## Sequences of calls -/

/-- A call of an insertion or of the removal, with what the environment
answers: the results of the `malloc` calls, the caller's buffer. -/
inductive Op where
  | insert_head (s : List Nat) (newh : Option Addr) (val_ok : Bool)
  | insert_tail (s : List Nat) (newh : Option Addr) (val_ok : Bool)
  | remove_head (sp : Option (List Nat)) (bufsize : Nat)

/-- Perform a call; returns what the call returned and the state it left. -/
def step (st : State) : Op → Option (Bool × State)
  | .insert_head s newh val_ok => q_insert_head st s newh val_ok
  | .insert_tail s newh val_ok => q_insert_tail st s newh val_ok
  | .remove_head sp bufsize => (q_remove_head st sp bufsize).map (fun r => (r.1, r.2.1))

/-- Perform a sequence of calls; returns the final state, the number of
insertions that returned true and the number of removals that returned true. -/
def run : State → List Op → Option (State × Nat × Nat)
  | st, [] => some (st, 0, 0)
  | st, op :: ops =>
    match step st op with
    | none => none
    | some (r, st1) =>
      match run st1 ops with
      | none => none
      | some (st2, i, d) =>
        match op with
        | .remove_head _ _ => some (st2, i, d + (if r then 1 else 0))
        | _ => some (st2, i + (if r then 1 else 0), d)

/-- What a call may assume of its environment: a block returned by `malloc`
is not a live element; a supplied buffer has room for the `bufsize > 0` bytes
it is declared to hold, and `bufsize` is a `size_t`. -/
def env_ok (st : State) : Op → Bool
  | .insert_head _ newh _ =>
    match newh with
    | none => true
    | some a => (st.mem a).isNone
  | .insert_tail _ newh _ =>
    match newh with
    | none => true
    | some a => (st.mem a).isNone
  | .remove_head sp bufsize =>
    match sp with
    | none => true
    | some buf => decide (0 < bufsize) && decide (bufsize ≤ buf.length) &&
        decide (bufsize < SIZE_MOD)

/-- The environment keeps its promises all along a sequence of calls. -/
def admissible : State → List Op → Bool
  | _, [] => true
  | st, op :: ops =>
    env_ok st op &&
      (match step st op with
       | none => true
       | some (_, st1) => admissible st1 ops)

/-- Insert the strings of `items` at the tail, in order, each into the block
that `malloc` returns for it; every insertion has to return true. -/
def fill_tail : State → List (List Nat × Addr) → Option State
  | st, [] => some st
  | st, (s, a) :: items =>
    match q_insert_tail st s (some a) true with
    | some (true, st1) => fill_tail st1 items
    | _ => none

/-- Insert the strings of `items` at the head, in order, each into the block
that `malloc` returns for it; every insertion has to return true. -/
def fill_head : State → List (List Nat × Addr) → Option State
  | st, [] => some st
  | st, (s, a) :: items =>
    match q_insert_head st s (some a) true with
    | some (true, st1) => fill_head st1 items
    | _ => none

/-- Call `q_remove_head` `n` times with the buffer `buf` and `bufsize`; every
removal has to return true.  Returns the strings left in the buffer by the
calls, in order, and the final state. -/
def drain (buf : List Nat) (bufsize : Nat) : Nat → State → Option (List (List Nat) × State)
  | 0, st => some ([], st)
  | n + 1, st =>
    match q_remove_head st (some buf) bufsize with
    | some (true, st1, some out) =>
      (drain buf bufsize n st1).map (fun r => (cstring out :: r.1, r.2))
    | _ => none

/-! ## Example states -/

/-- An element memory with no live element. -/
def mem_empty : Mem := fun _ => none

/-- Three elements at addresses 1, 2, 3 holding "a", "b", "c", linked in
this order. -/
def mem_abc : Mem := fun x =>
  if x = 1 then some ⟨[97, 0], some 2⟩
  else if x = 2 then some ⟨[98, 0], some 3⟩
  else if x = 3 then some ⟨[99, 0], none⟩
  else none

/-- The queue record of the queue [a, b, c] in `mem_abc`. -/
def q_abc : queue_t := ⟨some 1, some 3, 3⟩

/-- Two elements at addresses 1 and 2 holding "b" and "a", as left by two
tail insertions into a new queue. -/
def mem_ba : Mem := fun x =>
  if x = 1 then some ⟨[98, 0], some 2⟩
  else if x = 2 then some ⟨[97, 0], none⟩
  else none

/-- The queue record of the queue [b, a] in `mem_ba`. -/
def q_ba : queue_t := ⟨some 1, some 2, 2⟩

/-- Three elements at addresses 1, 2, 3 holding "c", "b", "a", linked in
this order. -/
def mem_cba : Mem := fun x =>
  if x = 1 then some ⟨[99, 0], some 2⟩
  else if x = 2 then some ⟨[98, 0], some 3⟩
  else if x = 3 then some ⟨[97, 0], none⟩
  else none

/-- The queue record of the queue [c, b, a] in `mem_cba`. -/
def q_cba : queue_t := ⟨some 1, some 3, 3⟩

/-- Two elements at addresses 1 and 2, both holding "a", linked in this
order. -/
def mem_aa : Mem := fun x =>
  if x = 1 then some ⟨[97, 0], some 2⟩
  else if x = 2 then some ⟨[97, 0], none⟩
  else none

/-- The queue record of the queue [a, a] in `mem_aa`. -/
def q_aa : queue_t := ⟨some 1, some 2, 2⟩

/-- Two sorted chains with equal strings at their fronts: 1 ("a") then
3 ("b"), and 2 ("a") then 4 ("b"). -/
def mem_ties : Mem := fun x =>
  if x = 1 then some ⟨[97, 0], some 3⟩
  else if x = 3 then some ⟨[98, 0], none⟩
  else if x = 2 then some ⟨[97, 0], some 4⟩
  else if x = 4 then some ⟨[98, 0], none⟩
  else none

/-- Elements at the addresses `0, ..., n - 1`, each holding the empty
string and linked to the next address, the last one to NULL. -/
def mem_line (n : Nat) : Mem := fun x =>
  if x < n then some ⟨[0], if x + 1 < n then some (x + 1) else none⟩ else none

/-- The queue record of the queue made of the `n` elements of `mem_line n`. -/
def q_line (n : Nat) : queue_t :=
  ⟨if 0 < n then some 0 else none, if 0 < n then some (n - 1) else none, n⟩

/-- Successful insertions of the empty string at the head, `n` of them, into
the blocks `k, k + 1, ..., k + n - 1`. -/
def many_inserts (k n : Nat) : List Op :=
  (List.range' k n).map (fun a => Op.insert_head [] (some a) true)

/-! ## Paths through the element memory -/

theorem mem_set_same (m : Mem) (a : Addr) (e : Option list_ele_t) : m.set a e a = e := by
  simp [Mem.set]

theorem mem_set_other (m : Mem) {a x : Addr} (e : Option list_ele_t) (h : x ≠ a) :
    m.set a e x = m x := by
  simp [Mem.set, h]

theorem seg_nil {m : Mem} {p q : Option Addr} : Seg m p [] q ↔ p = q := by
  simp [Seg, segb]

theorem seg_cons {m : Mem} {p q : Option Addr} {a : Addr} {L : List Addr} :
    Seg m p (a :: L) q ↔ p = some a ∧ ∃ e, m a = some e ∧ Seg m e.next L q := by
  unfold Seg
  simp only [segb]
  cases h : m a <;> simp

theorem chain_nil {m : Mem} {p : Option Addr} : Chain m p [] ↔ p = none := seg_nil

theorem chain_cons {m : Mem} {p : Option Addr} {a : Addr} {L : List Addr} :
    Chain m p (a :: L) ↔ p = some a ∧ ∃ e, m a = some e ∧ Chain m e.next L := seg_cons

theorem seg_congr {m m' : Mem} {q : Option Addr} :
    ∀ {L : List Addr} {p : Option Addr}, (∀ x ∈ L, m' x = m x) → Seg m p L q → Seg m' p L q := by
  intro L
  induction L with
  | nil => intro p _ h; exact seg_nil.2 (seg_nil.1 h)
  | cons a L ih =>
    intro p hm h
    obtain ⟨hp, e, he, hrest⟩ := seg_cons.1 h
    refine seg_cons.2 ⟨hp, e, ?_, ih (fun x hx => hm x (List.mem_cons_of_mem _ hx)) hrest⟩
    rw [hm a (List.mem_cons_self _ _)]; exact he

theorem chain_congr {m m' : Mem} {L : List Addr} {p : Option Addr}
    (hm : ∀ x ∈ L, m' x = m x) (h : Chain m p L) : Chain m' p L := seg_congr hm h

theorem seg_append {m : Mem} {q : Option Addr} {B : List Addr} :
    ∀ {A : List Addr} {p : Option Addr},
      Seg m p (A ++ B) q ↔ ∃ r, Seg m p A r ∧ Seg m r B q := by
  intro A
  induction A with
  | nil =>
    intro p
    constructor
    · intro h; exact ⟨p, seg_nil.2 rfl, h⟩
    · rintro ⟨r, h1, h2⟩; rw [seg_nil.1 h1]; exact h2
  | cons a A ih =>
    intro p
    constructor
    · intro h
      obtain ⟨hp, e, he, hrest⟩ := seg_cons.1 h
      obtain ⟨r, h1, h2⟩ := ih.1 hrest
      exact ⟨r, seg_cons.2 ⟨hp, e, he, h1⟩, h2⟩
    · rintro ⟨r, h1, h2⟩
      obtain ⟨hp, e, he, hrest⟩ := seg_cons.1 h1
      exact seg_cons.2 ⟨hp, e, he, ih.2 ⟨r, hrest, h2⟩⟩

theorem seg_live {m : Mem} {q : Option Addr} {x : Addr} :
    ∀ {L : List Addr} {p : Option Addr}, Seg m p L q → x ∈ L → ∃ e, m x = some e := by
  intro L
  induction L with
  | nil => intro p _ hx; simp at hx
  | cons a L ih =>
    intro p h hx
    obtain ⟨_, e, he, hrest⟩ := seg_cons.1 h
    rcases List.mem_cons.1 hx with rfl | hx
    · exact ⟨e, he⟩
    · exact ih hrest hx

theorem chain_live {m : Mem} {x : Addr} {L : List Addr} {p : Option Addr}
    (h : Chain m p L) (hx : x ∈ L) : ∃ e, m x = some e := seg_live h hx

theorem chain_head {m : Mem} {L : List Addr} {p : Option Addr} (h : Chain m p L) :
    p = L.head? := by
  cases L with
  | nil => simpa using chain_nil.1 h
  | cons a L => simpa using (chain_cons.1 h).1

theorem chain_det {m : Mem} :
    ∀ {L1 L2 : List Addr} {p : Option Addr}, Chain m p L1 → Chain m p L2 → L1 = L2 := by
  intro L1
  induction L1 with
  | nil =>
    intro L2 p h1 h2
    have hp := chain_nil.1 h1
    cases L2 with
    | nil => rfl
    | cons b L2 => have := (chain_cons.1 h2).1; rw [hp] at this; cases this
  | cons a L1 ih =>
    intro L2 p h1 h2
    obtain ⟨hp, e, he, hrest⟩ := chain_cons.1 h1
    cases L2 with
    | nil => have := chain_nil.1 h2; rw [hp] at this; cases this
    | cons b L2 =>
      obtain ⟨hp2, e2, he2, hrest2⟩ := chain_cons.1 h2
      rw [hp] at hp2
      cases hp2
      rw [he] at he2
      cases he2
      rw [ih hrest hrest2]

theorem chain_suffix {m : Mem} {A B : List Addr} {p : Option Addr}
    (h : Chain m p (A ++ B)) : Chain m B.head? B := by
  obtain ⟨r, _, h2⟩ := seg_append.1 h
  have := chain_head h2
  rw [this] at h2
  exact h2

theorem chain_nodup {m : Mem} :
    ∀ {L : List Addr} {p : Option Addr}, Chain m p L → L.Nodup := by
  intro L
  induction L with
  | nil => intro _ _; exact List.nodup_nil
  | cons a L ih =>
    intro p h
    obtain ⟨hp, e, he, hrest⟩ := chain_cons.1 h
    refine List.nodup_cons.2 ⟨?_, ih hrest⟩
    intro ha
    obtain ⟨X, Y, hXY⟩ := List.append_of_mem ha
    have h1 : Chain m (some a) (a :: Y) := by
      have := chain_suffix (A := X) (B := a :: Y) (hXY ▸ hrest)
      simpa using this
    have h2 : Chain m (some a) (a :: L) := hp ▸ h
    have h3 := chain_det h1 h2
    have h4 : Y.length = L.length := by
      have := congrArg List.length h3
      simpa using this
    have h5 := congrArg List.length hXY
    simp at h5
    omega

theorem chain_snoc {m : Mem} {L : List Addr} {p : Option Addr} {t : Addr} :
    Chain m p (L ++ [t]) ↔ Seg m p L (some t) ∧ ∃ e, m t = some e ∧ e.next = none := by
  unfold Chain
  rw [seg_append]
  constructor
  · rintro ⟨r, h1, h2⟩
    obtain ⟨hr, e, he, hn⟩ := seg_cons.1 h2
    exact ⟨hr ▸ h1, e, he, seg_nil.1 hn⟩
  · rintro ⟨h1, e, he, hn⟩
    exact ⟨some t, h1, seg_cons.2 ⟨rfl, e, he, seg_nil.2 hn⟩⟩

/-! ## Strings and buffers -/

theorem strncpy_length (src : List Nat) (n : Nat) : (strncpy src n).length = n := by
  simp [strncpy]

theorem strncpy_succ (src : List Nat) (n : Nat) :
    strncpy src (n + 1) = strncpy src n ++ [(cstring src).getD n 0] := by
  simp [strncpy, List.range_succ]

theorem strncpy_eq (src : List Nat) (n : Nat) :
    strncpy src n = (cstring src).take n ++ List.replicate (n - strlen src) 0 := by
  induction n with
  | zero => simp [strncpy]
  | succ n ih =>
    rw [strncpy_succ, ih]
    unfold strlen
    by_cases h : n < (cstring src).length
    · have h1 : n - (cstring src).length = 0 := by omega
      have h2 : n + 1 - (cstring src).length = 0 := by omega
      rw [h1, h2, List.getD_eq_getElem?_getD, List.getElem?_eq_getElem h, List.take_succ,
        List.getElem?_eq_getElem h]
      simp only [List.replicate_zero, List.append_nil, Option.getD_some, Option.toList]
    · have h1 : n + 1 - (cstring src).length = (n - (cstring src).length) + 1 := by omega
      have h3 : (cstring src).length ≤ n := by omega
      rw [h1, List.getD_eq_getElem?_getD, List.getElem?_eq_none h3,
        List.take_of_length_le h3, List.take_of_length_le (by omega), List.replicate_succ']
      simp

theorem cstring_nonzero (s : List Nat) : ∀ b ∈ cstring s, (b != 0) = true := by
  intro b hb
  unfold cstring at hb
  exact List.mem_takeWhile_imp (p := fun b => b != 0) hb

theorem cstring_append_zero (P R : List Nat) (h : ∀ b ∈ P, (b != 0) = true) :
    cstring (P ++ 0 :: R) = P := by
  unfold cstring
  rw [List.takeWhile_append_of_pos h]
  simp

theorem cstring_of_nonzero (s : List Nat) (h : ∀ b ∈ s, b ≠ 0) : cstring s = s := by
  unfold cstring
  rw [List.takeWhile_eq_self_iff]
  intro x hx
  simpa using h x hx

theorem cstring_strncpy (s : List Nat) : cstring (strncpy s (strlen s + 1)) = cstring s := by
  rw [strncpy_eq]
  have h1 : strlen s + 1 - strlen s = 1 := by omega
  rw [h1, List.take_of_length_le (by unfold strlen; omega)]
  exact cstring_append_zero _ [] (cstring_nonzero s)

/-! ## The invariant and the element list -/

theorem wrap_int_of_range {x : Int} (h1 : -2147483648 ≤ x) (h2 : x ≤ INT_MAX) :
    wrap_int x = x := by
  unfold wrap_int
  unfold INT_MAX at h2
  omega

theorem wrap_int_range (x : Int) : -2147483648 ≤ wrap_int x ∧ wrap_int x ≤ INT_MAX := by
  unfold wrap_int INT_MAX
  omega

theorem wrap_int_idem (x : Int) : wrap_int (wrap_int x) = wrap_int x := by
  unfold wrap_int
  omega

theorem wrap_int_succ (x : Int) : wrap_int (wrap_int x + 1) = wrap_int (x + 1) := by
  unfold wrap_int
  omega

theorem wrap_int_pred (x : Int) : wrap_int (wrap_int x - 1) = wrap_int (x - 1) := by
  unfold wrap_int
  omega

theorem wrap_int_length {L : List Addr} (h : (L.length : Int) ≤ INT_MAX) :
    wrap_int L.length = L.length :=
  wrap_int_of_range (by omega) h

theorem repr_head_none {m : Mem} {q : queue_t} {L : List Addr} (h : QueueExact m q L) :
    q.head = none ↔ L = [] := by
  rw [chain_head h.1]
  exact List.head?_eq_none_iff

theorem wrapped_head_none {m : Mem} {q : queue_t} {L : List Addr} (h : QueueWrapped m q L) :
    q.head = none ↔ L = [] := by
  rw [chain_head h.1]
  exact List.head?_eq_none_iff

theorem queueOf_wrapped {m : Mem} {q : queue_t} {L : List Addr} (h : QueueOf m q L) :
    QueueWrapped m q L :=
  ⟨h.1.1, by rw [wrap_int_length h.2]; exact h.1.2.1, h.1.2.2⟩

theorem wrapped_queueOf {m : Mem} {q : queue_t} {L : List Addr} (h : QueueWrapped m q L)
    (hb : (L.length : Int) ≤ INT_MAX) : QueueOf m q L :=
  ⟨⟨h.1, by rw [← wrap_int_length hb]; exact h.2.1, h.2.2⟩, hb⟩

theorem queueOf_mk {m : Mem} {q : queue_t} {L : List Addr} (hc : Chain m q.head L)
    (hs : q.size = L.length) (ht : q.tail = L.getLast?) (hb : (L.length : Int) ≤ INT_MAX) :
    QueueOf m q L :=
  ⟨⟨hc, hs, ht⟩, hb⟩

theorem repr_inv {m : Mem} {q : queue_t} {L : List Addr} (h : QueueOf m q L) : queue_inv m q := by
  obtain ⟨⟨hc, hs, ht⟩, hb⟩ := h
  refine ⟨L, hc, ⟨hs, by rw [hs]; exact hb⟩, ?_, ?_, ?_⟩
  · rw [chain_head hc, ht, List.head?_eq_none_iff, List.getLast?_eq_none_iff]
  · rw [ht, hs, List.getLast?_eq_none_iff]
    simp
  · intro t htl
    rw [ht] at htl
    refine ⟨htl, ?_⟩
    rcases List.eq_nil_or_concat L with rfl | ⟨I, b, rfl⟩
    · simp at htl
    · simp at htl
      subst htl
      exact (chain_snoc.1 (by simpa using hc)).2

theorem inv_repr {m : Mem} {q : queue_t} (h : queue_inv m q) : ∃ L, QueueOf m q L := by
  obtain ⟨L, hc, ⟨hs, hb⟩, _, h2, h3⟩ := h
  refine ⟨L, ⟨hc, hs, ?_⟩, by rw [← hs]; exact hb⟩
  cases ht : q.tail with
  | none =>
    have h4 := h2.1 ht
    rw [hs] at h4
    have h5 : L = [] := by simpa using h4
    simp [h5]
  | some t => exact (h3 t ht).1.symm

theorem contents_congr {m m' : Mem} {L : List Addr}
    (h : ∀ x ∈ L, (m' x).map (fun e => e.value) = (m x).map (fun e => e.value)) :
    contents m' L = contents m L := by
  unfold contents
  apply List.map_congr_left
  intro a ha
  have := h a ha
  unfold value_at
  cases h1 : m a <;> cases h2 : m' a <;> simp [h1, h2] at this ⊢
  rw [this]

theorem mem_set_set (m : Mem) (a : Addr) (e1 e2 : Option list_ele_t) :
    (m.set a e1).set a e2 = m.set a e2 := by
  funext x
  simp only [Mem.set]
  split <;> rfl

theorem mem_alloc_free {m : Mem} {a : Addr} (h : m a = none) : (m.alloc a).free a = m := by
  funext x
  simp only [Mem.alloc, Mem.free, Mem.set]
  split
  · next hx => rw [hx, h]
  · rfl

/-! ## Insertion -/

theorem q_insert_head_eval (m : Mem) (q : queue_t) (s : List Nat) (a : Addr) :
    q_insert_head ⟨m, some q⟩ s (some a) true =
      some (true, ⟨m.set a (some ⟨strncpy s (strlen s + 1), q.head⟩),
        some ⟨some a, if q.tail.isNone then some a else q.tail, wrap_int (q.size + 1)⟩⟩) := by
  simp [q_insert_head, Mem.alloc, store_value, store_next, mem_set_same, mem_set_set]

theorem q_insert_head_repr {m : Mem} {q : queue_t} {L : List Addr} (s : List Nat) {a : Addr}
    (hq : QueueWrapped m q L) (ha : m a = none) :
    QueueWrapped (m.set a (some ⟨strncpy s (strlen s + 1), q.head⟩))
      ⟨some a, if q.tail.isNone then some a else q.tail, wrap_int (q.size + 1)⟩ (a :: L) := by
  obtain ⟨hc, hs, ht⟩ := hq
  have hfresh : ∀ x ∈ L, x ≠ a := by
    intro x hx hxa
    obtain ⟨e, he⟩ := chain_live hc hx
    rw [hxa, ha] at he
    cases he
  refine ⟨?_, ?_, ?_⟩
  · refine chain_cons.2 ⟨rfl, _, mem_set_same _ _ _, ?_⟩
    exact chain_congr (fun x hx => mem_set_other _ _ (hfresh x hx)) hc
  · simp only [hs, List.length_cons]
    push_cast
    exact wrap_int_succ _
  · simp only [ht]
    cases L with
    | nil => simp
    | cons b L => simp [List.getLast?_cons_cons]

theorem q_insert_tail_eval_empty (m : Mem) (q : queue_t) (s : List Nat) (a : Addr)
    (hh : q.head = none) :
    q_insert_tail ⟨m, some q⟩ s (some a) true =
      some (true, ⟨m.set a (some ⟨strncpy s (strlen s + 1), none⟩),
        some ⟨some a, some a, wrap_int (q.size + 1)⟩⟩) := by
  simp [q_insert_tail, Mem.alloc, store_value, store_next, mem_set_same, mem_set_set, hh]

theorem q_insert_tail_eval_cons (m : Mem) (q : queue_t) (s : List Nat) (a t : Addr)
    (et : list_ele_t) (hh : q.head ≠ none) (ht : q.tail = some t) (hta : t ≠ a)
    (het : m t = some et) :
    q_insert_tail ⟨m, some q⟩ s (some a) true =
      some (true, ⟨(m.set a (some ⟨strncpy s (strlen s + 1), none⟩)).set t
          (some { et with next := some a }),
        some ⟨q.head, some a, wrap_int (q.size + 1)⟩⟩) := by
  have h1 : (m.set a (some ⟨strncpy s (strlen s + 1), none⟩)) t = some et := by
    rw [mem_set_other _ _ hta, het]
  cases hq : q.head with
  | none => exact absurd hq hh
  | some b =>
    simp [q_insert_tail, Mem.alloc, store_value, store_next, mem_set_same, mem_set_set, hq, ht,
      h1]

theorem q_insert_head_spec {m : Mem} {q : queue_t} {L : List Addr} (s : List Nat) {a : Addr}
    (hq : QueueWrapped m q L) (ha : m a = none) :
    ∃ m' q', q_insert_head ⟨m, some q⟩ s (some a) true = some (true, ⟨m', some q'⟩) ∧
      QueueWrapped m' q' (a :: L) ∧ q'.head = some a ∧
      m' a = some ⟨strncpy s (strlen s + 1), q.head⟩ ∧ ∀ x, x ≠ a → m' x = m x := by
  refine ⟨_, _, q_insert_head_eval m q s a, q_insert_head_repr s hq ha, rfl,
    mem_set_same _ _ _, fun x hx => mem_set_other _ _ hx⟩

theorem q_insert_tail_spec {m : Mem} {q : queue_t} {L : List Addr} (s : List Nat) {a : Addr}
    (hq : QueueWrapped m q L) (ha : m a = none) :
    ∃ m' q', q_insert_tail ⟨m, some q⟩ s (some a) true = some (true, ⟨m', some q'⟩) ∧
      QueueWrapped m' q' (L ++ [a]) ∧ q'.tail = some a ∧
      m' a = some ⟨strncpy s (strlen s + 1), none⟩ ∧
      (∀ x, x ≠ a → (m' x).map (fun e => e.value) = (m x).map (fun e => e.value)) ∧
      (∀ x, x ≠ a → q.tail ≠ some x → m' x = m x) := by
  have hq' := hq
  obtain ⟨hc, hs, ht⟩ := hq
  rcases List.eq_nil_or_concat L with rfl | ⟨I, t, rfl⟩
  · have hh : q.head = none := chain_nil.1 hc
    refine ⟨_, _, q_insert_tail_eval_empty m q s a hh, ⟨?_, ?_, ?_⟩, rfl, mem_set_same _ _ _,
      fun x hx => by rw [mem_set_other _ _ hx], fun x hx _ => mem_set_other _ _ hx⟩
    · exact chain_cons.2 ⟨rfl, _, mem_set_same _ _ _, chain_nil.2 rfl⟩
    · simp only [hs, List.nil_append, List.length_cons]
      push_cast
      exact wrap_int_succ _
    · simp
  · rw [List.concat_eq_append] at hc hs ht hq' ⊢
    have hh : q.head ≠ none := by
      intro h0
      have := (wrapped_head_none hq').1 h0
      simp at this
    have htl : q.tail = some t := by simpa using ht
    obtain ⟨hseg, et, het, hnext⟩ := chain_snoc.1 hc
    have hta : t ≠ a := by
      intro h; rw [h, ha] at het; cases het
    have hnd : (I ++ [t]).Nodup := chain_nodup hc
    have htI : ∀ x ∈ I, x ≠ t := by
      intro x hx hxt
      rw [List.nodup_append] at hnd
      exact hnd.2.2 hx (by simp [hxt])
    have haI : ∀ x ∈ I, x ≠ a := by
      intro x hx hxa
      obtain ⟨e, he⟩ := seg_live hseg hx
      rw [hxa, ha] at he
      cases he
    refine ⟨_, _, q_insert_tail_eval_cons m q s a t et hh htl hta het, ⟨?_, ?_, ?_⟩, rfl, ?_, ?_,
      ?_⟩
    · refine chain_snoc.2 ⟨seg_append.2 ⟨some t, ?_, ?_⟩,
        ⟨strncpy s (strlen s + 1), none⟩, ?_, rfl⟩
      · refine seg_congr (fun x hx => ?_) hseg
        rw [mem_set_other _ _ (htI x hx), mem_set_other _ _ (haI x hx)]
      · exact seg_cons.2 ⟨rfl, _, mem_set_same _ _ _, seg_nil.2 rfl⟩
      · rw [mem_set_other _ _ hta.symm, mem_set_same]
    · simp only [hs, List.length_append]
      push_cast
      exact wrap_int_succ _
    · simp
    · rw [mem_set_other _ _ hta.symm, mem_set_same]
    · intro x hx
      by_cases hxt : x = t
      · subst hxt; rw [mem_set_same, het]; rfl
      · rw [mem_set_other _ _ hxt, mem_set_other _ _ hx]
    · intro x hx hxt
      have hxt' : x ≠ t := by
        intro h; apply hxt; rw [htl, h]
      rw [mem_set_other _ _ hxt', mem_set_other _ _ hx]

theorem q_insert_head_fail_node (st : State) (s : List Nat) (val_ok : Bool) :
    q_insert_head st s none val_ok = some (false, st) := by
  unfold q_insert_head
  cases st.q <;> rfl

theorem q_insert_head_fail_value {m : Mem} (q : queue_t) (s : List Nat) {a : Addr}
    (ha : m a = none) :
    q_insert_head ⟨m, some q⟩ s (some a) false = some (false, ⟨m, some q⟩) := by
  simp [q_insert_head, mem_alloc_free ha]

theorem q_insert_tail_fail_node (st : State) (s : List Nat) (val_ok : Bool) :
    q_insert_tail st s none val_ok = some (false, st) := by
  unfold q_insert_tail
  cases st.q <;> rfl

theorem q_insert_tail_fail_value {m : Mem} (q : queue_t) (s : List Nat) {a : Addr}
    (ha : m a = none) :
    q_insert_tail ⟨m, some q⟩ s (some a) false = some (false, ⟨m, some q⟩) := by
  have h : ((m.alloc a).set a (some ⟨[], none⟩)).free a = m := by
    funext x
    simp only [Mem.alloc, Mem.free, Mem.set]
    split
    · next hx => rw [hx, ha]
    · rfl
  simp [q_insert_tail, store_next, Mem.alloc, mem_set_same]
  simpa [Mem.alloc] using h

/-! ## The copy into the caller's buffer -/

theorem apply_writes_append (ws1 ws2 : List (Nat × Nat)) :
    ∀ buf : List Nat,
      apply_writes buf (ws1 ++ ws2) = (apply_writes buf ws1).bind (fun b => apply_writes b ws2) := by
  induction ws1 with
  | nil => intro buf; rfl
  | cons w ws ih =>
    intro buf
    obtain ⟨i, b⟩ := w
    simp only [List.cons_append, apply_writes]
    split
    · exact ih _
    · rfl

theorem apply_writes_range (bytes : List Nat) :
    ∀ (i : Nat) (buf : List Nat), i + bytes.length ≤ buf.length →
      apply_writes buf ((List.range' i bytes.length).zip bytes) =
        some (buf.take i ++ bytes ++ buf.drop (i + bytes.length)) := by
  induction bytes with
  | nil => intro i buf _; simp [apply_writes]
  | cons b bs ih =>
    intro i buf h
    simp only [List.length_cons] at h ⊢
    have hi : i < buf.length := by omega
    rw [List.range'_succ, List.zip_cons_cons, apply_writes, if_pos hi,
      ih (i + 1) (buf.set i b) (by rw [List.length_set]; omega),
      List.drop_set_of_lt b buf (by omega : i < i + 1 + bs.length)]
    have h1 : (buf.set i b).take (i + 1) = buf.take i ++ [b] := by
      rw [List.set_eq_take_append_cons_drop, if_pos hi]
      have h2 : (buf.take i).length = i := by rw [List.length_take]; omega
      rw [List.take_append_eq_append_take, h2, List.take_of_length_le (by omega)]
      simp
    rw [h1]
    have h3 : i + 1 + bs.length = i + (bs.length + 1) := by omega
    rw [h3]
    simp

theorem apply_remove_head_writes (v buf : List Nat) (k : Nat) (hk : 0 < k)
    (hle : k ≤ buf.length) (hs : k < SIZE_MOD) :
    apply_writes buf (remove_head_writes v k) =
      some ((strncpy v k ++ buf.drop k).set (k - 1) 0) := by
  unfold remove_head_writes
  have hidx : (k + SIZE_MOD - 1) % SIZE_MOD = k - 1 := by
    have h1 : k + SIZE_MOD - 1 = (k - 1) + SIZE_MOD := by omega
    rw [h1, Nat.add_mod_right, Nat.mod_eq_of_lt (by omega)]
  have hr := apply_writes_range (strncpy v k) 0 buf (by rw [strncpy_length]; omega)
  rw [strncpy_length, ← List.range_eq_range'] at hr
  rw [apply_writes_append, hr, hidx]
  simp only [Option.some_bind, List.take_zero, List.nil_append, Nat.zero_add, apply_writes]
  rw [if_pos]
  simp [strncpy_length]
  omega

theorem truncated_copy (v : List Nat) (k : Nat) (hk : 0 < k) :
    (strncpy v k).set (k - 1) 0 =
      (cstring v).take (min (strlen v) (k - 1)) ++
        List.replicate (k - min (strlen v) (k - 1)) 0 := by
  rw [strncpy_eq]
  unfold strlen
  apply List.ext_getElem?
  intro i
  simp only [List.getElem?_set, List.getElem?_append, List.getElem?_take,
    List.getElem?_replicate, List.length_append, List.length_take, List.length_replicate]
  by_cases h1 : k - 1 = i
  · subst h1
    simp
    split_ifs <;> first | rfl | omega
  · simp [h1]
    split_ifs <;> first | rfl | omega

/-! ## Removal -/

theorem q_remove_head_spec {m : Mem} {q : queue_t} {a : Addr} {L : List Addr}
    (sp : Option (List Nat)) (k : Nat) (hq : QueueWrapped m q (a :: L))
    (hsp : ∀ buf, sp = some buf → 0 < k ∧ k ≤ buf.length ∧ k < SIZE_MOD) :
    ∃ e q', m a = some e ∧
      q_remove_head ⟨m, some q⟩ sp k =
        some (true, ⟨m.free a, some q'⟩,
          sp.map (fun buf => (strncpy e.value k ++ buf.drop k).set (k - 1) 0)) ∧
      QueueWrapped (m.free a) q' L ∧ q'.head = e.next ∧ q'.size = wrap_int (q.size - 1) := by
  obtain ⟨hc, hs, ht⟩ := hq
  obtain ⟨hh, e, he, hrest⟩ := chain_cons.1 hc
  have hnd := chain_nodup hc
  have haL : ∀ x ∈ L, x ≠ a := by
    intro x hx hxa
    exact (List.nodup_cons.1 hnd).1 (hxa ▸ hx)
  refine ⟨e, ⟨e.next, if e.next.isNone then none else q.tail, wrap_int (q.size - 1)⟩, he, ?_, ⟨?_, ?_, ?_⟩,
    rfl, rfl⟩
  · cases sp with
    | none => simp [q_remove_head, hh, he]
    | some buf =>
      obtain ⟨h1, h2, h3⟩ := hsp buf rfl
      simp [q_remove_head, hh, he, apply_remove_head_writes e.value buf k h1 h2 h3]
  · exact chain_congr (fun x hx => mem_set_other _ _ (haL x hx)) hrest
  · simp only [hs, List.length_cons]
    push_cast
    rw [wrap_int_pred]
    congr 1
    ring
  · have hn := chain_head hrest
    cases L with
    | nil => simp [hn]
    | cons b L =>
      simp only [hn, List.head?_cons, Option.isNone_some]
      rw [ht, List.getLast?_cons_cons]
      rfl

theorem q_remove_head_empty (m : Mem) (q : queue_t) (sp : Option (List Nat)) (k : Nat)
    (hh : q.head = none) :
    q_remove_head ⟨m, some q⟩ sp k = some (false, ⟨m, some q⟩, sp) := by
  simp [q_remove_head, hh]

theorem q_size_wrapped {m : Mem} {q : queue_t} {L : List Addr} (hq : QueueWrapped m q L) :
    q_size ⟨m, some q⟩ = wrap_int L.length := by
  unfold q_size
  simp only
  cases L with
  | nil =>
    simp only [(wrapped_head_none hq).2 rfl, Option.isNone_none, if_true, List.length_nil]
    rfl
  | cons a L =>
    have : q.head ≠ none := fun h => by simpa using (wrapped_head_none hq).1 h
    cases hq' : q.head with
    | none => exact absurd hq' this
    | some b =>
      simp only [Option.isNone_some, Bool.false_eq_true, if_false]
      rw [hq.2.1, wrap_int_idem]

theorem q_size_repr {m : Mem} {q : queue_t} {L : List Addr} (hq : QueueOf m q L) :
    q_size ⟨m, some q⟩ = L.length := by
  rw [q_size_wrapped (queueOf_wrapped hq), wrap_int_length hq.2]

/-! ## Sequences of calls -/

theorem step_repr {m : Mem} {q : queue_t} {L : List Addr} (op : Op) (hq : QueueWrapped m q L)
    (henv : env_ok ⟨m, some q⟩ op = true) :
    ∃ r m' q' L', step ⟨m, some q⟩ op = some (r, ⟨m', some q'⟩) ∧ QueueWrapped m' q' L' ∧
      (L'.length : Int) = L.length +
        (match op with
         | .remove_head _ _ => -(if r then 1 else 0)
         | _ => (if r then 1 else 0)) := by
  cases op with
  | insert_head s newh val_ok =>
    cases newh with
    | none => exact ⟨false, m, q, L, q_insert_head_fail_node ⟨m, some q⟩ s val_ok, hq, by simp⟩
    | some a =>
      have ha : m a = none := by simpa [env_ok] using henv
      cases val_ok with
      | false => exact ⟨false, m, q, L, q_insert_head_fail_value q s ha, hq, by simp⟩
      | true =>
        obtain ⟨m', q', h1, h2, _⟩ := q_insert_head_spec s hq ha
        exact ⟨true, m', q', a :: L, h1, h2, by simp⟩
  | insert_tail s newh val_ok =>
    cases newh with
    | none => exact ⟨false, m, q, L, q_insert_tail_fail_node ⟨m, some q⟩ s val_ok, hq, by simp⟩
    | some a =>
      have ha : m a = none := by simpa [env_ok] using henv
      cases val_ok with
      | false => exact ⟨false, m, q, L, q_insert_tail_fail_value q s ha, hq, by simp⟩
      | true =>
        obtain ⟨m', q', h1, h2, _⟩ := q_insert_tail_spec s hq ha
        exact ⟨true, m', q', L ++ [a], h1, h2, by simp⟩
  | remove_head sp k =>
    cases L with
    | nil =>
      refine ⟨false, m, q, [], ?_, hq, by simp⟩
      simp [step, q_remove_head_empty m q sp k ((wrapped_head_none hq).2 rfl)]
    | cons a L =>
      have hsp : ∀ buf, sp = some buf → 0 < k ∧ k ≤ buf.length ∧ k < SIZE_MOD := by
        intro buf hb
        subst hb
        simpa [env_ok, and_assoc] using henv
      obtain ⟨e, q', _, h1, h2, _⟩ := q_remove_head_spec sp k hq hsp
      refine ⟨true, m.free a, q', L, ?_, h2, by simp⟩
      simp [step, h1]

theorem run_size_repr :
    ∀ (ops : List Op) (m : Mem) (q : queue_t) (L : List Addr),
      QueueWrapped m q L → admissible ⟨m, some q⟩ ops = true →
      ∃ st i d, ∃ n : Nat, run ⟨m, some q⟩ ops = some (st, i, d) ∧
        (n : Int) = (L.length : Int) + i - d ∧ q_size st = wrap_int n := by
  intro ops
  induction ops with
  | nil =>
    intro m q L hq _
    exact ⟨_, 0, 0, L.length, rfl, by simp, q_size_wrapped hq⟩
  | cons op ops ih =>
    intro m q L hq hadm
    simp only [admissible, Bool.and_eq_true] at hadm
    obtain ⟨r, m', q', L', hstep, hq', hlen⟩ := step_repr op hq hadm.1
    have hadm' : admissible ⟨m', some q'⟩ ops = true := by
      have := hadm.2
      rw [hstep] at this
      exact this
    obtain ⟨st, i, d, n, hrun, hn, hsz⟩ := ih m' q' L' hq' hadm'
    cases op with
    | insert_head s newh val_ok =>
      refine ⟨st, i + (if r then 1 else 0), d, n, by simp [run, hstep, hrun], ?_, hsz⟩
      rw [hn, hlen]
      cases r
      · simp
      · simp; ring
    | insert_tail s newh val_ok =>
      refine ⟨st, i + (if r then 1 else 0), d, n, by simp [run, hstep, hrun], ?_, hsz⟩
      rw [hn, hlen]
      cases r
      · simp
      · simp; ring
    | remove_head sp k =>
      refine ⟨st, i, d + (if r then 1 else 0), n, by simp [run, hstep, hrun], ?_, hsz⟩
      rw [hn, hlen]
      cases r
      · simp
      · simp; ring

/-! ## Memories with the same strings -/

theorem sameValues_refl (m : Mem) : SameValues m m := fun _ => rfl

theorem sameValues_trans {m1 m2 m3 : Mem} (h12 : SameValues m1 m2) (h23 : SameValues m2 m3) :
    SameValues m1 m3 := fun x => (h23 x).trans (h12 x)

theorem sameValues_set_next {m : Mem} {a : Addr} {e : list_ele_t} (he : m a = some e)
    (nx : Option Addr) : SameValues m (m.set a (some { e with next := nx })) := by
  intro x
  by_cases hx : x = a
  · subst hx; rw [mem_set_same, he]; rfl
  · rw [mem_set_other _ _ hx]

theorem store_next_some {m : Mem} {a : Addr} {e : list_ele_t} (he : m a = some e)
    (nx : Option Addr) :
    store_next m (some a) nx = some (m.set a (some { e with next := nx })) := by
  simp [store_next, he]

theorem sameValues_value_at {m m' : Mem} (h : SameValues m m') (x : Addr) :
    value_at m' x = value_at m x := by
  have := h x
  unfold value_at
  cases h1 : m x <;> cases h2 : m' x <;> simp [h1, h2] at this ⊢
  exact this

theorem sameValues_contents {m m' : Mem} (h : SameValues m m') (L : List Addr) :
    contents m' L = contents m L :=
  contents_congr (fun x _ => h x)

/-! ## Reversal -/

theorem reverse_loop_spec :
    ∀ (A : List Addr) (fuel : Nat) (m : Mem) (rev aux : Option Addr) (R : List Addr),
      Chain m aux A → Chain m rev R → (∀ x ∈ A, x ∉ R) → A.length ≤ fuel →
      ∃ m' rev', reverse_loop fuel m rev aux = some (m', rev') ∧
        Chain m' rev' (A.reverse ++ R) ∧ (∀ x, x ∉ A → m' x = m x) ∧ SameValues m m' := by
  intro A
  induction A with
  | nil =>
    intro fuel m rev aux R ha hr _ _
    have haux := chain_nil.1 ha
    subst haux
    refine ⟨m, rev, ?_, by simpa using hr, fun _ _ => rfl, sameValues_refl m⟩
    cases fuel <;> rfl
  | cons t A ih =>
    intro fuel m rev aux R ha hr hdisj hfuel
    obtain ⟨haux, e, he, hrest⟩ := chain_cons.1 ha
    subst haux
    have hnd := chain_nodup ha
    have htA : t ∉ A := (List.nodup_cons.1 hnd).1
    have htR : t ∉ R := hdisj t (List.mem_cons_self _ _)
    cases fuel with
    | zero => simp at hfuel
    | succ fuel =>
      have hm1 : ∀ x, x ≠ t → (m.set t (some { e with next := rev })) x = m x :=
        fun x hx => mem_set_other _ _ hx
      have hA1 : Chain (m.set t (some { e with next := rev })) e.next A :=
        chain_congr (fun x hx => hm1 x (fun h => htA (h ▸ hx))) hrest
      have hR1 : Chain (m.set t (some { e with next := rev })) (some t) (t :: R) :=
        chain_cons.2 ⟨rfl, _, mem_set_same _ _ _,
          chain_congr (fun x hx => hm1 x (fun h => htR (h ▸ hx))) hr⟩
      have hdisj1 : ∀ x ∈ A, x ∉ t :: R := by
        intro x hx hxR
        rcases List.mem_cons.1 hxR with h | h
        · exact htA (h ▸ hx)
        · exact hdisj x (List.mem_cons_of_mem _ hx) h
      obtain ⟨m', rev', hloop, hchain, hframe, hval⟩ :=
        ih fuel _ (some t) e.next (t :: R) hA1 hR1 hdisj1 (by simpa using hfuel)
      refine ⟨m', rev', ?_, by simpa using hchain, ?_, ?_⟩
      · simp only [reverse_loop, he, store_next_some he]
        exact hloop
      · intro x hx
        have hxt : x ≠ t := fun h => hx (h ▸ List.mem_cons_self _ _)
        rw [hframe x (fun h => hx (List.mem_cons_of_mem _ h)), hm1 x hxt]
      · exact sameValues_trans (sameValues_set_next he rev) hval

theorem q_reverse_small {m : Mem} {q : queue_t} {L : List Addr} (hq : QueueExact m q L)
    (fuel : Nat) (hsmall : L.length ≤ 1) :
    q_reverse fuel ⟨m, some q⟩ = some ⟨m, some q⟩ := by
  have hguard : (q.head.isNone || decide (q.size ≤ 1)) = true := by
    simp only [Bool.or_eq_true, decide_eq_true_eq]
    right
    rw [hq.2.1]
    exact_mod_cast hsmall
  simp only [q_reverse, hguard, if_true]

theorem q_reverse_spec {m : Mem} {q : queue_t} {L : List Addr} (hq : QueueExact m q L)
    (fuel : Nat) (hf : L.length ≤ fuel) :
    ∃ m' q', q_reverse fuel ⟨m, some q⟩ = some ⟨m', some q'⟩ ∧ QueueExact m' q' L.reverse ∧
      SameValues m m' ∧ (∀ x, x ∉ L → m' x = m x) ∧
      q'.head = L.getLast? ∧ q'.tail = L.head? ∧ (L.length ≤ 1 → m' = m ∧ q' = q) := by
  have hq0 := hq
  obtain ⟨hc, hs, ht⟩ := hq
  rcases L with _ | ⟨h, _ | ⟨b, A⟩⟩
  · exact ⟨m, q, q_reverse_small hq0 fuel (by simp), hq0, sameValues_refl m, fun _ _ => rfl,
      by simpa using chain_head hc, by simpa using ht, fun _ => ⟨rfl, rfl⟩⟩
  · exact ⟨m, q, q_reverse_small hq0 fuel (by simp), hq0, sameValues_refl m, fun _ _ => rfl,
      by simpa using chain_head hc, by simpa using ht, fun _ => ⟨rfl, rfl⟩⟩
  · obtain ⟨hh, e, he, hrest⟩ := chain_cons.1 hc
    have hnd := chain_nodup hc
    have hhA : h ∉ b :: A := (List.nodup_cons.1 hnd).1
    have hsz : ¬ q.size ≤ 1 := by
      rw [hs]
      simp only [List.length_cons]
      push_cast
      omega
    have hm1 : ∀ x, x ≠ h → (m.set h (some { e with next := none })) x = m x :=
      fun x hx => mem_set_other _ _ hx
    have hA1 : Chain (m.set h (some { e with next := none })) e.next (b :: A) :=
      chain_congr (fun x hx => hm1 x (fun hxh => hhA (hxh ▸ hx))) hrest
    have hR1 : Chain (m.set h (some { e with next := none })) (some h) [h] :=
      chain_cons.2 ⟨rfl, _, mem_set_same _ _ _, chain_nil.2 rfl⟩
    have hdisj : ∀ x ∈ b :: A, x ∉ [h] := by
      intro x hx hxh
      have : x = h := by simpa using hxh
      exact hhA (this ▸ hx)
    obtain ⟨m', rev', hloop, hchain, hframe, hval⟩ :=
      reverse_loop_spec (b :: A) fuel _ (some h) e.next [h] hA1 hR1 hdisj
        (by simp only [List.length_cons] at hf ⊢; omega)
    have hLrev : (b :: A).reverse ++ [h] = (h :: b :: A).reverse := by simp
    rw [hLrev] at hchain
    refine ⟨m', ⟨rev', q.head, q.size⟩, ?_, ⟨hchain, ?_, ?_⟩, ?_, ?_, ?_, ?_, ?_⟩
    · simp [q_reverse, hsz, hh, deref, he, store_next_some he, hloop]
    · simp only [hs, List.length_reverse]
    · rw [List.getLast?_reverse, hh]; rfl
    · exact sameValues_trans (sameValues_set_next he none) hval
    · intro x hx
      have hxh : x ≠ h := fun hxh => hx (hxh ▸ List.mem_cons_self _ _)
      rw [hframe x (fun hxA => hx (List.mem_cons_of_mem _ hxA)), hm1 x hxh]
    · have := chain_head hchain
      rw [List.head?_reverse] at this
      exact this
    · exact hh
    · intro hle
      simp only [List.length_cons] at hle
      omega

/-! ## Merge sort on lists of elements -/

theorem mergeL_nil_left (lt : Addr → Addr → Bool) (B : List Addr) : mergeL lt [] B = B := by
  rw [mergeL]

theorem mergeL_nil_right (lt : Addr → Addr → Bool) (A : List Addr) : mergeL lt A [] = A := by
  cases A with
  | nil => rw [mergeL]
  | cons a A => rw [mergeL]

theorem mergeL_cons_cons (lt : Addr → Addr → Bool) (a b : Addr) (A B : List Addr) :
    mergeL lt (a :: A) (b :: B) =
      if lt a b then a :: mergeL lt A (b :: B) else b :: mergeL lt (a :: A) B := by
  rw [mergeL]

theorem mergeL_perm (lt : Addr → Addr → Bool) :
    ∀ (n : Nat) (A B : List Addr), A.length + B.length ≤ n → (mergeL lt A B).Perm (A ++ B) := by
  intro n
  induction n with
  | zero =>
    intro A B h
    have hA : A = [] := List.length_eq_zero.1 (by omega)
    subst hA
    rw [mergeL_nil_left]
    exact List.Perm.refl _
  | succ n ih =>
    intro A B h
    cases A with
    | nil => rw [mergeL_nil_left]; exact List.Perm.refl _
    | cons a A =>
      cases B with
      | nil => rw [mergeL_nil_right]; simp
      | cons b B =>
        rw [mergeL_cons_cons]
        simp only [List.length_cons] at h
        split
        · exact List.Perm.cons a (ih A (b :: B) (by simp only [List.length_cons]; omega))
        · have h1 := ih (a :: A) B (by simp only [List.length_cons]; omega)
          have h2 : (b :: mergeL lt (a :: A) B).Perm (b :: (a :: A ++ B)) := List.Perm.cons b h1
          exact h2.trans (List.perm_middle.symm)

theorem msortL_small (lt : Addr → Addr → Bool) {L : List Addr} (h : L.length < 2) :
    msortL lt L = L := by
  rw [msortL, if_pos h]

theorem msortL_big (lt : Addr → Addr → Bool) {L : List Addr} (h : ¬ L.length < 2) :
    msortL lt L =
      mergeL lt (msortL lt (L.take ((L.length + 1) / 2)))
        (msortL lt (L.drop ((L.length + 1) / 2))) := by
  rw [msortL, if_neg h]

theorem msortL_perm (lt : Addr → Addr → Bool) :
    ∀ (n : Nat) (L : List Addr), L.length ≤ n → (msortL lt L).Perm L := by
  intro n
  induction n with
  | zero =>
    intro L h
    rw [msortL_small lt (by omega)]
  | succ n ih =>
    intro L h
    by_cases hs : L.length < 2
    · rw [msortL_small lt hs]
    · rw [msortL_big lt hs]
      have h1 := ih (L.take ((L.length + 1) / 2)) (by rw [List.length_take]; omega)
      have h2 := ih (L.drop ((L.length + 1) / 2)) (by rw [List.length_drop]; omega)
      refine (mergeL_perm lt _ _ _ (le_refl _)).trans ?_
      have h3 := List.Perm.append h1 h2
      rw [List.take_append_drop] at h3
      exact h3

theorem msortL_perm' (lt : Addr → Addr → Bool) (L : List Addr) : (msortL lt L).Perm L :=
  msortL_perm lt L.length L (le_refl _)

theorem lt_at_congr {m m' : Mem} (h : SameValues m m') (x y : Addr) :
    lt_at m' x y = lt_at m x y := by
  unfold lt_at
  rw [sameValues_value_at h x, sameValues_value_at h y]

/-! ## The in-place merge -/

theorem value_at_of_some {m : Mem} {a : Addr} {e : list_ele_t} (h : m a = some e) :
    value_at m a = e.value := by
  simp [value_at, h]

theorem merge_loop_spec (lt : Addr → Addr → Bool) :
    ∀ (fuel : Nat) (m : Mem) (c : Addr) (l1 l2 : Option Addr) (A B : List Addr),
      (∀ x y, lt x y = lt_at m x y) →
      Chain m l1 A → Chain m l2 B → (∀ x ∈ A, x ∉ B) → c ∉ A → c ∉ B →
      (∃ ec, m c = some ec) → (A ≠ [] ∨ B ≠ []) → A.length + B.length ≤ fuel →
      ∃ m', merge_loop fuel m (some c) l1 l2 = some m' ∧
        Chain m' (some c) (c :: mergeL lt A B) ∧
        (∀ x, x ≠ c → x ∉ A → x ∉ B → m' x = m x) ∧ SameValues m m' := by
  intro fuel
  induction fuel with
  | zero =>
    intro m c l1 l2 A B _ _ _ _ _ _ _ hne hfuel
    have hA : A = [] := List.length_eq_zero.1 (by omega)
    have hB : B = [] := List.length_eq_zero.1 (by omega)
    rcases hne with h | h
    · exact absurd hA h
    · exact absurd hB h
  | succ fuel ih =>
    intro m c l1 l2 A B hlt hA hB hdisj hcA hcB hc hne hfuel
    obtain ⟨ec, hec⟩ := hc
    have hset : ∀ (nx : Option Addr) (x : Addr), x ≠ c →
        (m.set c (some { ec with next := nx })) x = m x :=
      fun nx x hx => mem_set_other _ _ hx
    cases A with
    | nil =>
      have hl1 := chain_nil.1 hA
      subst hl1
      cases B with
      | nil => simp at hne
      | cons b B =>
        have hl2 := (chain_cons.1 hB).1
        subst hl2
        refine ⟨m.set c (some { ec with next := some b }), ?_, ?_, ?_, ?_⟩
        · simp only [merge_loop, store_next_some hec]
        · rw [mergeL_nil_left]
          refine chain_cons.2 ⟨rfl, _, mem_set_same _ _ _, ?_⟩
          exact chain_congr (fun x hx => hset _ x (fun h => hcB (h ▸ hx))) hB
        · intro x hx _ _
          exact hset _ x hx
        · exact sameValues_set_next hec _
    | cons a A =>
      obtain ⟨hl1, e1, he1, hA'⟩ := chain_cons.1 hA
      subst hl1
      have hca : c ≠ a := fun h => hcA (h ▸ List.mem_cons_self _ _)
      have hcA' : c ∉ A := fun h => hcA (List.mem_cons_of_mem _ h)
      have haA : a ∉ A := (List.nodup_cons.1 (chain_nodup hA)).1
      cases B with
      | nil =>
        have hl2 := chain_nil.1 hB
        subst hl2
        refine ⟨m.set c (some { ec with next := some a }), ?_, ?_, ?_, ?_⟩
        · simp only [merge_loop, store_next_some hec]
        · rw [mergeL_nil_right]
          refine chain_cons.2 ⟨rfl, _, mem_set_same _ _ _, ?_⟩
          exact chain_congr (fun x hx => hset _ x (fun h => hcA (h ▸ hx))) hA
        · intro x hx _ _
          exact hset _ x hx
        · exact sameValues_set_next hec _
      | cons b B =>
        obtain ⟨hl2, e2, he2, hB'⟩ := chain_cons.1 hB
        subst hl2
        have hcb : c ≠ b := fun h => hcB (h ▸ List.mem_cons_self _ _)
        have hcB' : c ∉ B := fun h => hcB (List.mem_cons_of_mem _ h)
        have hbB : b ∉ B := (List.nodup_cons.1 (chain_nodup hB)).1
        have hab : a ∉ b :: B := hdisj a (List.mem_cons_self _ _)
        have hbA : b ∉ a :: A := fun h => hdisj b h (List.mem_cons_self _ _)
        have hlt_ab : lt a b = decide (strcmp e1.value e2.value < 0) := by
          rw [hlt, lt_at, value_at_of_some he1, value_at_of_some he2]
        simp only [List.length_cons] at hfuel
        rw [mergeL_cons_cons]
        by_cases hcmp : strcmp e1.value e2.value < 0
        · have hlt1 : ∀ x y, lt x y = lt_at (m.set c (some { ec with next := some a })) x y :=
            fun x y => by rw [hlt, lt_at_congr (sameValues_set_next hec (some a))]
          obtain ⟨m', hloop, hchain, hframe, hval⟩ :=
            ih (m.set c (some { ec with next := some a })) a e1.next (some b) A (b :: B) hlt1
              (chain_congr (fun x hx => hset _ x (fun h => hcA' (h ▸ hx))) hA')
              (chain_congr (fun x hx => hset _ x (fun h => hcB (h ▸ hx))) hB)
              (fun x hx => hdisj x (List.mem_cons_of_mem _ hx)) haA hab
              ⟨e1, by rw [hset _ a hca.symm, he1]⟩ (Or.inr (by simp))
              (by simp only [List.length_cons]; omega)
          refine ⟨m', ?_, ?_, ?_, ?_⟩
          · simp only [merge_loop, he1, he2, hcmp, if_true, store_next_some hec, deref,
              Option.some_bind, mem_set_same, hset _ a hca.symm]
            exact hloop
          · rw [hlt_ab]
            simp only [hcmp, decide_True, if_true]
            refine chain_cons.2 ⟨rfl, { ec with next := some a }, ?_, hchain⟩
            rw [hframe c hca hcA' hcB, mem_set_same]
          · intro x hxc hxA hxB
            rw [hframe x (fun h => hxA (h ▸ List.mem_cons_self _ _))
              (fun h => hxA (List.mem_cons_of_mem _ h)) hxB, hset _ x hxc]
          · exact sameValues_trans (sameValues_set_next hec _) hval
        · have hlt1 : ∀ x y, lt x y = lt_at (m.set c (some { ec with next := some b })) x y :=
            fun x y => by rw [hlt, lt_at_congr (sameValues_set_next hec (some b))]
          obtain ⟨m', hloop, hchain, hframe, hval⟩ :=
            ih (m.set c (some { ec with next := some b })) b (some a) e2.next (a :: A) B hlt1
              (chain_congr (fun x hx => hset _ x (fun h => hcA (h ▸ hx))) hA)
              (chain_congr (fun x hx => hset _ x (fun h => hcB' (h ▸ hx))) hB')
              (fun x hx hxB => hdisj x hx (List.mem_cons_of_mem _ hxB)) hbA hbB
              ⟨e2, by rw [hset _ b hcb.symm, he2]⟩ (Or.inl (by simp))
              (by simp only [List.length_cons]; omega)
          refine ⟨m', ?_, ?_, ?_, ?_⟩
          · simp only [merge_loop, he1, he2, hcmp, if_false, store_next_some hec, deref,
              Option.some_bind, mem_set_same, hset _ b hcb.symm]
            exact hloop
          · rw [hlt_ab]
            simp only [hcmp, decide_False, if_false]
            refine chain_cons.2 ⟨rfl, { ec with next := some b }, ?_, hchain⟩
            rw [hframe c hcb hcA hcB', mem_set_same]
          · intro x hxc hxA hxB
            rw [hframe x (fun h => hxB (h ▸ List.mem_cons_self _ _)) hxA
              (fun h => hxB (List.mem_cons_of_mem _ h)), hset _ x hxc]
          · exact sameValues_trans (sameValues_set_next hec _) hval

theorem merge_spec (lt : Addr → Addr → Bool) (fuel : Nat) (m : Mem) (l1 l2 : Option Addr)
    (A B : List Addr) (hlt : ∀ x y, lt x y = lt_at m x y) (hA : Chain m l1 A)
    (hB : Chain m l2 B) (hdisj : ∀ x ∈ A, x ∉ B) (hfuel : A.length + B.length ≤ fuel) :
    ∃ m' p, merge fuel m l1 l2 = some (m', p) ∧ Chain m' p (mergeL lt A B) ∧
      (∀ x, x ∉ A → x ∉ B → m' x = m x) ∧ SameValues m m' := by
  cases B with
  | nil =>
    have hl2 := chain_nil.1 hB
    subst hl2
    exact ⟨m, l1, rfl, by rw [mergeL_nil_right]; exact hA, fun _ _ _ => rfl, sameValues_refl m⟩
  | cons b B =>
    obtain ⟨hl2, e2, he2, hB'⟩ := chain_cons.1 hB
    subst hl2
    cases A with
    | nil =>
      have hl1 := chain_nil.1 hA
      subst hl1
      exact ⟨m, some b, rfl, by rw [mergeL_nil_left]; exact hB, fun _ _ _ => rfl,
        sameValues_refl m⟩
    | cons a A =>
      obtain ⟨hl1, e1, he1, hA'⟩ := chain_cons.1 hA
      subst hl1
      have haA : a ∉ A := (List.nodup_cons.1 (chain_nodup hA)).1
      have hbB : b ∉ B := (List.nodup_cons.1 (chain_nodup hB)).1
      have hab : a ∉ b :: B := hdisj a (List.mem_cons_self _ _)
      have hbA : b ∉ a :: A := fun h => hdisj b h (List.mem_cons_self _ _)
      have hlt_ab : lt a b = decide (strcmp e1.value e2.value < 0) := by
        rw [hlt, lt_at, value_at_of_some he1, value_at_of_some he2]
      simp only [List.length_cons] at hfuel
      rw [mergeL_cons_cons, hlt_ab]
      by_cases hcmp : strcmp e1.value e2.value < 0
      · obtain ⟨m', hloop, hchain, hframe, hval⟩ :=
          merge_loop_spec lt fuel m a e1.next (some b) A (b :: B) hlt hA' hB
            (fun x hx => hdisj x (List.mem_cons_of_mem _ hx)) haA hab ⟨e1, he1⟩
            (Or.inr (by simp)) (by simp only [List.length_cons]; omega)
        refine ⟨m', some a, ?_, ?_, ?_, hval⟩
        · simp only [merge, he1, he2, hcmp, if_true, hloop, Option.map_some']
        · simpa only [hcmp, decide_True, if_true] using hchain
        · intro x hxA hxB
          exact hframe x (fun h => hxA (h ▸ List.mem_cons_self _ _))
            (fun h => hxA (List.mem_cons_of_mem _ h)) hxB
      · obtain ⟨m', hloop, hchain, hframe, hval⟩ :=
          merge_loop_spec lt fuel m b (some a) e2.next (a :: A) B hlt hA hB'
            (fun x hx hxB => hdisj x hx (List.mem_cons_of_mem _ hxB)) hbA hbB ⟨e2, he2⟩
            (Or.inl (by simp)) (by simp only [List.length_cons]; omega)
        refine ⟨m', some b, ?_, ?_, ?_, hval⟩
        · simp only [merge, he1, he2, hcmp, if_false, hloop, Option.map_some']
        · simpa only [hcmp, decide_False, if_false] using hchain
        · intro x hxA hxB
          exact hframe x (fun h => hxB (h ▸ List.mem_cons_self _ _)) hxA
            (fun h => hxB (List.mem_cons_of_mem _ h))

/-! ## The slow/fast walk -/

theorem split_loop_spec :
    ∀ (fuel : Nat) (m : Mem) (slow fast : Option Addr) (S F : List Addr),
      Chain m slow S → Chain m fast F → F.length / 2 ≤ S.length → F.length / 2 + 1 ≤ fuel →
      ∃ slow', split_loop fuel m slow fast = some slow' ∧
        Chain m slow' (S.drop (F.length / 2)) := by
  intro fuel
  induction fuel with
  | zero => intro m slow fast S F _ _ _ h; omega
  | succ fuel ih =>
    intro m slow fast S F hS hF hlen hfuel
    rcases F with _ | ⟨f, _ | ⟨f2, F⟩⟩
    · have := chain_nil.1 hF
      subst this
      exact ⟨slow, rfl, by simpa using hS⟩
    · obtain ⟨hf, ef, hef, hrest⟩ := chain_cons.1 hF
      subst hf
      have hn := chain_nil.1 hrest
      refine ⟨slow, ?_, by simpa using hS⟩
      simp only [split_loop, hef, hn]
    · obtain ⟨hf, ef, hef, hrest⟩ := chain_cons.1 hF
      subst hf
      obtain ⟨hf2, ef2, hef2, hrest2⟩ := chain_cons.1 hrest
      have hdiv : (f :: f2 :: F).length / 2 = F.length / 2 + 1 := by
        simp only [List.length_cons]
        omega
      rw [hdiv] at hlen hfuel ⊢
      cases S with
      | nil => simp at hlen
      | cons s S =>
        obtain ⟨hs, es, hes, hS'⟩ := chain_cons.1 hS
        subst hs
        obtain ⟨slow', hloop, hchain⟩ :=
          ih m es.next ef2.next S F hS' hrest2 (by simpa using hlen) (by omega)
        refine ⟨slow', ?_, by simpa using hchain⟩
        simp only [split_loop, hef, hf2, deref, Option.some_bind, hes, hef2]
        exact hloop

theorem last_loop_spec {m : Mem} :
    ∀ (L : List Addr) (fuel : Nat) (p : Option Addr), Chain m p L → L ≠ [] → L.length ≤ fuel →
      last_loop fuel m p = some L.getLast? := by
  intro L
  induction L with
  | nil => intro _ _ _ h; exact absurd rfl h
  | cons a L ih =>
    intro fuel p hc _ hfuel
    obtain ⟨hp, e, he, hrest⟩ := chain_cons.1 hc
    subst hp
    cases fuel with
    | zero => simp at hfuel
    | succ fuel =>
      cases L with
      | nil =>
        have hn := chain_nil.1 hrest
        simp [last_loop, deref, he, hn]
      | cons b L =>
        have hn := (chain_cons.1 hrest).1
        have := ih fuel e.next hrest (by simp) (by simpa using hfuel)
        simp only [last_loop, deref, Option.some_bind, he, hn, Option.isNone_some]
        rw [hn] at this
        rw [List.getLast?_cons_cons]
        simpa using this

/-! ## The in-place merge sort -/

theorem mergeSort_spec (lt : Addr → Addr → Bool) :
    ∀ (fuel : Nat) (m : Mem) (head : Option Addr) (L : List Addr),
      (∀ x y, lt x y = lt_at m x y) → Chain m head L → L.length + 1 ≤ fuel →
      ∃ m' p, mergeSort fuel m head = some (m', p) ∧ Chain m' p (msortL lt L) ∧
        (∀ x, x ∉ L → m' x = m x) ∧ SameValues m m' := by
  intro fuel
  induction fuel with
  | zero => intro m head L _ _ h; omega
  | succ fuel ih =>
    intro m head L hlt hL hfuel
    rcases L with _ | ⟨a, _ | ⟨b, T⟩⟩
    · have := chain_nil.1 hL
      subst this
      exact ⟨m, none, rfl, by rw [msortL_small lt (by simp)]; exact hL, fun _ _ => rfl,
        sameValues_refl m⟩
    · obtain ⟨hh, e, he, hrest⟩ := chain_cons.1 hL
      subst hh
      have hn := chain_nil.1 hrest
      refine ⟨m, some a, ?_, by rw [msortL_small lt (by simp)]; exact hL, fun _ _ => rfl,
        sameValues_refl m⟩
      simp [mergeSort, deref, he, hn]
    · obtain ⟨hh, e, he, hrest⟩ := chain_cons.1 hL
      subst hh
      have hnext := (chain_cons.1 hrest).1
      have hnd := chain_nodup hL
      obtain ⟨slow', hsplit, hslow⟩ :=
        split_loop_spec fuel m (some a) e.next (a :: b :: T) (b :: T) hL hrest
          (by simp only [List.length_cons]; omega)
          (by simp only [List.length_cons] at hfuel ⊢; omega)
      have hk : (a :: b :: T).length = (b :: T).length + 1 := rfl
      generalize hLdef : a :: b :: T = L at hL hnd hslow hk hfuel ⊢
      generalize hkdef : (b :: T).length / 2 = k at hslow
      have hn2 : 2 ≤ L.length := by rw [← hLdef]; simp
      have hklt : k < L.length := by omega
      have hk1 : (L.length + 1) / 2 = k + 1 := by omega
      have hPD : L.take k ++ L.drop k = L := List.take_append_drop k L
      cases hD : L.drop k with
      | nil =>
        have := congrArg List.length hD
        rw [List.length_drop] at this
        simp at this
        omega
      | cons s L2 =>
        rw [hD] at hslow hPD
        obtain ⟨hs, es, hes, hL2⟩ := chain_cons.1 hslow
        subst hs
        have hPlen : (L.take k).length = k := by rw [List.length_take]; omega
        have hL1 : L.take (k + 1) = L.take k ++ [s] := by
          conv_lhs => rw [← hPD]
          rw [show L.take k ++ s :: L2 = (L.take k ++ [s]) ++ L2 by simp]
          exact List.take_left' (by simp [hPlen])
        have hL2eq : L.drop (k + 1) = L2 := by
          conv_lhs => rw [← hPD]
          rw [show L.take k ++ s :: L2 = (L.take k ++ [s]) ++ L2 by simp]
          exact List.drop_left' (by simp [hPlen])
        have hsplitL : L.take (k + 1) ++ L2 = L := by
          rw [← hL2eq]; exact List.take_append_drop _ _
        have hnd' : (L.take (k + 1) ++ L2).Nodup := by rw [hsplitL]; exact hnd
        have hdisj12 : ∀ x ∈ L.take (k + 1), x ∉ L2 :=
          fun x hx hx2 => (List.nodup_append.1 hnd').2.2 hx hx2
        have hnd1 : (L.take k ++ [s]).Nodup := hL1 ▸ (List.nodup_append.1 hnd').1
        have hsP : ∀ x ∈ L.take k, x ≠ s := by
          intro x hx hxs
          exact (List.nodup_append.1 hnd1).2.2 hx (by simp [hxs])
        have hsL2 : s ∉ L2 := hdisj12 s (by rw [hL1]; simp)
        have hsL : s ∈ L := by rw [← hPD]; simp
        have hm1 : ∀ x, x ≠ s → (m.set s (some { es with next := none })) x = m x :=
          fun x hx => mem_set_other _ _ hx
        have hsegP : Seg m (some a) (L.take k) (some s) := by
          have h0 : Chain m (some a) (L.take k ++ s :: L2) := by rw [hPD]; exact hL
          obtain ⟨r, h1, h2⟩ := seg_append.1 h0
          rw [(seg_cons.1 h2).1] at h1
          exact h1
        have hC1 : Chain (m.set s (some { es with next := none })) (some a) (L.take (k + 1)) := by
          rw [hL1]
          exact chain_snoc.2 ⟨seg_congr (fun x hx => hm1 x (hsP x hx)) hsegP, _,
            mem_set_same _ _ _, rfl⟩
        have hC2 : Chain (m.set s (some { es with next := none })) es.next L2 :=
          chain_congr (fun x hx => hm1 x (fun h => hsL2 (h ▸ hx))) hL2
        have hv1 := sameValues_set_next hes none
        have hlen1 : (L.take (k + 1)).length = k + 1 := by rw [List.length_take]; omega
        have hlen2 : L2.length = L.length - (k + 1) := by rw [← hL2eq, List.length_drop]
        obtain ⟨m2, l1, hms1, hch1, hfr1, hv2⟩ :=
          ih _ (some a) (L.take (k + 1)) (fun x y => by rw [hlt, lt_at_congr hv1]) hC1
            (by rw [hlen1]; omega)
        have hC2' : Chain m2 es.next L2 :=
          chain_congr (fun x hx => hfr1 x (fun h => hdisj12 x h hx)) hC2
        have hv12 := sameValues_trans hv1 hv2
        obtain ⟨m3, l2, hms2, hch2, hfr2, hv3⟩ :=
          ih m2 es.next L2 (fun x y => by rw [hlt, lt_at_congr hv12]) hC2' (by rw [hlen2]; omega)
        have hv13 := sameValues_trans hv12 hv3
        have hp1 := msortL_perm' lt (L.take (k + 1))
        have hp2 := msortL_perm' lt L2
        have hch1' : Chain m3 l1 (msortL lt (L.take (k + 1))) :=
          chain_congr (fun x hx => hfr2 x (hdisj12 x (hp1.mem_iff.1 hx))) hch1
        obtain ⟨m', p, hmerge, hch, hfr, hv4⟩ :=
          merge_spec lt fuel m3 l1 l2 _ _ (fun x y => by rw [hlt, lt_at_congr hv13]) hch1' hch2
            (fun x hx hx2 => hdisj12 x (hp1.mem_iff.1 hx) (hp2.mem_iff.1 hx2))
            (by rw [hp1.length_eq, hp2.length_eq, hlen1, hlen2]; omega)
        refine ⟨m', p, ?_, ?_, ?_, sameValues_trans hv13 hv4⟩
        · rw [hnext] at hsplit
          simp only [mergeSort, deref, Option.some_bind, he, hnext, Option.isNone_some,
            Bool.false_eq_true, if_false, hsplit, hes, store_next_some hes, hms1, hms2]
          exact hmerge
        · rw [msortL_big lt (by omega), hk1, hL2eq]
          exact hch
        · intro x hx
          have hx1 : x ∉ L.take (k + 1) := fun h => hx (List.mem_of_mem_take h)
          have hx2 : x ∉ L2 := fun h => hx (by rw [← hsplitL]; simp [h])
          have hxs : x ≠ s := fun h => hx (h ▸ hsL)
          rw [hfr x (fun h => hx1 (hp1.mem_iff.1 h)) (fun h => hx2 (hp2.mem_iff.1 h)),
            hfr2 x hx2, hfr1 x hx1, hm1 x hxs]

theorem q_sort_small {m : Mem} {q : queue_t} {L : List Addr} (hq : QueueExact m q L)
    (fuel : Nat) (hsmall : L.length ≤ 1) :
    q_sort fuel ⟨m, some q⟩ = some ⟨m, some q⟩ := by
  have hguard : (q.head.isNone || decide (q.size ≤ 1)) = true := by
    simp only [Bool.or_eq_true, decide_eq_true_eq]
    right
    rw [hq.2.1]
    exact_mod_cast hsmall
  simp only [q_sort, hguard, if_true]

theorem q_sort_spec {m : Mem} {q : queue_t} {L : List Addr} (hq : QueueExact m q L)
    (fuel : Nat) (hf : L.length + 1 ≤ fuel) :
    ∃ m' q', q_sort fuel ⟨m, some q⟩ = some ⟨m', some q'⟩ ∧
      QueueExact m' q' (msortL (lt_at m) L) ∧ SameValues m m' ∧ (∀ x, x ∉ L → m' x = m x) ∧
      (L.length ≤ 1 → m' = m ∧ q' = q) := by
  by_cases hsmall : L.length ≤ 1
  · exact ⟨m, q, q_sort_small hq fuel hsmall, by rw [msortL_small _ (by omega)]; exact hq,
      sameValues_refl m, fun _ _ => rfl, fun _ => ⟨rfl, rfl⟩⟩
  · obtain ⟨hc, hs, ht⟩ := hq
    have hsz : ¬ q.size ≤ 1 := by
      rw [hs]
      exact_mod_cast hsmall
    have hh : q.head.isNone = false := by
      rw [chain_head hc]
      cases L with
      | nil => simp at hsmall
      | cons a L => rfl
    obtain ⟨m', p, hms, hch, hfr, hv⟩ :=
      mergeSort_spec (lt_at m) fuel m q.head L (fun _ _ => rfl) hc hf
    have hperm := msortL_perm' (lt_at m) L
    have hne : msortL (lt_at m) L ≠ [] := by
      intro h
      have := hperm.length_eq
      rw [h] at this
      simp at this
      omega
    have hlast := last_loop_spec (msortL (lt_at m) L) fuel p hch hne
      (by rw [hperm.length_eq]; omega)
    refine ⟨m', ⟨p, (msortL (lt_at m) L).getLast?, q.size⟩, ?_, ⟨hch, ?_, rfl⟩, hv, hfr,
      fun h => absurd h hsmall⟩
    · simp [q_sort, hh, hsz, hms, hlast]
    · simp only [hs, hperm.length_eq]


/-! ## Queues at the limit of `int` -/

theorem chain_line (n : Nat) :
    ∀ (d k : Nat), k + d = n →
      Chain (mem_line n) (if k < n then some k else none) (List.range' k d) := by
  intro d
  induction d with
  | zero =>
    intro k hk
    have hkn : ¬ k < n := by omega
    simp only [hkn, if_false, List.range'_zero]
    exact chain_nil.2 rfl
  | succ d ih =>
    intro k hk
    have hkn : k < n := by omega
    simp only [hkn, if_true, List.range'_succ]
    refine chain_cons.2 ⟨rfl, ⟨[0], if k + 1 < n then some (k + 1) else none⟩, ?_, ?_⟩
    · simp only [mem_line, hkn, if_true]
    · exact ih (k + 1) (by omega)

theorem queueExact_line (n : Nat) (hn : 0 < n) :
    QueueExact (mem_line n) (q_line n) (List.range' 0 n) := by
  refine ⟨?_, ?_, ?_⟩
  · have := chain_line n n 0 (by omega)
    simpa only [q_line, hn, if_true] using this
  · simp [q_line]
  · obtain ⟨n', rfl⟩ : ∃ n', n = n' + 1 := ⟨n - 1, by omega⟩
    rw [List.range'_concat, List.getLast?_concat]
    simp [q_line]

theorem mem_line_fresh (n : Nat) : mem_line n n = none := by
  simp [mem_line]

theorem many_inserts_succ (k n : Nat) :
    many_inserts k (n + 1) = Op.insert_head [] (some k) true :: many_inserts (k + 1) n := by
  simp [many_inserts, List.range'_succ]

theorem run_many_inserts :
    ∀ (n k : Nat) (m : Mem) (q : queue_t) (L : List Addr),
      QueueWrapped m q L → (∀ x, k ≤ x → m x = none) →
      admissible ⟨m, some q⟩ (many_inserts k n) = true ∧
      ∃ st, run ⟨m, some q⟩ (many_inserts k n) = some (st, n, 0) ∧
        q_size st = wrap_int ((L.length : Int) + n) := by
  intro n
  induction n with
  | zero =>
    intro k m q L hq _
    exact ⟨rfl, ⟨m, some q⟩, rfl, by simpa using q_size_wrapped hq⟩
  | succ n ih =>
    intro k m q L hq hfresh
    have ha : m k = none := hfresh k (le_refl _)
    obtain ⟨m', q', h1, h2, _, _, h5⟩ := q_insert_head_spec [] hq ha
    have hfresh' : ∀ x, k + 1 ≤ x → m' x = none := by
      intro x hx
      have hxk : x ≠ k := by omega
      rw [h5 x hxk]
      exact hfresh x (by omega)
    obtain ⟨hadm, st, hrun, hsz⟩ := ih (k + 1) m' q' (k :: L) h2 hfresh'
    rw [many_inserts_succ]
    refine ⟨?_, st, ?_, ?_⟩
    · simp only [admissible, env_ok, ha, Option.isNone_none, Bool.true_and, step, h1]
      exact hadm
    · simp only [run, step, h1, hrun, if_true]
    · rw [hsz]
      congr 1
      simp only [List.length_cons]
      push_cast
      ring

theorem wrapped_size_cons {m : Mem} {q : queue_t} {a : Addr} {L : List Addr}
    (h : QueueWrapped m q (a :: L)) : q.size = wrap_int ((L.length : Int) + 1) := by
  simpa using h.2.1

theorem wrapped_size_snoc {m : Mem} {q : queue_t} {a : Addr} {L : List Addr}
    (h : QueueWrapped m q (L ++ [a])) : q.size = wrap_int ((L.length : Int) + 1) := by
  simpa using h.2.1

theorem queueOf_of_exact {m : Mem} {q : queue_t} {L L' : List Addr} (h : QueueExact m q L')
    (hlen : L'.length = L.length) (hb : (L.length : Int) ≤ INT_MAX) : QueueOf m q L' :=
  ⟨h, by rw [hlen]; exact hb⟩

/-! ## Contracts of the queue operations -/

/-- C1, counterexample: `2 ^ 31` successful head insertions into a new
queue, each into a fresh block.  The sequence runs to its end with `2 ^ 31`
insertions and no removal counted, and `q_size` then returns `-2 ^ 31`: not
the number of insertions minus the number of removals, and negative. -/
theorem q_size_wraps_after_many_inserts :
    admissible ⟨mem_empty, some ⟨none, none, 0⟩⟩ (many_inserts 0 2147483648) = true ∧
    q_new true = some ⟨none, none, 0⟩ ∧
    ∃ st, run ⟨mem_empty, some ⟨none, none, 0⟩⟩ (many_inserts 0 2147483648) =
        some (st, 2147483648, 0) ∧
      q_size st = -2147483648 ∧
      q_size st ≠ ((2147483648 : Nat) : Int) - ((0 : Nat) : Int) ∧ q_size st < 0 := by
  have hq : QueueWrapped mem_empty ⟨none, none, 0⟩ [] := ⟨chain_nil.2 rfl, rfl, rfl⟩
  obtain ⟨hadm, st, hrun, hsz⟩ :=
    run_many_inserts 2147483648 0 mem_empty ⟨none, none, 0⟩ [] hq (fun _ _ => rfl)
  have hval : wrap_int ((([] : List Addr).length : Int) + ((2147483648 : Nat) : Int)) =
      -2147483648 := by decide
  rw [hval] at hsz
  refine ⟨hadm, rfl, st, hrun, hsz, ?_, ?_⟩
  · rw [hsz]
    decide
  · rw [hsz]
    decide

/-- C1, amended: for every sequence of `q_insert_head`, `q_insert_tail` and
`q_remove_head` calls on a freshly created non-null queue, in an environment
that keeps its promises (`malloc` returns no live block, a supplied buffer has
the `bufsize > 0` bytes it is declared to hold), the sequence runs to its end,
the removals that returned true are not more than the insertions that
returned true, and `q_size` is then their difference reduced to the range of
`int`; whenever the difference is at most `INT_MAX`, `q_size` is the
difference itself and is not negative. -/
theorem q_size_counts_calls (m0 : Mem) (ops : List Op)
    (henv : admissible ⟨m0, q_new true⟩ ops = true) :
    ∃ st i d, run ⟨m0, q_new true⟩ ops = some (st, i, d) ∧ (d : Int) ≤ (i : Int) ∧
      q_size st = wrap_int ((i : Int) - (d : Int)) ∧
      ((i : Int) - (d : Int) ≤ INT_MAX →
        q_size st = (i : Int) - (d : Int) ∧ 0 ≤ q_size st) := by
  have hq : QueueWrapped m0 ⟨none, none, 0⟩ [] := ⟨chain_nil.2 rfl, rfl, rfl⟩
  obtain ⟨st, i, d, n, h1, h2, h3⟩ := run_size_repr ops m0 ⟨none, none, 0⟩ [] hq henv
  simp only [List.length_nil, Nat.cast_zero, zero_add] at h2
  refine ⟨st, i, d, h1, by omega, by rw [h3, h2], ?_⟩
  intro hb
  rw [h3, h2, wrap_int_of_range (by omega) hb]
  exact ⟨rfl, by omega⟩

/-- Witness of C1: two tail insertions, a head insertion whose `malloc`
fails, a removal into a 2-byte buffer, a head insertion, three removals, the
last of them on the emptied queue. -/
theorem q_size_counts_calls_witness :
    admissible ⟨mem_empty, q_new true⟩
        [.insert_tail [98] (some 1) true, .insert_tail [97] (some 2) true,
         .insert_head [99] none true, .remove_head (some [7, 7]) 2,
         .insert_head [99] (some 3) true, .remove_head none 0, .remove_head none 0,
         .remove_head none 0] = true ∧
      ∃ st i d, run ⟨mem_empty, q_new true⟩
        [.insert_tail [98] (some 1) true, .insert_tail [97] (some 2) true,
         .insert_head [99] none true, .remove_head (some [7, 7]) 2,
         .insert_head [99] (some 3) true, .remove_head none 0, .remove_head none 0,
         .remove_head none 0] = some (st, i, d) ∧ (d : Int) ≤ (i : Int) ∧
        q_size st = wrap_int ((i : Int) - (d : Int)) ∧
        ((i : Int) - (d : Int) ≤ INT_MAX →
          q_size st = (i : Int) - (d : Int) ∧ 0 ≤ q_size st) :=
  ⟨by decide, q_size_counts_calls mem_empty _ (by decide)⟩

theorem not_inv_of_negative_size {m : Mem} {q : queue_t} (h : q.size < 0) :
    ¬ Inv ⟨m, some q⟩ := by
  rintro ⟨L, _, ⟨hs, _⟩, _⟩
  rw [hs] at h
  omega

theorem queueOf_line_max :
    QueueOf (mem_line 2147483647) (q_line 2147483647) (List.range' 0 2147483647) :=
  ⟨queueExact_line 2147483647 (by decide), by
    rw [List.length_range']
    decide⟩

/-- C2, counterexample: the queue made of the `INT_MAX` elements of
`mem_line` satisfies the invariant, and a successful `q_insert_head` into a
fresh block leaves `size = -2 ^ 31`, a state in which the invariant does not
hold; so does a successful `q_insert_tail`. -/
theorem queue_invariant_lost_at_int_max :
    Inv ⟨mem_line 2147483647, some (q_line 2147483647)⟩ ∧
    mem_line 2147483647 2147483647 = none ∧
    (∃ st', q_insert_head ⟨mem_line 2147483647, some (q_line 2147483647)⟩ [] (some 2147483647)
        true = some (true, st') ∧ ¬ Inv st') ∧
    (∃ st', q_insert_tail ⟨mem_line 2147483647, some (q_line 2147483647)⟩ [] (some 2147483647)
        true = some (true, st') ∧ ¬ Inv st') := by
  have hq := queueOf_line_max
  have ha := mem_line_fresh 2147483647
  have hw : wrap_int (((List.range' 0 2147483647).length : Int) + 1) = -2147483648 := by
    rw [List.length_range']
    decide
  refine ⟨repr_inv hq, ha, ?_, ?_⟩
  · obtain ⟨m', q', h1, h2, _⟩ := q_insert_head_spec [] (queueOf_wrapped hq) ha
    refine ⟨⟨m', some q'⟩, h1, not_inv_of_negative_size ?_⟩
    rw [wrapped_size_cons h2, hw]
    decide
  · obtain ⟨m', q', h1, h2, _⟩ := q_insert_tail_spec [] (queueOf_wrapped hq) ha
    refine ⟨⟨m', some q'⟩, h1, not_inv_of_negative_size ?_⟩
    rw [wrapped_size_snoc h2, hw]
    decide

/-- C2, amended: the queue invariant (`size`, an `int`, is the number of
elements reachable from `head`; `head` is absent iff `tail` is absent iff
`size` is 0; a present `tail` is the last element reachable from `head` and
its link is absent) holds of the queue returned by `q_new`, and from a state
where it holds each of `q_remove_head`, `q_reverse` and `q_sort` returns and
leaves a state where it holds; each of `q_insert_head` and `q_insert_tail`
returns, and leaves a state where it holds whenever the queue held fewer than
`INT_MAX` elements or the insertion returned false (the loops being given
enough fuel, `malloc` returning no live block, a supplied buffer having the
`bufsize > 0` bytes it is declared to hold). -/
theorem queue_invariant_preserved (st : State) (hinv : Inv st) :
    (∀ (m : Mem) (malloc_ok : Bool), Inv ⟨m, q_new malloc_ok⟩) ∧
    (∀ s newh val_ok, (∀ a, newh = some a → st.mem a = none) →
      ∃ r st', q_insert_head st s newh val_ok = some (r, st') ∧
        (q_size st < INT_MAX ∨ r = false → Inv st')) ∧
    (∀ s newh val_ok, (∀ a, newh = some a → st.mem a = none) →
      ∃ r st', q_insert_tail st s newh val_ok = some (r, st') ∧
        (q_size st < INT_MAX ∨ r = false → Inv st')) ∧
    (∀ sp k, (∀ buf, sp = some buf → 0 < k ∧ k ≤ buf.length ∧ k < SIZE_MOD) →
      ∃ r st' sp', q_remove_head st sp k = some (r, st', sp') ∧ Inv st') ∧
    (∃ N, ∀ fuel, N ≤ fuel → ∃ st', q_reverse fuel st = some st' ∧ Inv st') ∧
    (∃ N, ∀ fuel, N ≤ fuel → ∃ st', q_sort fuel st = some st' ∧ Inv st') := by
  obtain ⟨m, oq⟩ := st
  refine ⟨?_, ?_⟩
  · intro m0 ok
    cases ok with
    | false => exact True.intro
    | true => exact repr_inv (L := []) ⟨⟨chain_nil.2 rfl, rfl, rfl⟩, by decide⟩
  cases oq with
  | none =>
    refine ⟨?_, ?_, ?_, ?_, ?_⟩
    · intro s newh val_ok _
      exact ⟨false, ⟨m, none⟩, rfl, fun _ => True.intro⟩
    · intro s newh val_ok _
      exact ⟨false, ⟨m, none⟩, rfl, fun _ => True.intro⟩
    · intro sp k _
      exact ⟨false, ⟨m, none⟩, sp, rfl, True.intro⟩
    · exact ⟨0, fun fuel _ => ⟨⟨m, none⟩, rfl, True.intro⟩⟩
    · exact ⟨0, fun fuel _ => ⟨⟨m, none⟩, rfl, True.intro⟩⟩
  | some q =>
    obtain ⟨L, hq⟩ := inv_repr (show queue_inv m q from hinv)
    have hw := queueOf_wrapped hq
    have hsize : q_size ⟨m, some q⟩ = L.length := q_size_repr hq
    refine ⟨?_, ?_, ?_, ?_, ?_⟩
    · intro s newh val_ok hfresh
      cases newh with
      | none =>
        exact ⟨false, ⟨m, some q⟩, q_insert_head_fail_node ⟨m, some q⟩ s val_ok, fun _ => hinv⟩
      | some a =>
        have ha : m a = none := hfresh a rfl
        cases val_ok with
        | false => exact ⟨false, ⟨m, some q⟩, q_insert_head_fail_value q s ha, fun _ => hinv⟩
        | true =>
          obtain ⟨m', q', h1, h2, _⟩ := q_insert_head_spec s hw ha
          refine ⟨true, ⟨m', some q'⟩, h1, fun hor => repr_inv (wrapped_queueOf h2 ?_)⟩
          have hlt : q_size ⟨m, some q⟩ < INT_MAX := hor.resolve_right (by decide)
          rw [hsize] at hlt
          simp only [List.length_cons, Nat.cast_add, Nat.cast_one]
          omega
    · intro s newh val_ok hfresh
      cases newh with
      | none =>
        exact ⟨false, ⟨m, some q⟩, q_insert_tail_fail_node ⟨m, some q⟩ s val_ok, fun _ => hinv⟩
      | some a =>
        have ha : m a = none := hfresh a rfl
        cases val_ok with
        | false => exact ⟨false, ⟨m, some q⟩, q_insert_tail_fail_value q s ha, fun _ => hinv⟩
        | true =>
          obtain ⟨m', q', h1, h2, _⟩ := q_insert_tail_spec s hw ha
          refine ⟨true, ⟨m', some q'⟩, h1, fun hor => repr_inv (wrapped_queueOf h2 ?_)⟩
          have hlt : q_size ⟨m, some q⟩ < INT_MAX := hor.resolve_right (by decide)
          rw [hsize] at hlt
          simp only [List.length_append, List.length_cons, List.length_nil, Nat.cast_add,
            Nat.cast_one, zero_add]
          omega
    · intro sp k hsp
      cases L with
      | nil =>
        exact ⟨false, ⟨m, some q⟩, sp,
          q_remove_head_empty m q sp k ((wrapped_head_none hw).2 rfl), hinv⟩
      | cons a L =>
        obtain ⟨e, q', _, h1, h2, _⟩ := q_remove_head_spec sp k hw hsp
        refine ⟨true, ⟨m.free a, some q'⟩, _, h1, repr_inv (wrapped_queueOf h2 ?_)⟩
        have := hq.2
        simp only [List.length_cons, Nat.cast_add, Nat.cast_one] at this
        omega
    · refine ⟨L.length, fun fuel hf => ?_⟩
      obtain ⟨m', q', h1, h2, _⟩ := q_reverse_spec hq.1 fuel hf
      exact ⟨⟨m', some q'⟩, h1, repr_inv ⟨h2, by rw [List.length_reverse]; exact hq.2⟩⟩
    · refine ⟨L.length + 1, fun fuel hf => ?_⟩
      obtain ⟨m', q', h1, h2, _⟩ := q_sort_spec hq.1 fuel hf
      exact ⟨⟨m', some q'⟩, h1,
        repr_inv ⟨h2, by rw [(msortL_perm' (lt_at m) L).length_eq]; exact hq.2⟩⟩

/-- Witness of C2: the queue [a, b, c] satisfies the invariant, and from it
an insertion at the head into the free block 4 returns a state that
satisfies it. -/
theorem queue_invariant_preserved_witness :
    Inv ⟨mem_abc, some q_abc⟩ ∧
      ((∀ a, some 4 = some a → mem_abc a = none) →
        ∃ r st', q_insert_head ⟨mem_abc, some q_abc⟩ [100] (some 4) true = some (r, st') ∧
          (q_size ⟨mem_abc, some q_abc⟩ < INT_MAX ∨ r = false → Inv st')) :=
  have h : Inv ⟨mem_abc, some q_abc⟩ :=
    repr_inv (L := [1, 2, 3]) ⟨⟨by decide, by decide, by decide⟩, by decide⟩
  ⟨h, (queue_invariant_preserved ⟨mem_abc, some q_abc⟩ h).2.1 [100] (some 4) true⟩

/-- C3, counterexample: on the queue made of the `INT_MAX` elements of
`mem_line`, a successful `q_insert_head` into a fresh block leaves
`size = -2 ^ 31`, not the number of elements plus one. -/
theorem q_insert_head_size_wraps :
    QueueOf (mem_line 2147483647) (q_line 2147483647) (List.range' 0 2147483647) ∧
    mem_line 2147483647 2147483647 = none ∧
    ∃ m' q', q_insert_head ⟨mem_line 2147483647, some (q_line 2147483647)⟩ [] (some 2147483647)
        true = some (true, ⟨m', some q'⟩) ∧
      q'.size = -2147483648 ∧
      q'.size ≠ ((List.range' 0 2147483647).length : Int) + 1 := by
  have hq := queueOf_line_max
  have ha := mem_line_fresh 2147483647
  have hw : wrap_int (((List.range' 0 2147483647).length : Int) + 1) = -2147483648 := by
    rw [List.length_range']
    decide
  obtain ⟨m', q', h1, h2, _⟩ := q_insert_head_spec [] (queueOf_wrapped hq) ha
  have hs := wrapped_size_cons h2
  rw [hw] at hs
  refine ⟨hq, ha, m', q', h1, hs, ?_⟩
  rw [hs, List.length_range']
  decide

/-- C3, amended: on a non-null queue made of the elements `L`, when both
allocations succeed `q_insert_head` returns true and leaves the new element
followed by `L` reachable from `head`: the strings are the string of `s`
followed by the former strings, the new element is the head, the tail is the
last element, and is the new element if the queue was empty; `size` becomes
the number of elements plus one reduced to the range of `int`, which is the
number of elements plus one whenever the queue held fewer than `INT_MAX`
elements, and the result is then the queue made of the new element followed
by `L`.  (The string of a buffer `s` without a zero byte is `s` itself,
`cstring_of_nonzero`.) -/
theorem q_insert_head_contract (m : Mem) (q : queue_t) (L : List Addr) (s : List Nat)
    (a : Addr) (hq : QueueOf m q L) (ha : m a = none) :
    ∃ m' q', q_insert_head ⟨m, some q⟩ s (some a) true = some (true, ⟨m', some q'⟩) ∧
      Chain m' q'.head (a :: L) ∧ contents m' (a :: L) = cstring s :: contents m L ∧
      q'.head = some a ∧ q'.tail = (a :: L).getLast? ∧ (L = [] → q'.tail = some a) ∧
      q'.size = wrap_int ((L.length : Int) + 1) ∧
      ((L.length : Int) < INT_MAX →
        q'.size = (L.length : Int) + 1 ∧ QueueOf m' q' (a :: L)) := by
  obtain ⟨m', q', h1, h2, h3, h4, h5⟩ := q_insert_head_spec s (queueOf_wrapped hq) ha
  have hsz : q'.size = wrap_int ((L.length : Int) + 1) := wrapped_size_cons h2
  refine ⟨m', q', h1, h2.1, ?_, h3, h2.2.2, ?_, hsz, ?_⟩
  · have hL : contents m' L = contents m L := by
      apply contents_congr
      intro x hx
      have hxa : x ≠ a := by
        intro h
        obtain ⟨e, he⟩ := chain_live hq.1.1 hx
        rw [h, ha] at he
        cases he
      rw [h5 x hxa]
    simp only [contents, List.map_cons] at hL ⊢
    rw [hL, value_at_of_some h4]
    simp only [cstring_strncpy]
  · intro hnil
    subst hnil
    simpa using h2.2.2
  · intro hlt
    have hb : (((a :: L).length : Nat) : Int) ≤ INT_MAX := by
      simp only [List.length_cons, Nat.cast_add, Nat.cast_one]
      omega
    have hqo := wrapped_queueOf h2 hb
    refine ⟨?_, hqo⟩
    simpa using hqo.1.2.1

/-- Witness of C3: inserting "c" at the head of [b, a]; and the scenario of
the specification, two tail insertions of "b" and "a" and a head insertion of
"c" into a new queue, leaves [c, b, a] and size 3. -/
theorem q_insert_head_contract_witness :
    (QueueOf mem_ba q_ba [1, 2] ∧ mem_ba 3 = none) ∧
    (∃ m' q', q_insert_head ⟨mem_ba, some q_ba⟩ [99] (some 3) true =
        some (true, ⟨m', some q'⟩) ∧
      Chain m' q'.head (3 :: [1, 2]) ∧
      contents m' (3 :: [1, 2]) = cstring [99] :: contents mem_ba [1, 2] ∧
      q'.head = some 3 ∧ q'.tail = (3 :: [1, 2] : List Addr).getLast? ∧
      (([1, 2] : List Addr) = [] → q'.tail = some 3) ∧
      q'.size = wrap_int ((([1, 2] : List Addr).length : Int) + 1) ∧
      ((([1, 2] : List Addr).length : Int) < INT_MAX →
        q'.size = (([1, 2] : List Addr).length : Int) + 1 ∧ QueueOf m' q' (3 :: [1, 2]))) ∧
    (run ⟨mem_empty, q_new true⟩
        [.insert_tail [98] (some 1) true, .insert_tail [97] (some 2) true,
         .insert_head [99] (some 3) true]).map
      (fun r => (q_contents 3 r.1, q_size r.1)) = some (some [[99], [98], [97]], 3) :=
  ⟨⟨⟨⟨by decide, by decide, by decide⟩, by decide⟩, by decide⟩,
    q_insert_head_contract mem_ba q_ba [1, 2] [99] 3
      ⟨⟨by decide, by decide, by decide⟩, by decide⟩ (by decide),
    by decide⟩

/-- C4, counterexample: on the queue made of the `INT_MAX` elements of
`mem_line`, a successful `q_insert_tail` into a fresh block leaves
`size = -2 ^ 31`, not the number of elements plus one. -/
theorem q_insert_tail_size_wraps :
    QueueOf (mem_line 2147483647) (q_line 2147483647) (List.range' 0 2147483647) ∧
    mem_line 2147483647 2147483647 = none ∧
    ∃ m' q', q_insert_tail ⟨mem_line 2147483647, some (q_line 2147483647)⟩ [] (some 2147483647)
        true = some (true, ⟨m', some q'⟩) ∧
      q'.size = -2147483648 ∧
      q'.size ≠ ((List.range' 0 2147483647).length : Int) + 1 := by
  have hq := queueOf_line_max
  have ha := mem_line_fresh 2147483647
  have hw : wrap_int (((List.range' 0 2147483647).length : Int) + 1) = -2147483648 := by
    rw [List.length_range']
    decide
  obtain ⟨m', q', h1, h2, _⟩ := q_insert_tail_spec [] (queueOf_wrapped hq) ha
  have hs := wrapped_size_snoc h2
  rw [hw] at hs
  refine ⟨hq, ha, m', q', h1, hs, ?_⟩
  rw [hs, List.length_range']
  decide

/-- C4, amended: on a non-null queue made of the elements `L`, when both
allocations succeed `q_insert_tail` returns true and leaves `L` followed by
the new element reachable from `head`: the strings are the former strings
followed by the string of `s`, the new element is the tail and has no next
element, and it is also the head if the queue was empty; `size` becomes the
number of elements plus one reduced to the range of `int`, which is the
number of elements plus one whenever the queue held fewer than `INT_MAX`
elements, and the result is then the queue made of `L` followed by the new
element. -/
theorem q_insert_tail_contract (m : Mem) (q : queue_t) (L : List Addr) (s : List Nat)
    (a : Addr) (hq : QueueOf m q L) (ha : m a = none) :
    ∃ m' q', q_insert_tail ⟨m, some q⟩ s (some a) true = some (true, ⟨m', some q'⟩) ∧
      Chain m' q'.head (L ++ [a]) ∧ contents m' (L ++ [a]) = contents m L ++ [cstring s] ∧
      q'.tail = some a ∧ (∃ e, m' a = some e ∧ e.next = none) ∧
      (L = [] → q'.head = some a) ∧
      q'.size = wrap_int ((L.length : Int) + 1) ∧
      ((L.length : Int) < INT_MAX →
        q'.size = (L.length : Int) + 1 ∧ QueueOf m' q' (L ++ [a])) := by
  obtain ⟨m', q', h1, h2, h3, h4, h5, _⟩ := q_insert_tail_spec s (queueOf_wrapped hq) ha
  have hsz : q'.size = wrap_int ((L.length : Int) + 1) := wrapped_size_snoc h2
  refine ⟨m', q', h1, h2.1, ?_, h3, ⟨_, h4, rfl⟩, ?_, hsz, ?_⟩
  · have hL : contents m' L = contents m L := by
      apply contents_congr
      intro x hx
      have hxa : x ≠ a := by
        intro h
        obtain ⟨e, he⟩ := chain_live hq.1.1 hx
        rw [h, ha] at he
        cases he
      exact h5 x hxa
    simp only [contents, List.map_append, List.map_cons, List.map_nil] at hL ⊢
    rw [hL, value_at_of_some h4]
    simp only [cstring_strncpy]
  · intro hnil
    subst hnil
    simpa using (chain_cons.1 h2.1).1
  · intro hlt
    have hb : (((L ++ [a]).length : Nat) : Int) ≤ INT_MAX := by
      simp only [List.length_append, List.length_cons, List.length_nil, Nat.cast_add,
        Nat.cast_one, zero_add]
      omega
    have hqo := wrapped_queueOf h2 hb
    refine ⟨?_, hqo⟩
    simpa using hqo.1.2.1

/-- Witness of C4: inserting "c" at the tail of [b, a] leaves [b, a, c]. -/
theorem q_insert_tail_contract_witness :
    (QueueOf mem_ba q_ba [1, 2] ∧ mem_ba 3 = none) ∧
    (∃ m' q', q_insert_tail ⟨mem_ba, some q_ba⟩ [99] (some 3) true =
        some (true, ⟨m', some q'⟩) ∧
      Chain m' q'.head ([1, 2] ++ [3]) ∧
      contents m' ([1, 2] ++ [3]) = contents mem_ba [1, 2] ++ [cstring [99]] ∧
      q'.tail = some 3 ∧ (∃ e, m' 3 = some e ∧ e.next = none) ∧
      (([1, 2] : List Addr) = [] → q'.head = some 3) ∧
      q'.size = wrap_int ((([1, 2] : List Addr).length : Int) + 1) ∧
      ((([1, 2] : List Addr).length : Int) < INT_MAX →
        q'.size = (([1, 2] : List Addr).length : Int) + 1 ∧
          QueueOf m' q' ([1, 2] ++ [3]))) ∧
    (q_insert_tail ⟨mem_ba, some q_ba⟩ [99] (some 3) true).map
      (fun r => (r.1, q_contents 3 r.2, q_size r.2)) =
        some (true, some [[98], [97], [99]], 3) :=
  ⟨⟨⟨⟨by decide, by decide, by decide⟩, by decide⟩, by decide⟩,
    q_insert_tail_contract mem_ba q_ba [1, 2] [99] 3
      ⟨⟨by decide, by decide, by decide⟩, by decide⟩ (by decide),
    by decide⟩

theorem cstring_take_append_zeros (P : List Nat) (j n : Nat) (hP : ∀ b ∈ P, (b != 0) = true)
    (hn : 0 < n) : cstring (P.take j ++ List.replicate n 0) = P.take j := by
  obtain ⟨n', rfl⟩ : ∃ n', n = n' + 1 := ⟨n - 1, by omega⟩
  rw [List.replicate_succ]
  exact cstring_append_zero _ _ (fun b hb => hP b (List.mem_of_mem_take hb))

theorem remove_head_writes_in_bounds (v : List Nat) (k : Nat) (hk : 0 < k)
    (hsz : k < SIZE_MOD) : ∀ w ∈ remove_head_writes v k, w.1 < k := by
  intro w hw
  unfold remove_head_writes at hw
  rcases List.mem_append.1 hw with h | h
  · have h1 := (List.of_mem_zip h).1
    exact List.mem_range.1 h1
  · have h1 : (k + SIZE_MOD - 1) % SIZE_MOD = k - 1 := by
      have h2 : k + SIZE_MOD - 1 = (k - 1) + SIZE_MOD := by omega
      rw [h2, Nat.add_mod_right, Nat.mod_eq_of_lt (by omega)]
    have h3 : w = ((k + SIZE_MOD - 1) % SIZE_MOD, 0) := by simpa using h
    rw [h3, h1]
    simp only
    omega

/-- C6, the code at the failing input: with a supplied buffer of capacity 0
the only store of `q_remove_head` is the terminator at index
`2 ^ 64 - 1`, outside the buffer, and the call on the queue [a, b, c] with an
empty buffer faults. -/
theorem q_remove_head_zero_capacity_store :
    remove_head_writes (value_at mem_abc 1) 0 = [(2 ^ 64 - 1, 0)] ∧
    (¬ ∀ w ∈ remove_head_writes (value_at mem_abc 1) 0, w.1 < 0) ∧
    q_remove_head ⟨mem_abc, some q_abc⟩ (some []) 0 = none := by
  refine ⟨by decide, ?_, by rfl⟩
  intro h
  have := h (2 ^ 64 - 1, 0) (by decide)
  simp at this

/-- C7: `q_remove_head` on an empty queue (its head is absent) returns false
and leaves the element memory, the queue record and the caller's buffer as
they were. -/
theorem q_remove_head_empty_unchanged (m : Mem) (q : queue_t) (sp : Option (List Nat))
    (k : Nat) (hempty : q.head = none) :
    q_remove_head ⟨m, some q⟩ sp k = some (false, ⟨m, some q⟩, sp) :=
  q_remove_head_empty m q sp k hempty

/-- Witness of C7: removal from a new queue with a 2-byte buffer. -/
theorem q_remove_head_empty_unchanged_witness :
    (⟨none, none, 0⟩ : queue_t).head = none ∧
      q_remove_head ⟨mem_empty, some ⟨none, none, 0⟩⟩ (some [7, 7]) 2 =
        some (false, ⟨mem_empty, some ⟨none, none, 0⟩⟩, some [7, 7]) :=
  ⟨rfl, q_remove_head_empty_unchanged mem_empty ⟨none, none, 0⟩ (some [7, 7]) 2 rfl⟩

/-- C8: with a NULL handle `q_insert_head`, `q_insert_tail` and
`q_remove_head` return false, `q_size` returns 0, and `q_reverse`, `q_sort`
and `q_free` do nothing; each returns without a fault, whatever the memory,
the other arguments and the fuel, and leaves memory and buffer as they
were. -/
theorem null_handle_tolerated (m : Mem) (s : List Nat) (newh : Option Addr) (val_ok : Bool)
    (sp : Option (List Nat)) (k fuel : Nat) :
    q_insert_head ⟨m, none⟩ s newh val_ok = some (false, ⟨m, none⟩) ∧
    q_insert_tail ⟨m, none⟩ s newh val_ok = some (false, ⟨m, none⟩) ∧
    q_remove_head ⟨m, none⟩ sp k = some (false, ⟨m, none⟩, sp) ∧
    q_size ⟨m, none⟩ = 0 ∧
    q_reverse fuel ⟨m, none⟩ = some ⟨m, none⟩ ∧
    q_sort fuel ⟨m, none⟩ = some ⟨m, none⟩ ∧
    q_free fuel ⟨m, none⟩ = some m :=
  ⟨rfl, rfl, rfl, rfl, rfl, rfl, rfl⟩

/-- C9: when the element allocation fails, or when it succeeds (at an
address that held no live element) and the string allocation fails,
`q_insert_head` and `q_insert_tail` return false and leave the state, element
memory and queue record, exactly as it was. -/
theorem insert_alloc_failure_atomic (st : State) (s : List Nat) (a : Addr)
    (ha : st.mem a = none) :
    (∀ val_ok, q_insert_head st s none val_ok = some (false, st)) ∧
    q_insert_head st s (some a) false = some (false, st) ∧
    (∀ val_ok, q_insert_tail st s none val_ok = some (false, st)) ∧
    q_insert_tail st s (some a) false = some (false, st) := by
  obtain ⟨m, oq⟩ := st
  refine ⟨fun ok => q_insert_head_fail_node _ s ok, ?_,
    fun ok => q_insert_tail_fail_node _ s ok, ?_⟩
  · cases oq with
    | none => rfl
    | some q => exact q_insert_head_fail_value q s ha
  · cases oq with
    | none => rfl
    | some q => exact q_insert_tail_fail_value q s ha

/-- Witness of C9: failed insertions into the queue [a, b, c], address 4
being free. -/
theorem insert_alloc_failure_atomic_witness :
    mem_abc 4 = none ∧
    ((∀ val_ok, q_insert_head ⟨mem_abc, some q_abc⟩ [100] none val_ok =
        some (false, ⟨mem_abc, some q_abc⟩)) ∧
      q_insert_head ⟨mem_abc, some q_abc⟩ [100] (some 4) false =
        some (false, ⟨mem_abc, some q_abc⟩) ∧
      (∀ val_ok, q_insert_tail ⟨mem_abc, some q_abc⟩ [100] none val_ok =
        some (false, ⟨mem_abc, some q_abc⟩)) ∧
      q_insert_tail ⟨mem_abc, some q_abc⟩ [100] (some 4) false =
        some (false, ⟨mem_abc, some q_abc⟩)) :=
  ⟨by decide, insert_alloc_failure_atomic ⟨mem_abc, some q_abc⟩ [100] 4 (by decide)⟩

theorem chain_links_determined {m m' : Mem} (hv : SameValues m m') :
    ∀ {L : List Addr} {p : Option Addr}, Chain m p L → Chain m' p L → ∀ x ∈ L, m' x = m x := by
  intro L
  induction L with
  | nil => intro p _ _ x hx; simp at hx
  | cons a L ih =>
    intro p h h' x hx
    obtain ⟨_, e, he, hrest⟩ := chain_cons.1 h
    obtain ⟨_, e', he', hrest'⟩ := chain_cons.1 h'
    have hnext : e'.next = e.next := by rw [chain_head hrest, chain_head hrest']
    have hval : e'.value = e.value := by
      have := hv a
      rw [he, he'] at this
      simpa using this
    have hee : e' = e := by
      cases e
      cases e'
      simp only at hnext hval
      rw [hnext, hval]
    rcases List.mem_cons.1 hx with rfl | hx
    · rw [he, he', hee]
    · exact ih hrest (hnext ▸ hrest') x hx

/-- C11: on a queue made of the elements `L`, `q_reverse` (given fuel for
its loop) applied twice returns the state it started from: the same element
memory, so the same elements in the same order with the same links and
strings, and the same queue record, so the same head, tail and size. -/
theorem q_reverse_involution (m : Mem) (q : queue_t) (L : List Addr) (fuel : Nat)
    (hq : QueueOf m q L) (hfuel : L.length ≤ fuel) :
    ∃ st', q_reverse fuel ⟨m, some q⟩ = some st' ∧
      q_reverse fuel st' = some ⟨m, some q⟩ := by
  obtain ⟨hq, _⟩ := hq
  obtain ⟨m1, q1, h1, hq1, hv1, hf1, hh1, ht1, _⟩ := q_reverse_spec hq fuel hfuel
  obtain ⟨m2, q2, h2, hq2, hv2, hf2, hh2, ht2, _⟩ :=
    q_reverse_spec hq1 fuel (by rw [List.length_reverse]; exact hfuel)
  rw [List.reverse_reverse] at hq2
  refine ⟨⟨m1, some q1⟩, h1, ?_⟩
  have hhead : q2.head = q.head := by
    rw [hh2, List.getLast?_reverse, ← chain_head hq.1]
  have hm : m2 = m := by
    funext x
    by_cases hx : x ∈ L
    · exact chain_links_determined (sameValues_trans hv1 hv2) hq.1 (hhead ▸ hq2.1) x hx
    · rw [hf2 x (fun h => hx (List.mem_reverse.1 h)), hf1 x hx]
  have hqq : q2 = q := by
    obtain ⟨a1, a2, a3⟩ := q2
    obtain ⟨b1, b2, b3⟩ := q
    have e2 := hq2.2.2
    have e3 := hq2.2.1
    have f2 := hq.2.2
    have f3 := hq.2.1
    simp only at hhead e2 e3 f2 f3
    rw [hhead, e2, e3, f2, f3]
  rw [h2, hm, hqq]

/-- Witness of C11: reversing [a, b, c] twice gives back the state. -/
theorem q_reverse_involution_witness :
    (QueueOf mem_abc q_abc [1, 2, 3] ∧ ([1, 2, 3] : List Addr).length ≤ 3) ∧
      ∃ st', q_reverse 3 ⟨mem_abc, some q_abc⟩ = some st' ∧
        q_reverse 3 st' = some ⟨mem_abc, some q_abc⟩ :=
  ⟨⟨⟨⟨by decide, by decide, by decide⟩, by decide⟩, by decide⟩,
    q_reverse_involution mem_abc q_abc [1, 2, 3] 3 ⟨⟨by decide, by decide, by decide⟩, by decide⟩
      (by decide)⟩

/-! ## The order of `strcmp` -/

theorem strcmp_bytes_neg : ∀ a b : List Nat, strcmp_bytes b a = - strcmp_bytes a b := by
  intro a
  induction a with
  | nil =>
    intro b
    cases b with
    | nil => simp [strcmp_bytes]
    | cons y bs => simp [strcmp_bytes]
  | cons x as ih =>
    intro b
    cases b with
    | nil => simp [strcmp_bytes]
    | cons y bs =>
      simp only [strcmp_bytes]
      by_cases h : x = y
      · subst h
        simp only [if_true]
        exact ih bs
      · have h' : ¬ y = x := fun e => h e.symm
        simp only [h, h', if_false]
        ring

theorem strcmp_bytes_self : ∀ a : List Nat, strcmp_bytes a a = 0 := by
  intro a
  induction a with
  | nil => rfl
  | cons x as ih => simp [strcmp_bytes, ih]

theorem strcmp_bytes_le_trans :
    ∀ a b c : List Nat, (∀ x ∈ a, x ≠ 0) → (∀ x ∈ b, x ≠ 0) →
      strcmp_bytes a b ≤ 0 → strcmp_bytes b c ≤ 0 → strcmp_bytes a c ≤ 0 := by
  intro a
  induction a with
  | nil =>
    intro b c _ _ _ _
    cases c with
    | nil => simp [strcmp_bytes]
    | cons z cs => simp [strcmp_bytes]
  | cons x as ih =>
    intro b c ha hb hab hbc
    have hx : x ≠ 0 := ha x (List.mem_cons_self _ _)
    cases b with
    | nil =>
      simp only [strcmp_bytes] at hab
      omega
    | cons y bs =>
      have hy : y ≠ 0 := hb y (List.mem_cons_self _ _)
      cases c with
      | nil =>
        simp only [strcmp_bytes] at hbc
        omega
      | cons z cs =>
        simp only [strcmp_bytes] at hab hbc ⊢
        by_cases hxy : x = y
        · subst hxy
          simp only [if_true] at hab
          by_cases hxz : x = z
          · subst hxz
            simp only [if_true] at hbc ⊢
            exact ih bs cs (fun v hv => ha v (List.mem_cons_of_mem _ hv))
              (fun v hv => hb v (List.mem_cons_of_mem _ hv)) hab hbc
          · simp only [hxz, if_false] at hbc ⊢
            exact hbc
        · simp only [hxy, if_false] at hab
          by_cases hyz : y = z
          · subst hyz
            simp only [hxy, if_false]
            exact hab
          · simp only [hyz, if_false] at hbc
            have hxz : ¬ x = z := by omega
            simp only [hxz, if_false]
            omega

theorem strcmp_bytes_eq_zero :
    ∀ a b : List Nat, (∀ x ∈ a, x ≠ 0) → (∀ x ∈ b, x ≠ 0) → strcmp_bytes a b = 0 → a = b := by
  intro a
  induction a with
  | nil =>
    intro b _ hb h
    cases b with
    | nil => rfl
    | cons y bs =>
      have hy : y ≠ 0 := hb y (List.mem_cons_self _ _)
      simp only [strcmp_bytes] at h
      omega
  | cons x as ih =>
    intro b ha hb h
    have hx : x ≠ 0 := ha x (List.mem_cons_self _ _)
    cases b with
    | nil =>
      simp only [strcmp_bytes] at h
      omega
    | cons y bs =>
      simp only [strcmp_bytes] at h
      by_cases hxy : x = y
      · subst hxy
        simp only [if_true] at h
        rw [ih bs (fun v hv => ha v (List.mem_cons_of_mem _ hv))
          (fun v hv => hb v (List.mem_cons_of_mem _ hv)) h]
      · simp only [hxy, if_false] at h
        omega

theorem cstring_zero_free (s : List Nat) : ∀ x ∈ cstring s, x ≠ 0 := by
  intro x hx
  simpa using cstring_nonzero s x hx

theorem strcmp_neg (u v : List Nat) : strcmp v u = - strcmp u v :=
  strcmp_bytes_neg _ _

theorem strcmp_self (u : List Nat) : strcmp u u = 0 := strcmp_bytes_self _

theorem strcmp_le_trans {u v w : List Nat} (h1 : strcmp u v ≤ 0) (h2 : strcmp v w ≤ 0) :
    strcmp u w ≤ 0 :=
  strcmp_bytes_le_trans _ _ _ (cstring_zero_free u) (cstring_zero_free v) h1 h2

theorem strcmp_lt_of_lt_of_le {u v w : List Nat} (h1 : strcmp u v < 0) (h2 : strcmp v w ≤ 0) :
    strcmp u w < 0 := by
  by_contra hcon
  have h3 : strcmp w u ≤ 0 := by rw [strcmp_neg u w]; omega
  have h4 := strcmp_le_trans h2 h3
  rw [strcmp_neg u v] at h4
  omega

theorem strcmp_eq_zero {u v : List Nat} (h : strcmp u v = 0) : cstring u = cstring v :=
  strcmp_bytes_eq_zero _ _ (cstring_zero_free u) (cstring_zero_free v) h

/-! ## Order of the merged and of the sorted list -/

theorem mergeL_sorted (lt : Addr → Addr → Bool) (le : Addr → Addr → Prop)
    (h1 : ∀ a b, lt a b = true → le a b) (h2 : ∀ a b, lt a b = false → le b a)
    (h3 : ∀ a b c, le a b → le b c → le a c) :
    ∀ (n : Nat) (A B : List Addr), A.length + B.length ≤ n →
      A.Pairwise le → B.Pairwise le → (mergeL lt A B).Pairwise le := by
  intro n
  induction n with
  | zero =>
    intro A B h _ hB
    have hA : A = [] := List.length_eq_zero.1 (by omega)
    subst hA
    rw [mergeL_nil_left]
    exact hB
  | succ n ih =>
    intro A B h hA hB
    cases A with
    | nil => rw [mergeL_nil_left]; exact hB
    | cons a A =>
      cases B with
      | nil => rw [mergeL_nil_right]; exact hA
      | cons b B =>
        rw [mergeL_cons_cons]
        simp only [List.length_cons] at h
        obtain ⟨haA, hA'⟩ := List.pairwise_cons.1 hA
        obtain ⟨hbB, hB'⟩ := List.pairwise_cons.1 hB
        cases hlt : lt a b with
        | true =>
          simp only [if_true]
          refine List.pairwise_cons.2 ⟨?_, ih A (b :: B) (by simp only [List.length_cons]; omega)
            hA' hB⟩
          intro z hz
          have hz' := (mergeL_perm lt _ A (b :: B) (le_refl _)).mem_iff.1 hz
          rcases List.mem_append.1 hz' with hzA | hzB
          · exact haA z hzA
          · rcases List.mem_cons.1 hzB with rfl | hzB
            · exact h1 a z hlt
            · exact h3 a b z (h1 a b hlt) (hbB z hzB)
        | false =>
          simp only [Bool.false_eq_true, if_false]
          refine List.pairwise_cons.2 ⟨?_, ih (a :: A) B (by simp only [List.length_cons]; omega)
            hA hB'⟩
          intro z hz
          have hz' := (mergeL_perm lt _ (a :: A) B (le_refl _)).mem_iff.1 hz
          rcases List.mem_append.1 hz' with hzA | hzB
          · rcases List.mem_cons.1 hzA with rfl | hzA
            · exact h2 z b hlt
            · exact h3 b a z (h2 a b hlt) (haA z hzA)
          · exact hbB z hzB

theorem msortL_sorted (lt : Addr → Addr → Bool) (le : Addr → Addr → Prop)
    (h1 : ∀ a b, lt a b = true → le a b) (h2 : ∀ a b, lt a b = false → le b a)
    (h3 : ∀ a b c, le a b → le b c → le a c) :
    ∀ (n : Nat) (L : List Addr), L.length ≤ n → (msortL lt L).Pairwise le := by
  intro n
  induction n with
  | zero =>
    intro L h
    have hL : L = [] := List.length_eq_zero.1 (by omega)
    subst hL
    rw [msortL_small lt (by simp)]
    exact List.Pairwise.nil
  | succ n ih =>
    intro L h
    by_cases hs : L.length < 2
    · rw [msortL_small lt hs]
      rcases L with _ | ⟨a, _ | ⟨b, T⟩⟩
      · exact List.Pairwise.nil
      · exact List.pairwise_singleton _ _
      · simp only [List.length_cons] at hs
        omega
    · rw [msortL_big lt hs]
      exact mergeL_sorted lt le h1 h2 h3 _ _ _ (le_refl _)
        (ih _ (by rw [List.length_take]; omega)) (ih _ (by rw [List.length_drop]; omega))

theorem lt_at_le (m : Mem) (a b : Addr) (h : lt_at m a b = true) : le_at m a b := by
  unfold lt_at at h
  unfold le_at
  have := of_decide_eq_true h
  omega

theorem lt_at_false_le (m : Mem) (a b : Addr) (h : lt_at m a b = false) : le_at m b a := by
  unfold lt_at at h
  unfold le_at
  have := of_decide_eq_false h
  rw [strcmp_neg (value_at m a) (value_at m b)]
  omega

theorem le_at_trans (m : Mem) (a b c : Addr) (h1 : le_at m a b) (h2 : le_at m b c) :
    le_at m a c :=
  strcmp_le_trans h1 h2

theorem msortL_sortedAt (m : Mem) (L : List Addr) : SortedAt m (msortL (lt_at m) L) :=
  msortL_sorted (lt_at m) (le_at m) (lt_at_le m) (lt_at_false_le m) (le_at_trans m) _ L
    (le_refl _)

theorem sortedAt_congr {m m' : Mem} (h : SameValues m m') {L : List Addr}
    (hs : SortedAt m L) : SortedAt m' L := by
  unfold SortedAt at hs ⊢
  refine List.Pairwise.imp ?_ hs
  intro a b hab
  unfold le_at at hab ⊢
  rw [sameValues_value_at h a, sameValues_value_at h b]
  exact hab

theorem mergeL_sublist_left (lt : Addr → Addr → Bool) :
    ∀ (n : Nat) (A B : List Addr), A.length + B.length ≤ n → A.Sublist (mergeL lt A B) := by
  intro n
  induction n with
  | zero =>
    intro A B h
    have hA : A = [] := List.length_eq_zero.1 (by omega)
    subst hA
    exact List.nil_sublist _
  | succ n ih =>
    intro A B h
    cases A with
    | nil => exact List.nil_sublist _
    | cons a A =>
      cases B with
      | nil => rw [mergeL_nil_right]
      | cons b B =>
        rw [mergeL_cons_cons]
        simp only [List.length_cons] at h
        split
        · exact List.Sublist.cons₂ a (ih A (b :: B) (by simp only [List.length_cons]; omega))
        · exact List.Sublist.cons b (ih (a :: A) B (by simp only [List.length_cons]; omega))

theorem mergeL_sublist_right (lt : Addr → Addr → Bool) :
    ∀ (n : Nat) (A B : List Addr), A.length + B.length ≤ n → B.Sublist (mergeL lt A B) := by
  intro n
  induction n with
  | zero =>
    intro A B h
    have hB : B = [] := List.length_eq_zero.1 (by omega)
    subst hB
    exact List.nil_sublist _
  | succ n ih =>
    intro A B h
    cases A with
    | nil => rw [mergeL_nil_left]
    | cons a A =>
      cases B with
      | nil => exact List.nil_sublist _
      | cons b B =>
        rw [mergeL_cons_cons]
        simp only [List.length_cons] at h
        split
        · exact List.Sublist.cons a (ih A (b :: B) (by simp only [List.length_cons]; omega))
        · exact List.Sublist.cons₂ b (ih (a :: A) B (by simp only [List.length_cons]; omega))

/-! ## Contracts of the sort -/

theorem cstring_idem (s : List Nat) : cstring (cstring s) = cstring s :=
  cstring_of_nonzero _ (cstring_zero_free s)

theorem strcmp_cstring (u v : List Nat) : strcmp (cstring u) (cstring v) = strcmp u v := by
  unfold strcmp
  rw [cstring_idem, cstring_idem]

theorem sortedAt_contents {m : Mem} {L : List Addr} (h : SortedAt m L) :
    (contents m L).Pairwise (fun u v => strcmp u v ≤ 0) := by
  unfold contents
  rw [List.pairwise_map]
  refine List.Pairwise.imp ?_ h
  intro a b hab
  rw [strcmp_cstring]
  exact hab

/-- C13: on a queue made of the elements `L`, `q_sort` (given fuel) returns
and leaves a queue made of a permutation of `L` without repetition; every
address holds a live element after the call iff it did before, with the same
string; elements outside the queue are untouched and the size is
unchanged. -/
theorem q_sort_rearranges (m : Mem) (q : queue_t) (L : List Addr) (fuel : Nat)
    (hq : QueueOf m q L) (hfuel : L.length + 1 ≤ fuel) :
    ∃ m' q' L', q_sort fuel ⟨m, some q⟩ = some ⟨m', some q'⟩ ∧ QueueOf m' q' L' ∧
      L'.Perm L ∧ L'.Nodup ∧ SameValues m m' ∧ (∀ x, x ∉ L → m' x = m x) ∧
      q'.size = q.size ∧ L'.length = L.length := by
  obtain ⟨m', q', h1, h2, h3, h4, _⟩ := q_sort_spec hq.1 fuel hfuel
  have hp := msortL_perm' (lt_at m) L
  refine ⟨m', q', _, h1, queueOf_of_exact h2 hp.length_eq hq.2, hp, chain_nodup h2.1, h3, h4,
    ?_, hp.length_eq⟩
  rw [h2.2.1, hq.1.2.1, hp.length_eq]

/-- Witness of C13: sorting [c, b, a]. -/
theorem q_sort_rearranges_witness :
    (QueueOf mem_cba q_cba [1, 2, 3] ∧ ([1, 2, 3] : List Addr).length + 1 ≤ 4) ∧
    ∃ m' q' L', q_sort 4 ⟨mem_cba, some q_cba⟩ = some ⟨m', some q'⟩ ∧ QueueOf m' q' L' ∧
      L'.Perm [1, 2, 3] ∧ L'.Nodup ∧ SameValues mem_cba m' ∧
      (∀ x, x ∉ ([1, 2, 3] : List Addr) → m' x = mem_cba x) ∧
      q'.size = q_cba.size ∧ L'.length = ([1, 2, 3] : List Addr).length :=
  ⟨⟨⟨⟨by decide, by decide, by decide⟩, by decide⟩, by decide⟩,
    q_sort_rearranges mem_cba q_cba [1, 2, 3] 4 ⟨⟨by decide, by decide, by decide⟩, by decide⟩
      (by decide)⟩

/-! ## Elements with equal strings -/

theorem mergeL_cross (lt : Addr → Addr → Bool) (le : Addr → Addr → Prop)
    (h4 : ∀ a b c, lt a b = true → le b c → lt a c = true) (x y : Addr)
    (hxy : lt x y = false) :
    ∀ (n : Nat) (A B : List Addr), A.length + B.length ≤ n → B.Pairwise le →
      x ∈ A → y ∈ B → [y, x].Sublist (mergeL lt A B) := by
  intro n
  induction n with
  | zero =>
    intro A B h _ hx _
    have hA : A = [] := List.length_eq_zero.1 (by omega)
    subst hA
    simp at hx
  | succ n ih =>
    intro A B h hB hx hy
    cases A with
    | nil => simp at hx
    | cons a A =>
      cases B with
      | nil => simp at hy
      | cons b B =>
        rw [mergeL_cons_cons]
        simp only [List.length_cons] at h
        obtain ⟨hbB, hB'⟩ := List.pairwise_cons.1 hB
        cases hlt : lt a b with
        | true =>
          simp only [if_true]
          have hxA : x ∈ A := by
            rcases List.mem_cons.1 hx with rfl | hxA
            · exfalso
              rcases List.mem_cons.1 hy with rfl | hyB
              · rw [hlt] at hxy
                cases hxy
              · have := h4 x b y hlt (hbB y hyB)
                rw [this] at hxy
                cases hxy
            · exact hxA
          exact List.Sublist.cons a
            (ih A (b :: B) (by simp only [List.length_cons]; omega) hB hxA hy)
        | false =>
          simp only [Bool.false_eq_true, if_false]
          rcases List.mem_cons.1 hy with rfl | hyB
          · refine List.Sublist.cons₂ y (List.singleton_sublist.2 ?_)
            exact (mergeL_perm lt _ (a :: A) B (le_refl _)).mem_iff.2
              (List.mem_append_left _ hx)
          · exact List.Sublist.cons b
              (ih (a :: A) B (by simp only [List.length_cons]; omega) hB' hx hyB)

theorem pair_sublist_append {x y : Addr} {L1 L2 : List Addr} (h : [x, y].Sublist (L1 ++ L2)) :
    [x, y].Sublist L1 ∨ [x, y].Sublist L2 ∨ (x ∈ L1 ∧ y ∈ L2) := by
  obtain ⟨r1, r2, hr, h1, h2⟩ := List.sublist_append_iff.1 h
  rcases r1 with _ | ⟨a, _ | ⟨b, r1⟩⟩
  · simp only [List.nil_append] at hr
    subst hr
    exact Or.inr (Or.inl h2)
  · simp only [List.singleton_append, List.cons.injEq] at hr
    obtain ⟨rfl, rfl⟩ := hr
    exact Or.inr (Or.inr ⟨List.singleton_sublist.1 h1, List.singleton_sublist.1 h2⟩)
  · simp only [List.cons_append, List.cons.injEq] at hr
    obtain ⟨rfl, rfl, hnil⟩ := hr
    have hr1 : r1 = [] := by
      have := congrArg List.length hnil
      simp at this
      exact List.length_eq_zero.1 (by omega)
    subst hr1
    exact Or.inl h1

theorem msortL_swaps (lt : Addr → Addr → Bool) (le : Addr → Addr → Prop)
    (h1 : ∀ a b, lt a b = true → le a b) (h2 : ∀ a b, lt a b = false → le b a)
    (h3 : ∀ a b c, le a b → le b c → le a c)
    (h4 : ∀ a b c, lt a b = true → le b c → lt a c = true) (x y : Addr)
    (hxy : lt x y = false) :
    ∀ (n : Nat) (L : List Addr), L.length ≤ n → [x, y].Sublist L →
      [y, x].Sublist (msortL lt L) := by
  intro n
  induction n with
  | zero =>
    intro L h hsub
    have := hsub.length_le
    simp at this
    omega
  | succ n ih =>
    intro L h hsub
    have hlen := hsub.length_le
    simp only [List.length_cons, List.length_nil] at hlen
    rw [msortL_big lt (by omega)]
    have hsplit : [x, y].Sublist
        (L.take ((L.length + 1) / 2) ++ L.drop ((L.length + 1) / 2)) := by
      rw [List.take_append_drop]
      exact hsub
    rcases pair_sublist_append hsplit with hl | hr | ⟨hx, hy⟩
    · exact (ih _ (by rw [List.length_take]; omega) hl).trans
        (mergeL_sublist_left lt _ _ _ (le_refl _))
    · exact (ih _ (by rw [List.length_drop]; omega) hr).trans
        (mergeL_sublist_right lt _ _ _ (le_refl _))
    · exact mergeL_cross lt le h4 x y hxy _ _ _ (le_refl _)
        (msortL_sorted lt le h1 h2 h3 _ _ (le_refl _))
        ((msortL_perm' lt _).mem_iff.2 hx) ((msortL_perm' lt _).mem_iff.2 hy)

theorem lt_at_lt_of_le (m : Mem) (a b c : Addr) (h1 : lt_at m a b = true)
    (h2 : le_at m b c) : lt_at m a c = true := by
  unfold lt_at at h1 ⊢
  unfold le_at at h2
  exact decide_eq_true (strcmp_lt_of_lt_of_le (of_decide_eq_true h1) h2)

theorem msortL_reverses_ties (m : Mem) (L : List Addr) (x y : Addr) (hb : Before L x y)
    (hxy : lt_at m x y = false) : Before (msortL (lt_at m) L) y x :=
  msortL_swaps (lt_at m) (le_at m) (lt_at_le m) (lt_at_false_le m) (le_at_trans m)
    (lt_at_lt_of_le m) x y hxy _ L (le_refl _) hb

theorem not_before_both {L : List Addr} (hnd : L.Nodup) {x y : Addr} (h1 : Before L x y)
    (h2 : Before L y x) : False := by
  unfold Before at h1 h2
  induction L with
  | nil => simpa using h1.length_le
  | cons c L ih =>
    obtain ⟨hc, hnd'⟩ := List.nodup_cons.1 hnd
    cases h1 with
    | cons _ h1' =>
      cases h2 with
      | cons _ h2' => exact ih hnd' h1' h2'
      | cons₂ _ h2' => exact hc (h1'.subset (by simp))
    | cons₂ _ h1' =>
      cases h2 with
      | cons _ h2' => exact hc (h2'.subset (by simp))
      | cons₂ _ h2' => exact hc (h1'.subset (by simp))

/-- C16: for two chains made of disjoint element lists `A` and `B`, each
with strings in non-decreasing order (either may be empty), `merge` (given
fuel) returns a chain `R` with strings in non-decreasing order that is a
permutation of `A ++ B`, so of length `A.length + B.length`, in which the
elements of `A` keep their relative order and so do the elements of `B`; no
string is changed, elements outside the chains are untouched, and merging
with an empty chain returns the other chain and the memory as they were. -/
theorem merge_contract (m : Mem) (l1 l2 : Option Addr) (A B : List Addr) (fuel : Nat)
    (hA : Chain m l1 A) (hB : Chain m l2 B) (hdisj : ∀ x ∈ A, x ∉ B)
    (hsA : SortedAt m A) (hsB : SortedAt m B) (hfuel : A.length + B.length ≤ fuel) :
    ∃ m' p R, merge fuel m l1 l2 = some (m', p) ∧ Chain m' p R ∧ SortedAt m' R ∧
      R.Perm (A ++ B) ∧ R.length = A.length + B.length ∧ A.Sublist R ∧ B.Sublist R ∧
      SameValues m m' ∧ (∀ x, x ∉ A → x ∉ B → m' x = m x) ∧
      (B = [] → m' = m ∧ p = l1) ∧ (A = [] → m' = m ∧ p = l2) := by
  obtain ⟨m', p, h1, h2, h3, h4⟩ :=
    merge_spec (lt_at m) fuel m l1 l2 A B (fun _ _ => rfl) hA hB hdisj hfuel
  have hp := mergeL_perm (lt_at m) _ A B (le_refl _)
  have hs : SortedAt m (mergeL (lt_at m) A B) :=
    mergeL_sorted (lt_at m) (le_at m) (lt_at_le m) (lt_at_false_le m) (le_at_trans m) _ A B
      (le_refl _) hsA hsB
  refine ⟨m', p, _, h1, h2, sortedAt_congr h4 hs, hp, ?_,
    mergeL_sublist_left (lt_at m) _ A B (le_refl _),
    mergeL_sublist_right (lt_at m) _ A B (le_refl _), h4, h3, ?_, ?_⟩
  · rw [hp.length_eq, List.length_append]
  · intro hBnil
    subst hBnil
    have hl2 := chain_nil.1 hB
    subst hl2
    have : merge fuel m l1 none = some (m, l1) := rfl
    rw [this] at h1
    cases h1
    exact ⟨rfl, rfl⟩
  · intro hAnil
    subst hAnil
    have hl1 := chain_nil.1 hA
    subst hl1
    have : merge fuel m none l2 = some (m, l2) := by
      cases l2 <;> rfl
    rw [this] at h1
    cases h1
    exact ⟨rfl, rfl⟩

/-- Witness of C16: merging the chain 1 ("a"), 3 ("b") with the chain
2 ("a"), 4 ("b"). -/
theorem merge_contract_witness :
    (Chain mem_ties (some 1) [1, 3] ∧ Chain mem_ties (some 2) [2, 4] ∧
      (∀ x ∈ ([1, 3] : List Addr), x ∉ ([2, 4] : List Addr)) ∧
      SortedAt mem_ties [1, 3] ∧ SortedAt mem_ties [2, 4] ∧
      ([1, 3] : List Addr).length + ([2, 4] : List Addr).length ≤ 4) ∧
    (∃ m' p R, merge 4 mem_ties (some 1) (some 2) = some (m', p) ∧ Chain m' p R ∧
      SortedAt m' R ∧ R.Perm ([1, 3] ++ [2, 4]) ∧
      R.length = ([1, 3] : List Addr).length + ([2, 4] : List Addr).length ∧
      ([1, 3] : List Addr).Sublist R ∧ ([2, 4] : List Addr).Sublist R ∧
      SameValues mem_ties m' ∧
      (∀ x, x ∉ ([1, 3] : List Addr) → x ∉ ([2, 4] : List Addr) → m' x = mem_ties x) ∧
      (([2, 4] : List Addr) = [] → m' = mem_ties ∧ p = some 1) ∧
      (([1, 3] : List Addr) = [] → m' = mem_ties ∧ p = some 2)) ∧
    (merge 4 mem_ties (some 1) (some 2)).map (fun r => (r.2, walk 4 r.1 r.2)) =
      some (some 2, some [2, 1, 4, 3]) :=
  ⟨⟨by decide, by decide, by decide, by decide, by decide, by decide⟩,
    merge_contract mem_ties (some 1) (some 2) [1, 3] [2, 4] 4 (by decide) (by decide)
      (by decide) (by decide) (by decide) (by decide),
    by decide⟩

/-- C17, counterexample: merging the chain 1 ("a"), 3 ("b") with the chain
2 ("a"), 4 ("b"), whose fronts hold equal strings, returns element 2, the
front of the second chain, as head; and inside the loop, when the fronts are
3 and 4 holding equal strings, element 4 of the second chain is linked
first: the result is 2, 1, 4, 3. -/
theorem merge_tie_takes_second :
    Chain mem_ties (some 1) [1, 3] ∧ Chain mem_ties (some 2) [2, 4] ∧
    strcmp (value_at mem_ties 1) (value_at mem_ties 2) = 0 ∧
    strcmp (value_at mem_ties 3) (value_at mem_ties 4) = 0 ∧
    (merge 4 mem_ties (some 1) (some 2)).map (fun r => (r.2, walk 4 r.1 r.2)) =
      some (some 2, some [2, 1, 4, 3]) ∧
    (some 2 : Option Addr) ≠ some 1 :=
  ⟨by decide, by decide, by decide, by decide, by decide, by decide⟩

/-- C17, amended: in `merge`, whenever the front elements `a` and `b` of
the two chains hold strings that compare equal, the element taken next is
`b`, the front of the second chain, both for the head of the result and
inside the loop: `merge` returns `b` as head, followed by the merge of the
whole first chain with the rest of the second, and the loop links `b` after
`curr`, followed by the same merge. -/
theorem merge_tie_prefers_second (m : Mem) (a b c : Addr) (A B : List Addr) (fuel : Nat)
    (hA : Chain m (some a) (a :: A)) (hB : Chain m (some b) (b :: B))
    (hdisj : ∀ x ∈ a :: A, x ∉ b :: B) (hcA : c ∉ a :: A) (hcB : c ∉ b :: B)
    (hc : ∃ ec, m c = some ec) (heq : strcmp (value_at m a) (value_at m b) = 0)
    (hfuel : (a :: A).length + (b :: B).length ≤ fuel) :
    (∃ m', merge fuel m (some a) (some b) = some (m', some b) ∧
      Chain m' (some b) (b :: mergeL (lt_at m) (a :: A) B)) ∧
    (∃ m', merge_loop fuel m (some c) (some a) (some b) = some m' ∧
      Chain m' (some c) (c :: b :: mergeL (lt_at m) (a :: A) B)) := by
  have hlt : lt_at m a b = false := by
    unfold lt_at
    rw [heq]
    decide
  have hml : mergeL (lt_at m) (a :: A) (b :: B) = b :: mergeL (lt_at m) (a :: A) B := by
    rw [mergeL_cons_cons, hlt]
    simp
  constructor
  · obtain ⟨m', p, h1, h2, _⟩ :=
      merge_spec (lt_at m) fuel m (some a) (some b) (a :: A) (b :: B) (fun _ _ => rfl) hA hB
        hdisj hfuel
    rw [hml] at h2
    have hp := (chain_cons.1 h2).1
    subst hp
    exact ⟨m', h1, h2⟩
  · obtain ⟨m', h1, h2, _⟩ :=
      merge_loop_spec (lt_at m) fuel m c (some a) (some b) (a :: A) (b :: B) (fun _ _ => rfl)
        hA hB hdisj hcA hcB hc (Or.inl (by simp)) hfuel
    rw [hml] at h2
    exact ⟨m', h1, h2⟩

/-- Witness of the amended C17: the chains 1 and 2, 4 of `mem_ties`, with
element 3 as `curr`. -/
theorem merge_tie_prefers_second_witness :
    (Chain (mem_ties.set 1 (some ⟨[97, 0], none⟩)) (some 1) (1 :: []) ∧
      Chain (mem_ties.set 1 (some ⟨[97, 0], none⟩)) (some 2) (2 :: [4]) ∧
      (3 : Addr) ∉ (1 :: [] : List Addr) ∧ (3 : Addr) ∉ (2 :: [4] : List Addr) ∧
      strcmp (value_at (mem_ties.set 1 (some ⟨[97, 0], none⟩)) 1)
        (value_at (mem_ties.set 1 (some ⟨[97, 0], none⟩)) 2) = 0) ∧
    ((∃ m', merge 3 (mem_ties.set 1 (some ⟨[97, 0], none⟩)) (some 1) (some 2) =
        some (m', some 2) ∧
      Chain m' (some 2)
        (2 :: mergeL (lt_at (mem_ties.set 1 (some ⟨[97, 0], none⟩))) (1 :: []) [4])) ∧
    (∃ m', merge_loop 3 (mem_ties.set 1 (some ⟨[97, 0], none⟩)) (some 3) (some 1) (some 2) =
        some m' ∧
      Chain m' (some 3)
        (3 :: 2 :: mergeL (lt_at (mem_ties.set 1 (some ⟨[97, 0], none⟩))) (1 :: []) [4]))) :=
  ⟨⟨by decide, by decide, by decide, by decide, by decide⟩,
    merge_tie_prefers_second (mem_ties.set 1 (some ⟨[97, 0], none⟩)) 1 2 3 [] [4] 3
      (by decide) (by decide) (by decide) (by decide) (by decide) ⟨_, rfl⟩ (by decide)
      (by decide)⟩

/-! ## The division step -/

theorem sever_spec (m : Mem) (head : Option Addr) (L : List Addr) (fuel : Nat)
    (hL : Chain m head L) (hn : 2 ≤ L.length) (hfuel : L.length ≤ fuel) :
    ∃ m1 fast, sever fuel m head = some (m1, fast) ∧
      Chain m1 head (L.take ((L.length + 1) / 2)) ∧
      Chain m1 fast (L.drop ((L.length + 1) / 2)) ∧
      SameValues m m1 ∧ (∀ x, x ∉ L → m1 x = m x) := by
  rcases L with _ | ⟨a, _ | ⟨b, T⟩⟩
  · simp at hn
  · simp at hn
  · obtain ⟨hh, e, he, hrest⟩ := chain_cons.1 hL
    subst hh
    have hnd := chain_nodup hL
    obtain ⟨slow', hsplit, hslow⟩ :=
      split_loop_spec fuel m (some a) e.next (a :: b :: T) (b :: T) hL hrest
        (by simp only [List.length_cons]; omega)
        (by simp only [List.length_cons] at hfuel ⊢; omega)
    have hk : (a :: b :: T).length = (b :: T).length + 1 := rfl
    generalize hLdef : a :: b :: T = L at hL hnd hslow hk hfuel hn ⊢
    generalize hkdef : (b :: T).length / 2 = k at hslow
    have hklt : k < L.length := by omega
    have hk1 : (L.length + 1) / 2 = k + 1 := by omega
    have hPD : L.take k ++ L.drop k = L := List.take_append_drop k L
    cases hD : L.drop k with
    | nil =>
      have := congrArg List.length hD
      rw [List.length_drop] at this
      simp at this
      omega
    | cons s L2 =>
      rw [hD] at hslow hPD
      obtain ⟨hs, es, hes, hL2⟩ := chain_cons.1 hslow
      subst hs
      have hPlen : (L.take k).length = k := by rw [List.length_take]; omega
      have hL1 : L.take (k + 1) = L.take k ++ [s] := by
        conv_lhs => rw [← hPD]
        rw [show L.take k ++ s :: L2 = (L.take k ++ [s]) ++ L2 by simp]
        exact List.take_left' (by simp [hPlen])
      have hL2eq : L.drop (k + 1) = L2 := by
        conv_lhs => rw [← hPD]
        rw [show L.take k ++ s :: L2 = (L.take k ++ [s]) ++ L2 by simp]
        exact List.drop_left' (by simp [hPlen])
      have hsplitL : L.take (k + 1) ++ L2 = L := by
        rw [← hL2eq]; exact List.take_append_drop _ _
      have hnd' : (L.take (k + 1) ++ L2).Nodup := by rw [hsplitL]; exact hnd
      have hdisj12 : ∀ x ∈ L.take (k + 1), x ∉ L2 :=
        fun x hx hx2 => (List.nodup_append.1 hnd').2.2 hx hx2
      have hnd1 : (L.take k ++ [s]).Nodup := hL1 ▸ (List.nodup_append.1 hnd').1
      have hsP : ∀ x ∈ L.take k, x ≠ s := by
        intro x hx hxs
        exact (List.nodup_append.1 hnd1).2.2 hx (by simp [hxs])
      have hsL2 : s ∉ L2 := hdisj12 s (by rw [hL1]; simp)
      have hsL : s ∈ L := by rw [← hPD]; simp
      have hm1 : ∀ x, x ≠ s → (m.set s (some { es with next := none })) x = m x :=
        fun x hx => mem_set_other _ _ hx
      have hsegP : Seg m (some a) (L.take k) (some s) := by
        have h0 : Chain m (some a) (L.take k ++ s :: L2) := by rw [hPD]; exact hL
        obtain ⟨r, h1, h2⟩ := seg_append.1 h0
        rw [(seg_cons.1 h2).1] at h1
        exact h1
      refine ⟨m.set s (some { es with next := none }), es.next, ?_, ?_, ?_,
        sameValues_set_next hes none, fun x hx => hm1 x (fun h => hx (h ▸ hsL))⟩
      · simp only [sever, deref, Option.some_bind, he, hsplit, hes, store_next_some hes]
      · rw [hk1, hL1]
        exact chain_snoc.2 ⟨seg_congr (fun x hx => hm1 x (hsP x hx)) hsegP, _,
          mem_set_same _ _ _, rfl⟩
      · rw [hk1, hL2eq]
        exact chain_congr (fun x hx => hm1 x (fun h => hsL2 (h ▸ hx))) hL2

theorem mergeSort_sever (fuel : Nat) (m : Mem) (head : Option Addr) (e : list_ele_t)
    (he : deref m head = some e) (hnext : e.next.isNone = false) :
    mergeSort (fuel + 1) m head =
      (sever fuel m head).bind (fun r =>
        (mergeSort fuel r.1 head).bind (fun r1 =>
          (mergeSort fuel r1.1 r.2).bind (fun r2 => merge fuel r2.1 r1.2 r2.2))) := by
  simp only [mergeSort, sever, he, hnext, Bool.false_eq_true, if_false]
  cases h1 : split_loop fuel m head e.next with
  | none => rfl
  | some slow =>
    simp only
    cases h2 : deref m slow with
    | none => rfl
    | some es =>
      simp only
      cases h3 : store_next m slow none with
      | none => rfl
      | some m1 =>
        simp only [Option.some_bind]
        cases h4 : mergeSort fuel m1 head with
        | none => rfl
        | some r1 =>
          obtain ⟨m2, l1⟩ := r1
          simp only [Option.some_bind]
          cases h5 : mergeSort fuel m2 es.next with
          | none => rfl
          | some r2 =>
            obtain ⟨m3, l2⟩ := r2
            rfl

theorem sever_halves (m : Mem) (head : Option Addr) (L : List Addr) (fuel : Nat)
    (hL : Chain m head L) (hn : 2 ≤ L.length) (hfuel : L.length ≤ fuel) :
    ∃ m1 fast L1 L2, sever fuel m head = some (m1, fast) ∧
      Chain m1 head L1 ∧ Chain m1 fast L2 ∧ L1 ++ L2 = L ∧
      L1.length = (L.length + 1) / 2 ∧ L2.length = L.length / 2 ∧
      (∀ x ∈ L1, x ∉ L2) ∧ 0 < L1.length ∧ 0 < L2.length ∧
      L1.length < L.length ∧ L2.length < L.length ∧
      SameValues m m1 ∧ (∀ x, x ∉ L → m1 x = m x) := by
  obtain ⟨m1, fast, h1, h2, h3, h4, h5⟩ := sever_spec m head L fuel hL hn hfuel
  have hnd : (L.take ((L.length + 1) / 2) ++ L.drop ((L.length + 1) / 2)).Nodup := by
    rw [List.take_append_drop]
    exact chain_nodup hL
  have hl1 : (L.take ((L.length + 1) / 2)).length = (L.length + 1) / 2 := by
    rw [List.length_take]; omega
  have hl2 : (L.drop ((L.length + 1) / 2)).length = L.length / 2 := by
    rw [List.length_drop]; omega
  refine ⟨m1, fast, _, _, h1, h2, h3, List.take_append_drop _ _, hl1, hl2,
    fun x hx hx2 => (List.nodup_append.1 hnd).2.2 hx hx2, ?_, ?_, ?_, ?_, h4, h5⟩
  · rw [hl1]; omega
  · rw [hl2]; omega
  · rw [hl1]; omega
  · rw [hl2]; omega

/-- C18: on a chain of `n ≥ 2` elements `L`, the slow/fast walk of
`mergeSort` and the cut after `slow` (given fuel) return and leave two
chains, each ending in NULL: the first, from `head`, made of the first
`(n + 1) / 2` elements of `L`, the second, from `fast`, made of the remaining
`n / 2` elements; their concatenation is `L`, they share no element, both are
non-empty and shorter than `L`, and no string is changed. -/
theorem mergeSort_split_halves (m : Mem) (head : Option Addr) (L : List Addr) (fuel : Nat)
    (hL : Chain m head L) (hn : 2 ≤ L.length) (hfuel : L.length ≤ fuel) :
    ∃ m1 fast L1 L2, sever fuel m head = some (m1, fast) ∧
      Chain m1 head L1 ∧ Chain m1 fast L2 ∧ L1 ++ L2 = L ∧
      L1.length = (L.length + 1) / 2 ∧ L2.length = L.length / 2 ∧
      (∀ x ∈ L1, x ∉ L2) ∧ 0 < L1.length ∧ 0 < L2.length ∧
      L1.length < L.length ∧ L2.length < L.length ∧
      SameValues m m1 ∧ (∀ x, x ∉ L → m1 x = m x) :=
  sever_halves m head L fuel hL hn hfuel

/-- Witness of C18: the chain of [a, b, c] is cut into [a, b] and [c]. -/
theorem mergeSort_split_halves_witness :
    (Chain mem_abc (some 1) [1, 2, 3] ∧ 2 ≤ ([1, 2, 3] : List Addr).length ∧
      ([1, 2, 3] : List Addr).length ≤ 3) ∧
    (∃ m1 fast L1 L2, sever 3 mem_abc (some 1) = some (m1, fast) ∧
      Chain m1 (some 1) L1 ∧ Chain m1 fast L2 ∧ L1 ++ L2 = [1, 2, 3] ∧
      L1.length = (([1, 2, 3] : List Addr).length + 1) / 2 ∧
      L2.length = ([1, 2, 3] : List Addr).length / 2 ∧
      (∀ x ∈ L1, x ∉ L2) ∧ 0 < L1.length ∧ 0 < L2.length ∧
      L1.length < ([1, 2, 3] : List Addr).length ∧
      L2.length < ([1, 2, 3] : List Addr).length ∧
      SameValues mem_abc m1 ∧ (∀ x, x ∉ ([1, 2, 3] : List Addr) → m1 x = mem_abc x)) ∧
    (sever 3 mem_abc (some 1)).map (fun r => (walk 3 r.1 (some 1), r.2, walk 3 r.1 r.2)) =
      some (some [1, 2], some 3, some [3]) :=
  ⟨⟨by decide, by decide, by decide⟩,
    mergeSort_split_halves mem_abc (some 1) [1, 2, 3] 3 (by decide) (by decide) (by decide),
    by decide⟩

/-! ## Termination -/

theorem sameValues_symm {m m' : Mem} (h : SameValues m m') : SameValues m' m :=
  fun x => (h x).symm

theorem queue_t_eq_of_queueOf {m : Mem} {q1 q2 : queue_t} {L : List Addr}
    (h1 : QueueExact m q1 L) (h2 : QueueExact m q2 L) : q1 = q2 := by
  obtain ⟨a1, a2, a3⟩ := q1
  obtain ⟨b1, b2, b3⟩ := q2
  have e1 := chain_head h1.1
  have e2 := h1.2.1
  have e3 := h1.2.2
  have f1 := chain_head h2.1
  have f2 := h2.2.1
  have f3 := h2.2.2
  simp only at e1 e2 e3 f1 f2 f3
  rw [e1, e2, e3, f1, f2, f3]

theorem q_sort_fuel_irrelevant {m : Mem} {q : queue_t} {L : List Addr} (hq : QueueExact m q L)
    (f1 f2 : Nat) (h1 : L.length + 1 ≤ f1) (h2 : L.length + 1 ≤ f2) :
    q_sort f1 ⟨m, some q⟩ = q_sort f2 ⟨m, some q⟩ := by
  obtain ⟨m1, q1, e1, r1, v1, fr1, _⟩ := q_sort_spec hq f1 h1
  obtain ⟨m2, q2, e2, r2, v2, fr2, _⟩ := q_sort_spec hq f2 h2
  have hp := msortL_perm' (lt_at m) L
  have hm : m2 = m1 := by
    funext x
    by_cases hx : x ∈ L
    · have hc1 := r1.1
      have hc2 := r2.1
      rw [chain_head r1.1] at hc1
      rw [chain_head r2.1] at hc2
      exact chain_links_determined (sameValues_trans (sameValues_symm v1) v2) hc1 hc2 x
        (hp.mem_iff.2 hx)
    · rw [fr1 x hx, fr2 x hx]
  subst hm
  rw [e1, e2, queue_t_eq_of_queueOf r1 r2]

theorem merge_loop_step (fuel : Nat) (m : Mem) (c a b : Addr) (A B : List Addr)
    (hA : Chain m (some a) (a :: A)) (hB : Chain m (some b) (b :: B))
    (hcA : c ∉ a :: A) (hcB : c ∉ b :: B) (hc : ∃ ec, m c = some ec) :
    ∃ m1 c' l1' l2' A' B',
      merge_loop (fuel + 1) m (some c) (some a) (some b) =
        merge_loop fuel m1 (some c') l1' l2' ∧
      Chain m1 l1' A' ∧ Chain m1 l2' B' ∧
      A'.length + B'.length + 1 = (a :: A).length + (b :: B).length := by
  obtain ⟨ec, hec⟩ := hc
  obtain ⟨_, e1, he1, hA'⟩ := chain_cons.1 hA
  obtain ⟨_, e2, he2, hB'⟩ := chain_cons.1 hB
  have hca : c ≠ a := fun h => hcA (h ▸ List.mem_cons_self _ _)
  have hcb : c ≠ b := fun h => hcB (h ▸ List.mem_cons_self _ _)
  have hset : ∀ (nx : Option Addr) (x : Addr), x ≠ c →
      (m.set c (some { ec with next := nx })) x = m x :=
    fun nx x hx => mem_set_other _ _ hx
  by_cases hcmp : strcmp e1.value e2.value < 0
  · refine ⟨m.set c (some { ec with next := some a }), a, e1.next, some b, A, b :: B, ?_,
      chain_congr (fun x hx => hset _ x (fun h => hcA (h ▸ List.mem_cons_of_mem _ hx))) hA',
      chain_congr (fun x hx => hset _ x (fun h => hcB (h ▸ hx))) hB, by
        simp only [List.length_cons]; omega⟩
    simp only [merge_loop, he1, he2, hcmp, if_true, store_next_some hec, deref,
      Option.some_bind, mem_set_same, hset _ a hca.symm]
  · refine ⟨m.set c (some { ec with next := some b }), b, some a, e2.next, a :: A, B, ?_,
      chain_congr (fun x hx => hset _ x (fun h => hcA (h ▸ hx))) hA,
      chain_congr (fun x hx => hset _ x (fun h => hcB (h ▸ List.mem_cons_of_mem _ hx))) hB',
      by simp only [List.length_cons]; omega⟩
    simp only [merge_loop, he1, he2, hcmp, if_false, store_next_some hec, deref,
      Option.some_bind, mem_set_same, hset _ b hcb.symm]

/-- C19: on a chain made of the elements `L` (so finite and acyclic),
`mergeSort` returns once its fuel exceeds the length of the chain; a chain of
length 0 or 1 is returned as it is; on a longer chain the two recursive calls
are made on chains strictly shorter than `L`; `merge` with a second disjoint
chain `B` returns with fuel `L.length + B.length`, each iteration of its loop
leaving one element less in the two chains; and `q_sort` returns one and the
same state for every fuel above the length of the queue. -/
theorem sort_terminates (m : Mem) (head : Option Addr) (L : List Addr)
    (hL : Chain m head L) :
    (∀ fuel, L.length + 1 ≤ fuel → ∃ m' p, mergeSort fuel m head = some (m', p)) ∧
    (L.length ≤ 1 → ∀ fuel, mergeSort (fuel + 1) m head = some (m, head)) ∧
    (2 ≤ L.length → ∀ fuel, L.length ≤ fuel →
      ∃ m1 fast L1 L2, sever fuel m head = some (m1, fast) ∧
        Chain m1 head L1 ∧ Chain m1 fast L2 ∧
        L1.length < L.length ∧ L2.length < L.length ∧
        mergeSort (fuel + 1) m head =
          (mergeSort fuel m1 head).bind (fun r1 =>
            (mergeSort fuel r1.1 fast).bind (fun r2 => merge fuel r2.1 r1.2 r2.2))) ∧
    (∀ l2 B fuel, Chain m l2 B → (∀ x ∈ L, x ∉ B) → L.length + B.length ≤ fuel →
      ∃ m' p, merge fuel m head l2 = some (m', p)) ∧
    (∀ fuel c a b A B, L = a :: A → Chain m (some b) (b :: B) → c ∉ a :: A → c ∉ b :: B →
      (∃ ec, m c = some ec) →
      ∃ m1 c' l1' l2' A' B',
        merge_loop (fuel + 1) m (some c) head (some b) =
          merge_loop fuel m1 (some c') l1' l2' ∧
        Chain m1 l1' A' ∧ Chain m1 l2' B' ∧
        A'.length + B'.length + 1 = (a :: A).length + (b :: B).length) ∧
    (∀ q, QueueOf m q L →
      ∃ st', ∀ fuel, L.length + 1 ≤ fuel → q_sort fuel ⟨m, some q⟩ = some st') := by
  refine ⟨?_, ?_, ?_, ?_, ?_, ?_⟩
  · intro fuel hf
    obtain ⟨m', p, h, _⟩ := mergeSort_spec (lt_at m) fuel m head L (fun _ _ => rfl) hL hf
    exact ⟨m', p, h⟩
  · intro hle fuel
    rcases L with _ | ⟨a, _ | ⟨b, T⟩⟩
    · have := chain_nil.1 hL
      subst this
      rfl
    · obtain ⟨hh, e, he, hrest⟩ := chain_cons.1 hL
      subst hh
      have hn := chain_nil.1 hrest
      simp [mergeSort, deref, he, hn]
    · simp only [List.length_cons] at hle
      omega
  · intro hn fuel hf
    obtain ⟨m1, fast, L1, L2, h1, h2, h3, _, _, _, _, _, _, h4, h5, _⟩ :=
      sever_halves m head L fuel hL hn hf
    refine ⟨m1, fast, L1, L2, h1, h2, h3, h4, h5, ?_⟩
    rcases L with _ | ⟨a, _ | ⟨b, T⟩⟩
    · simp at hn
    · simp at hn
    · obtain ⟨hh, e, he, hrest⟩ := chain_cons.1 hL
      subst hh
      have hnext := (chain_cons.1 hrest).1
      rw [mergeSort_sever fuel m (some a) e (by simp [deref, he]) (by simp [hnext]), h1]
      rfl
  · intro l2 B fuel hB hdisj hf
    obtain ⟨m', p, h, _⟩ :=
      merge_spec (lt_at m) fuel m head l2 L B (fun _ _ => rfl) hL hB hdisj hf
    exact ⟨m', p, h⟩
  · intro fuel c a b A B hLa hB hcA hcB hc
    subst hLa
    have hh := (chain_cons.1 hL).1
    subst hh
    exact merge_loop_step fuel m c a b A B hL hB hcA hcB hc
  · intro q hq
    obtain ⟨m', q', h, _⟩ := q_sort_spec hq.1 (L.length + 1) (le_refl _)
    refine ⟨⟨m', some q'⟩, fun fuel hf => ?_⟩
    rw [← h]
    exact q_sort_fuel_irrelevant hq.1 fuel (L.length + 1) hf (le_refl _)

/-- Witness of C19: `mergeSort` returns on the chain of [c, b, a]. -/
theorem sort_terminates_witness :
    Chain mem_cba (some 1) [1, 2, 3] ∧
      ∃ m' p, mergeSort 4 mem_cba (some 1) = some (m', p) :=
  ⟨by decide, (sort_terminates mem_cba (some 1) [1, 2, 3] (by decide)).1 4 (by decide)⟩

/-! ## Filling and draining the queue -/

theorem q_insert_tail_contents {m : Mem} {q : queue_t} {L : List Addr} (s : List Nat)
    {a : Addr} (hq : QueueWrapped m q L) (ha : m a = none) :
    ∃ m' q', q_insert_tail ⟨m, some q⟩ s (some a) true = some (true, ⟨m', some q'⟩) ∧
      QueueWrapped m' q' (L ++ [a]) ∧ contents m' (L ++ [a]) = contents m L ++ [cstring s] ∧
      ∀ x, x ≠ a → m x = none → m' x = none := by
  obtain ⟨m', q', h1, h2, _, h4, h5, _⟩ := q_insert_tail_spec s hq ha
  refine ⟨m', q', h1, h2, ?_, ?_⟩
  · have hL : contents m' L = contents m L := by
      apply contents_congr
      intro x hx
      have hxa : x ≠ a := by
        intro h
        obtain ⟨e, he⟩ := chain_live hq.1 hx
        rw [h, ha] at he
        cases he
      exact h5 x hxa
    simp only [contents, List.map_append, List.map_cons, List.map_nil] at hL ⊢
    rw [hL, value_at_of_some h4]
    simp only [cstring_strncpy]
  · intro x hx hmx
    have := h5 x hx
    rw [hmx] at this
    simpa using this

theorem q_insert_head_contents {m : Mem} {q : queue_t} {L : List Addr} (s : List Nat)
    {a : Addr} (hq : QueueWrapped m q L) (ha : m a = none) :
    ∃ m' q', q_insert_head ⟨m, some q⟩ s (some a) true = some (true, ⟨m', some q'⟩) ∧
      QueueWrapped m' q' (a :: L) ∧ contents m' (a :: L) = cstring s :: contents m L ∧
      ∀ x, x ≠ a → m x = none → m' x = none := by
  obtain ⟨m', q', h1, h2, _, h4, h5⟩ := q_insert_head_spec s hq ha
  refine ⟨m', q', h1, h2, ?_, ?_⟩
  · have hL : contents m' L = contents m L := by
      apply contents_congr
      intro x hx
      have hxa : x ≠ a := by
        intro h
        obtain ⟨e, he⟩ := chain_live hq.1 hx
        rw [h, ha] at he
        cases he
      rw [h5 x hxa]
    simp only [contents, List.map_cons] at hL ⊢
    rw [hL, value_at_of_some h4]
    simp only [cstring_strncpy]
  · intro x hx hmx
    rw [h5 x hx, hmx]

theorem fill_tail_spec :
    ∀ (items : List (List Nat × Addr)) (m : Mem) (q : queue_t) (L : List Addr),
      QueueWrapped m q L → (items.map Prod.snd).Nodup → (∀ a ∈ items.map Prod.snd, m a = none) →
      ∃ m' q', fill_tail ⟨m, some q⟩ items = some ⟨m', some q'⟩ ∧
        QueueWrapped m' q' (L ++ items.map Prod.snd) ∧
        contents m' (L ++ items.map Prod.snd) =
          contents m L ++ items.map (fun i => cstring i.1) := by
  intro items
  induction items with
  | nil =>
    intro m q L hq _ _
    exact ⟨m, q, rfl, by simpa using hq, by simp⟩
  | cons it items ih =>
    intro m q L hq hnd hfresh
    obtain ⟨s, a⟩ := it
    simp only [List.map_cons, List.nodup_cons] at hnd
    have ha : m a = none := hfresh a (by simp)
    obtain ⟨m1, q1, h1, h2, h3, h4⟩ := q_insert_tail_contents s hq ha
    have hfresh1 : ∀ x ∈ items.map Prod.snd, m1 x = none := by
      intro x hx
      have hxa : x ≠ a := fun h => hnd.1 (h ▸ hx)
      exact h4 x hxa (hfresh x (by simp only [List.map_cons]; exact List.mem_cons_of_mem _ hx))
    obtain ⟨m', q', g1, g2, g3⟩ := ih m1 q1 (L ++ [a]) h2 hnd.2 hfresh1
    refine ⟨m', q', ?_, by simpa using g2, ?_⟩
    · simp only [fill_tail, h1]
      exact g1
    · have e1 : L ++ (s, a).2 :: items.map Prod.snd = (L ++ [a]) ++ items.map Prod.snd := by
        simp
      simp only [List.map_cons]
      rw [e1, g3, h3]
      simp

theorem fill_head_spec :
    ∀ (items : List (List Nat × Addr)) (m : Mem) (q : queue_t) (L : List Addr),
      QueueWrapped m q L → (items.map Prod.snd).Nodup → (∀ a ∈ items.map Prod.snd, m a = none) →
      ∃ m' q', fill_head ⟨m, some q⟩ items = some ⟨m', some q'⟩ ∧
        QueueWrapped m' q' ((items.map Prod.snd).reverse ++ L) ∧
        contents m' ((items.map Prod.snd).reverse ++ L) =
          (items.map (fun i => cstring i.1)).reverse ++ contents m L := by
  intro items
  induction items with
  | nil =>
    intro m q L hq _ _
    exact ⟨m, q, rfl, by simpa using hq, by simp⟩
  | cons it items ih =>
    intro m q L hq hnd hfresh
    obtain ⟨s, a⟩ := it
    simp only [List.map_cons, List.nodup_cons] at hnd
    have ha : m a = none := hfresh a (by simp)
    obtain ⟨m1, q1, h1, h2, h3, h4⟩ := q_insert_head_contents s hq ha
    have hfresh1 : ∀ x ∈ items.map Prod.snd, m1 x = none := by
      intro x hx
      have hxa : x ≠ a := fun h => hnd.1 (h ▸ hx)
      exact h4 x hxa (hfresh x (by simp only [List.map_cons]; exact List.mem_cons_of_mem _ hx))
    obtain ⟨m', q', g1, g2, g3⟩ := ih m1 q1 (a :: L) h2 hnd.2 hfresh1
    refine ⟨m', q', ?_, by simpa using g2, ?_⟩
    · simp only [fill_head, h1]
      exact g1
    · have e1 : ((s, a) :: items).map Prod.snd = a :: items.map Prod.snd := rfl
      have e2 : (a :: items.map Prod.snd).reverse ++ L =
          (items.map Prod.snd).reverse ++ a :: L := by simp
      rw [e1, e2, g3, h3]
      simp

theorem drain_spec (buf : List Nat) (k : Nat) (hk : 0 < k) (hcap : buf.length = k)
    (hsz : k < SIZE_MOD) :
    ∀ (L : List Addr) (m : Mem) (q : queue_t), QueueWrapped m q L →
      (∀ c ∈ contents m L, c.length < k) →
      ∃ m' q', drain buf k L.length ⟨m, some q⟩ = some (contents m L, ⟨m', some q'⟩) ∧
        QueueWrapped m' q' [] := by
  intro L
  induction L with
  | nil =>
    intro m q hq _
    exact ⟨m, q, rfl, hq⟩
  | cons a L ih =>
    intro m q hq hlen
    obtain ⟨e, q1, he, h1, h2, _⟩ :=
      q_remove_head_spec (some buf) k hq (fun b hb => by
        cases hb
        exact ⟨hk, by omega, hsz⟩)
    have haL : a ∉ L := (List.nodup_cons.1 (chain_nodup hq.1)).1
    have hcont : contents (m.free a) L = contents m L := by
      apply contents_congr
      intro x hx
      have hxa : x ≠ a := fun h => haL (h ▸ hx)
      simp only [Mem.free, mem_set_other _ _ hxa]
    have hlen_a : strlen e.value < k := by
      have := hlen (cstring (value_at m a)) (by simp [contents])
      rw [value_at_of_some he] at this
      exact this
    have hout : cstring ((strncpy e.value k ++ buf.drop k).set (k - 1) 0) =
        cstring (value_at m a) := by
      rw [List.drop_eq_nil_of_le (by omega), List.append_nil, truncated_copy e.value k hk,
        value_at_of_some he]
      have hmin : min (strlen e.value) (k - 1) = strlen e.value := by omega
      rw [hmin]
      have htake : (cstring e.value).take (strlen e.value) = cstring e.value :=
        List.take_of_length_le (le_refl _)
      have := cstring_take_append_zeros (cstring e.value) (strlen e.value)
        (k - strlen e.value) (cstring_nonzero _) (by omega)
      rw [htake] at this ⊢
      exact this
    obtain ⟨m', q', g1, g2⟩ := ih (m.free a) q1 h2 (by
      intro c hc
      rw [hcont] at hc
      exact hlen c (by simp only [contents, List.map_cons] at hc ⊢; exact List.mem_cons_of_mem _ hc))
    refine ⟨m', q', ?_, g2⟩
    simp only [List.length_cons, drain, h1, Option.map_some', g1, hout, hcont]
    simp [contents]

/-- C20: for every list of strings, each inserted into a fresh block and
each shorter than the buffer capacity `k`, inserting them in order with
`q_insert_tail` into a new queue and calling `q_remove_head` as many times
with the buffer returns true every time and leaves in the buffer the strings
in insertion order; inserting them with `q_insert_head` yields them in
reverse order; in both cases the queue is left with head and tail absent and
size 0. -/
theorem fifo_lifo (m0 : Mem) (items : List (List Nat × Addr)) (buf : List Nat) (k : Nat)
    (hnd : (items.map Prod.snd).Nodup) (hfresh : ∀ a ∈ items.map Prod.snd, m0 a = none)
    (hk : 0 < k) (hcap : buf.length = k) (hsz : k < SIZE_MOD)
    (hlen : ∀ i ∈ items, strlen i.1 < k) :
    (∃ st1 st2, fill_tail ⟨m0, q_new true⟩ items = some st1 ∧
      drain buf k items.length st1 = some (items.map (fun i => cstring i.1), st2) ∧
      st2.q = some ⟨none, none, 0⟩) ∧
    (∃ st1 st2, fill_head ⟨m0, q_new true⟩ items = some st1 ∧
      drain buf k items.length st1 = some ((items.map (fun i => cstring i.1)).reverse, st2) ∧
      st2.q = some ⟨none, none, 0⟩) := by
  have hq0 : QueueWrapped m0 ⟨none, none, 0⟩ [] := ⟨chain_nil.2 rfl, rfl, rfl⟩
  have hempty : ∀ {m : Mem} {q : queue_t}, QueueWrapped m q [] → q = ⟨none, none, 0⟩ :=
    fun h => queue_t_eq_of_queueOf (wrapped_queueOf h (by decide)).1 ⟨chain_nil.2 rfl, rfl, rfl⟩
  have hstr : ∀ c ∈ items.map (fun i => cstring i.1), c.length < k := by
    intro c hc
    obtain ⟨i, hi, rfl⟩ := List.mem_map.1 hc
    exact hlen i hi
  constructor
  · obtain ⟨m1, q1, h1, h2, h3⟩ := fill_tail_spec items m0 _ [] hq0 hnd hfresh
    simp only [List.nil_append, contents, List.map_nil] at h2 h3
    obtain ⟨m2, q2, g1, g2⟩ := drain_spec buf k hk hcap hsz _ m1 q1 h2 (by
      intro c hc
      simp only [contents] at hc
      rw [h3] at hc
      exact hstr c hc)
    refine ⟨⟨m1, some q1⟩, ⟨m2, some q2⟩, h1, ?_, by rw [hempty g2]⟩
    simp only [List.length_map, contents] at g1
    rw [g1, h3]
  · obtain ⟨m1, q1, h1, h2, h3⟩ := fill_head_spec items m0 _ [] hq0 hnd hfresh
    simp only [List.append_nil, contents, List.map_nil] at h2 h3
    obtain ⟨m2, q2, g1, g2⟩ := drain_spec buf k hk hcap hsz _ m1 q1 h2 (by
      intro c hc
      simp only [contents] at hc
      rw [h3] at hc
      exact hstr c (List.mem_reverse.1 hc))
    refine ⟨⟨m1, some q1⟩, ⟨m2, some q2⟩, h1, ?_, by rw [hempty g2]⟩
    simp only [List.length_reverse, List.length_map, contents] at g1
    rw [g1, h3]

/-- Witness of C20: the strings "a", "b", "c" inserted into the blocks 1, 2,
3 of an empty memory and removed with a 4-byte buffer. -/
theorem fifo_lifo_witness :
    ((([([97], 1), ([98], 2), ([99], 3)] : List (List Nat × Addr)).map Prod.snd).Nodup ∧
      (∀ a ∈ ([([97], 1), ([98], 2), ([99], 3)] : List (List Nat × Addr)).map Prod.snd,
        mem_empty a = none) ∧
      0 < 4 ∧ ([7, 7, 7, 7] : List Nat).length = 4 ∧ 4 < SIZE_MOD ∧
      (∀ i ∈ ([([97], 1), ([98], 2), ([99], 3)] : List (List Nat × Addr)), strlen i.1 < 4)) ∧
    ((∃ st1 st2, fill_tail ⟨mem_empty, q_new true⟩ [([97], 1), ([98], 2), ([99], 3)] =
        some st1 ∧
      drain [7, 7, 7, 7] 4 ([([97], 1), ([98], 2), ([99], 3)] : List (List Nat × Addr)).length
        st1 = some (([([97], 1), ([98], 2), ([99], 3)] : List (List Nat × Addr)).map
          (fun i => cstring i.1), st2) ∧
      st2.q = some ⟨none, none, 0⟩) ∧
    (∃ st1 st2, fill_head ⟨mem_empty, q_new true⟩ [([97], 1), ([98], 2), ([99], 3)] =
        some st1 ∧
      drain [7, 7, 7, 7] 4 ([([97], 1), ([98], 2), ([99], 3)] : List (List Nat × Addr)).length
        st1 = some ((([([97], 1), ([98], 2), ([99], 3)] : List (List Nat × Addr)).map
          (fun i => cstring i.1)).reverse, st2) ∧
      st2.q = some ⟨none, none, 0⟩)) ∧
    ((fill_tail ⟨mem_empty, q_new true⟩ [([97], 1), ([98], 2), ([99], 3)]).bind
        (drain [7, 7, 7, 7] 4 3)).map (fun r => (r.1, r.2.q)) =
      some ([[97], [98], [99]], some ⟨none, none, 0⟩) ∧
    ((fill_head ⟨mem_empty, q_new true⟩ [([97], 1), ([98], 2), ([99], 3)]).bind
        (drain [7, 7, 7, 7] 4 3)).map (fun r => (r.1, r.2.q)) =
      some ([[99], [98], [97]], some ⟨none, none, 0⟩) :=
  ⟨⟨by decide, by decide, by decide, by decide, by decide, by decide⟩,
    fifo_lifo mem_empty [([97], 1), ([98], 2), ([99], 3)] [7, 7, 7, 7] 4 (by decide)
      (by decide) (by decide) (by decide) (by decide) (by decide),
    by decide, by decide⟩

/-! ## Sorting a sorted queue -/

theorem sorted_perm_contents {m : Mem} {L L' : List Addr} (hs : SortedAt m L)
    (hs' : SortedAt m L') (hp : L'.Perm L) : contents m L' = contents m L := by
  have key : ∀ {K : List Addr}, SortedAt m K →
      (contents m K).Pairwise (fun u v => strcmp u v < 0 ∨ u = v) := by
    intro K hK
    unfold contents
    rw [List.pairwise_map]
    refine List.Pairwise.imp ?_ hK
    intro a b hab
    unfold le_at at hab
    by_cases h0 : strcmp (value_at m a) (value_at m b) = 0
    · exact Or.inr (strcmp_eq_zero h0)
    · left
      rw [strcmp_cstring]
      omega
  haveI : IsAntisymm (List Nat) (fun u v => strcmp u v < 0 ∨ u = v) :=
    ⟨fun u v huv hvu => by
      rcases huv with h1 | h1
      · rcases hvu with h2 | h2
        · rw [strcmp_neg u v] at h2
          omega
        · exact h2.symm
      · exact h1⟩
  exact List.eq_of_perm_of_sorted (hp.map _) (key hs') (key hs)

theorem mergeL_append_of_lt (lt : Addr → Addr → Bool) (B : List Addr) :
    ∀ (A : List Addr), (∀ a ∈ A, ∀ b ∈ B, lt a b = true) → mergeL lt A B = A ++ B := by
  intro A
  induction A with
  | nil => intro _; rw [mergeL_nil_left]; rfl
  | cons a A ih =>
    intro h
    cases B with
    | nil => rw [mergeL_nil_right, List.append_nil]
    | cons b B =>
      rw [mergeL_cons_cons, h a (List.mem_cons_self _ _) b (List.mem_cons_self _ _)]
      simp only [if_true, List.cons_append]
      rw [ih (fun x hx y hy => h x (List.mem_cons_of_mem _ hx) y hy)]

theorem msortL_of_strict (lt : Addr → Addr → Bool) :
    ∀ (n : Nat) (L : List Addr), L.length ≤ n → L.Pairwise (fun x y => lt x y = true) →
      msortL lt L = L := by
  intro n
  induction n with
  | zero =>
    intro L h _
    exact msortL_small lt (by omega)
  | succ n ih =>
    intro L h hs
    by_cases hsmall : L.length < 2
    · exact msortL_small lt hsmall
    · rw [msortL_big lt hsmall]
      have hsplit : L.take ((L.length + 1) / 2) ++ L.drop ((L.length + 1) / 2) = L :=
        List.take_append_drop _ _
      have hs' := hs
      rw [← hsplit, List.pairwise_append] at hs'
      obtain ⟨h1, h2, h3⟩ := hs'
      rw [ih _ (by rw [List.length_take]; omega) h1, ih _ (by rw [List.length_drop]; omega) h2,
        mergeL_append_of_lt lt _ _ h3, hsplit]

theorem strict_of_sorted_noTies {m : Mem} {L : List Addr} (hs : SortedAt m L)
    (hn : NoTies m L) : L.Pairwise (fun x y => lt_at m x y = true) := by
  unfold SortedAt at hs
  unfold NoTies at hn
  refine List.Pairwise.imp ?_ (hs.and hn)
  rintro a b ⟨hle, hne⟩
  unfold le_at at hle
  unfold lt_at
  exact decide_eq_true (by omega)

theorem noTies_perm {m : Mem} {L L' : List Addr} (hp : L'.Perm L) (hn : NoTies m L) :
    NoTies m L' := by
  unfold NoTies at hn ⊢
  refine (hp.pairwise_iff ?_).2 hn
  intro x y hxy hyx
  apply hxy
  rw [strcmp_neg (value_at m y) (value_at m x), hyx]
  rfl

theorem noTies_congr {m m' : Mem} (h : SameValues m m') {L : List Addr} (hn : NoTies m L) :
    NoTies m' L := by
  unfold NoTies at hn ⊢
  refine List.Pairwise.imp ?_ hn
  intro a b hab
  rw [sameValues_value_at h a, sameValues_value_at h b]
  exact hab

theorem q_sort_strict_id {m : Mem} {q : queue_t} {L : List Addr} (hq : QueueExact m q L)
    (hs : L.Pairwise (fun x y => lt_at m x y = true)) (fuel : Nat)
    (hf : L.length + 1 ≤ fuel) :
    q_sort fuel ⟨m, some q⟩ = some ⟨m, some q⟩ ∧ msortL (lt_at m) L = L := by
  have hL := msortL_of_strict (lt_at m) _ L (le_refl _) hs
  obtain ⟨m', q', h1, h2, h3, h4, _⟩ := q_sort_spec hq fuel hf
  rw [hL] at h2
  have hhead : q'.head = q.head := by rw [chain_head h2.1, chain_head hq.1]
  have hm : m' = m := by
    funext x
    by_cases hx : x ∈ L
    · exact chain_links_determined h3 hq.1 (hhead ▸ h2.1) x hx
    · exact h4 x hx
  subst hm
  rw [h1, queue_t_eq_of_queueOf h2 hq]
  exact ⟨rfl, hL⟩

/-- C15, counterexample: the queue [a, a], made of the elements 1 and 2, is
in non-decreasing order, and `q_sort` leaves it made of 2 then 1, with head 2
and tail 1; a second `q_sort` leaves 1 then 2, so sorting twice is not
sorting once. -/
theorem q_sort_changes_sorted_queue :
    QueueOf mem_aa q_aa [1, 2] ∧ SortedAt mem_aa [1, 2] ∧
    (q_sort 3 ⟨mem_aa, some q_aa⟩).map (fun st => (q_nodes 3 st, st.q)) =
      some (some [2, 1], some ⟨some 2, some 1, 2⟩) ∧
    q_aa ≠ ⟨some 2, some 1, 2⟩ ∧
    ((q_sort 3 ⟨mem_aa, some q_aa⟩).bind (q_sort 3)).map (q_nodes 3) = some (some [1, 2]) ∧
    ((q_sort 3 ⟨mem_aa, some q_aa⟩).bind (q_sort 3)).map (q_nodes 3) ≠
      (q_sort 3 ⟨mem_aa, some q_aa⟩).map (q_nodes 3) :=
  ⟨⟨⟨by decide, by decide, by decide⟩, by decide⟩, by decide, by decide, by decide, by decide,
    by decide⟩

/-- C15, amended: on a queue made of the elements `L`, `q_sort` (given
fuel) returns and leaves the size unchanged.  When the strings of `L` are
already in non-decreasing order it leaves the sequence of strings read from
head to tail unchanged, and when in addition no two elements hold equal
strings it leaves the state exactly as it was: the same element memory, the
same queue record (head, tail, size) and the same order of elements.  For
every queue a second `q_sort` leaves the sequence of strings and the size
that the first one left, and when no two elements hold equal strings it
leaves the very state that the first one left. -/
theorem q_sort_sorted_input_values (m : Mem) (q : queue_t) (L : List Addr) (fuel : Nat)
    (hq : QueueOf m q L) (hfuel : L.length + 1 ≤ fuel) :
    ∃ m1 q1 L1 m2 q2 L2,
      q_sort fuel ⟨m, some q⟩ = some ⟨m1, some q1⟩ ∧ QueueOf m1 q1 L1 ∧
      q_sort fuel ⟨m1, some q1⟩ = some ⟨m2, some q2⟩ ∧ QueueOf m2 q2 L2 ∧
      (SortedAt m L → contents m1 L1 = contents m L) ∧ q1.size = q.size ∧
      (SortedAt m L → NoTies m L → m1 = m ∧ q1 = q ∧ L1 = L) ∧
      contents m2 L2 = contents m1 L1 ∧ q2.size = q1.size ∧
      (NoTies m L → m2 = m1 ∧ q2 = q1 ∧ L2 = L1) := by
  obtain ⟨m1, q1, h1, hq1, hv1, _⟩ := q_sort_spec hq.1 fuel hfuel
  have hp1 := msortL_perm' (lt_at m) L
  have hfuel1 : (msortL (lt_at m) L).length + 1 ≤ fuel := by rw [hp1.length_eq]; exact hfuel
  obtain ⟨m2, q2, h2, hq2, hv2, _⟩ := q_sort_spec hq1 fuel hfuel1
  have hp2 := msortL_perm' (lt_at m1) (msortL (lt_at m) L)
  have hs1 : SortedAt m1 (msortL (lt_at m) L) := sortedAt_congr hv1 (msortL_sortedAt m L)
  have hb1 : (((msortL (lt_at m) L).length : Nat) : Int) ≤ INT_MAX := by
    rw [hp1.length_eq]; exact hq.2
  refine ⟨m1, q1, _, m2, q2, _, h1, ⟨hq1, hb1⟩, h2,
    queueOf_of_exact hq2 hp2.length_eq hb1, ?_, ?_, ?_, ?_, ?_, ?_⟩
  · intro hs
    rw [sameValues_contents hv1]
    exact sorted_perm_contents hs (msortL_sortedAt m L) hp1
  · rw [hq1.2.1, hq.1.2.1, hp1.length_eq]
  · intro hs hn
    obtain ⟨hid, hL⟩ := q_sort_strict_id hq.1 (strict_of_sorted_noTies hs hn) fuel hfuel
    rw [hid] at h1
    have hst := Option.some.inj h1
    have hm : m = m1 := congrArg State.mem hst
    have hqq : some q = some q1 := congrArg State.q hst
    exact ⟨hm.symm, (Option.some.inj hqq).symm, hL⟩
  · rw [sameValues_contents hv2]
    exact sorted_perm_contents hs1 (msortL_sortedAt m1 _) hp2
  · rw [hq2.2.1, hq1.2.1, hp2.length_eq]
  · intro hn
    have hn1 : NoTies m1 (msortL (lt_at m) L) := noTies_congr hv1 (noTies_perm hp1 hn)
    obtain ⟨hid, hL⟩ := q_sort_strict_id hq1 (strict_of_sorted_noTies hs1 hn1) fuel hfuel1
    rw [hid] at h2
    have hst := Option.some.inj h2
    have hm : m1 = m2 := congrArg State.mem hst
    have hqq : some q1 = some q2 := congrArg State.q hst
    exact ⟨hm.symm, (Option.some.inj hqq).symm, hL⟩

/-- Witness of the amended C15: the queue [a, b, c], in increasing order and
without equal strings, is left as it is. -/
theorem q_sort_sorted_input_values_witness :
    (QueueOf mem_abc q_abc [1, 2, 3] ∧ ([1, 2, 3] : List Addr).length + 1 ≤ 4 ∧
      SortedAt mem_abc [1, 2, 3] ∧ NoTies mem_abc [1, 2, 3]) ∧
    (∃ m1 q1 L1 m2 q2 L2,
      q_sort 4 ⟨mem_abc, some q_abc⟩ = some ⟨m1, some q1⟩ ∧ QueueOf m1 q1 L1 ∧
      q_sort 4 ⟨m1, some q1⟩ = some ⟨m2, some q2⟩ ∧ QueueOf m2 q2 L2 ∧
      (SortedAt mem_abc [1, 2, 3] → contents m1 L1 = contents mem_abc [1, 2, 3]) ∧
      q1.size = q_abc.size ∧
      (SortedAt mem_abc [1, 2, 3] → NoTies mem_abc [1, 2, 3] →
        m1 = mem_abc ∧ q1 = q_abc ∧ L1 = [1, 2, 3]) ∧
      contents m2 L2 = contents m1 L1 ∧ q2.size = q1.size ∧
      (NoTies mem_abc [1, 2, 3] → m2 = m1 ∧ q2 = q1 ∧ L2 = L1)) ∧
    (q_sort 4 ⟨mem_abc, some q_abc⟩).map (fun st => (q_nodes 3 st, st.q)) =
      some (some [1, 2, 3], some q_abc) :=
  ⟨⟨⟨⟨by decide, by decide, by decide⟩, by decide⟩, by decide, by decide, by decide⟩,
    q_sort_sorted_input_values mem_abc q_abc [1, 2, 3] 4
      ⟨⟨by decide, by decide, by decide⟩, by decide⟩ (by decide),
    by decide⟩

end LabQueue
